import Mathlib

/-!
Shallow embedding of the PaperGraph citation-exploration engine.

Sources embedded:
* `src/backend/paper_comparison.py` — relevance scoring (cosine similarity over
  chunk embeddings, mean/pairwise blend).
* `src/backend/util/frontier.py` — Queue / Stack / PriorityQueue frontiers,
  the latter backed by Python's `heapq` over `(key, element)` tuples.
* `src/backend/paper_service.py` — relation caching (`process_citation`),
  reference filtering (`process_citations` / `process_parents`) and the
  recursive downward/upward exploration with websocket streaming
  (`explore_downward`, `explore_upward`, `explore_paper`).

Modelling conventions: Python floats are modelled as rationals (`ℚ`), with
`ratSqrt` an exact rational square root on perfect squares standing in for
floating-point `sqrt`; Python exceptions are modelled by `Except Err`, and a
raised exception carries the mutated state with it (Python mutates sets and
frontiers in place, so state changes made before a raise survive the raise);
the websocket is modelled as an append-only message trace inside the state.
Recursion is bounded by explicit fuel; exhausted fuel is a distinguished
`Err.fuel` that no exception handler catches, so that theorems conditioned on
an `.ok` result speak only about executions the Python code actually has.
-/

namespace PaperGraph

/-! ## Rational arithmetic helpers (model of numpy / sklearn primitives) -/

/-- Exact rational square root on perfect squares (`ratSqrt (a/b)^2 = a/b` for
reduced `a/b`); on non-squares it is a deterministic floor approximation,
standing in for floating-point `sqrt` in `np.linalg.norm` / sklearn. -/
def ratSqrt (q : ℚ) : ℚ :=
  if q < 0 then 0 else (Nat.sqrt (q.num.toNat * q.den) : ℚ) / (q.den : ℚ)

/-- Dot product of two embedding vectors (`np.dot` on equal-length vectors). -/
def dotProd (a b : List ℚ) : ℚ :=
  (List.zipWith (· * ·) a b).sum

/-- Componentwise sum of two vectors (numpy vector addition). -/
def vecAdd (a b : List ℚ) : List ℚ :=
  List.zipWith (· + ·) a b

/-- `np.mean(arr, axis=0)`: componentwise mean of a nonempty list of
equal-length vectors (empty input never reaches this in the source). -/
def meanVec (l : List (List ℚ)) : List ℚ :=
  match l with
  | [] => []
  | v :: vs => (vs.foldl vecAdd v).map (· / (l.length : ℚ))

/-- Cosine similarity of two vectors as `sklearn.metrics.pairwise
.cosine_similarity` computes it: dot product of the two normalized vectors,
where a zero norm is replaced by 1 (sklearn's `normalize` convention). -/
def cosineSim (a b : List ℚ) : ℚ :=
  let na := ratSqrt (dotProd a a)
  let nb := ratSqrt (dotProd b b)
  dotProd a b / ((if na = 0 then 1 else na) * (if nb = 0 then 1 else nb))

/-- Maximum of a list of rationals (`np.max` along a nonempty axis;
the `[]` case is never reached in the source). -/
def listMax : List ℚ → ℚ
  | [] => 0
  | x :: xs => xs.foldl max x

/-- Mean of a list of rationals (`np.mean` of a nonempty vector). -/
def listMean (l : List ℚ) : ℚ :=
  l.sum / (l.length : ℚ)

/-- Model of Python exceptions that can cross the layers we embed. -/
inductive Err where
  /-- `TypeError` (e.g. `-None`, `None >= 0.88`, comparing two dicts). -/
  | typeError : Err
  /-- `ValueError` raised by sklearn on empty / ragged input arrays. -/
  | valueError : Err
  /-- `IndexError` raised by `pop` on an empty frontier. -/
  | indexError : Err
  /-- `fastapi.HTTPException(500, str(e))` wrapping another exception. -/
  | http : Err → Err
  /-- Modelling artifact: recursion fuel exhausted. Never raised by the
  Python code and never caught by any modelled `except` block. -/
  | fuel : Err
deriving Repr, DecidableEq

/-- True for every constructor except the fuel artifact. -/
def Err.isPy : Err → Bool
  | .fuel => false
  | _ => true

/-! ## `paper_comparison.py` similarity functions

Embedding lists are `List (List ℚ)`. sklearn raises `ValueError` on an empty
input array (0 samples) and numpy/sklearn raise on ragged input, which the
`raggedOrEmpty` guard models; with nonempty well-formed input the functions
are total. -/

/-- All numbers in the list are equal. -/
def allEqNat (l : List Nat) : Bool :=
  l.all (fun n => n = l.headD 0)

/-- Guard modelling the `ValueError`s of `np.array` on ragged nested lists and
of `sklearn.cosine_similarity` on arrays with zero samples or mismatched
feature dimensions. -/
def raggedOrEmpty (A B : List (List ℚ)) : Bool :=
  A.isEmpty || B.isEmpty || !allEqNat ((A ++ B).map List.length)

/-- `mean_embedding_similarity`: cosine similarity of the two centroid
vectors. -/
def mean_embedding_similarity (A B : List (List ℚ)) : Except Err ℚ :=
  if raggedOrEmpty A B then .error .valueError
  else .ok (cosineSim (meanVec A) (meanVec B))

/-- `pairwise_chunk_similarity`: full pairwise cosine matrix; average of the
per-row maxima of A against B and of B against A, then averaged. -/
def pairwise_chunk_similarity (A B : List (List ℚ)) : Except Err ℚ :=
  if raggedOrEmpty A B then .error .valueError
  else
    let maxSimA := A.map (fun a => listMax (B.map (fun b => cosineSim a b)))
    let maxSimB := B.map (fun b => listMax (A.map (fun a => cosineSim a b)))
    .ok ((listMean maxSimA + listMean maxSimB) / 2)

/-- `compare_paper_embeddings`: blend
`alpha * pairwise_sim + (1 - alpha) * mean_sim`. -/
def compare_paper_embeddings (A B : List (List ℚ)) (alpha : ℚ) : Except Err ℚ :=
  match mean_embedding_similarity A B with
  | .error e => .error e
  | .ok mean_sim =>
    match pairwise_chunk_similarity A B with
    | .error e => .error e
    | .ok pairwise_sim => .ok (alpha * pairwise_sim + (1 - alpha) * mean_sim)

/-! ## Data model (`paper_service.py` / repository rows) -/

/-- A row of the `papers` table, as read through
`get_paper_by_semantic_id` (only the fields the engine reads). A paper row
has no `relevance_score` key, so `row.get("relevance_score")` is `None`. -/
structure PaperRow where
  title : String
  year : Int
deriving Repr, DecidableEq

/-- A chunk row; `embedding` is `none` when the `embedding` field is absent or
falsy (the engine skips such chunks). -/
structure Chunk where
  embedding : Option (List ℚ)
deriving Repr, DecidableEq

/-- A node dictionary as built by `explore_downward` / `explore_upward` and
sent over the websocket / inserted into the frontier. -/
structure NodeJson where
  id : String
  title : String
  year : Int
  relevance_score : Option ℚ
deriving Repr, DecidableEq

/-- A websocket message (`websocket.send_json` payloads). -/
inductive Msg where
  /-- `{"phase": ..., "nodes": [...], "links": [{"source","target"}...]}` -/
  | batch (phase : String) (nodes : List NodeJson) (links : List (String × String))
  /-- `{"status": ...}` -/
  | status (text : String)
  /-- `{"status": "error", "message": str(e)}` -/
  | error (e : Err)
deriving Repr, DecidableEq

/-- The `traversal_type` parameter: `"bfs"`, `"dfs"`, anything else selects
the priority queue. -/
inductive TraversalType where
  | bfs | dfs | priority
deriving Repr, DecidableEq

/-! ## Python `heapq` over `(key, element)` tuples (`util/frontier.py`)

`PriorityQueue.insert` pushes `(comparator(element), element)` tuples;
comparing two tuples with equal first components falls through to comparing
the element dicts, which raises `TypeError` in Python 3. The heap list is
mutated in place, so writes made before a raising comparison survive: every
operation returns the (possibly partially sifted) list alongside the result. -/

/-- Comparison of two `(key, element)` tuples as Python evaluates
`a < b`: decided by the keys when they differ, `TypeError` otherwise
(the elements are dicts, which are unorderable). -/
def entryLt {α : Type} (a b : ℚ × α) : Except Err Bool :=
  if a.1 < b.1 then .ok true
  else if b.1 < a.1 then .ok false
  else .error .typeError

/-- `heapq._siftdown(heap, startpos, pos)` with `newitem = heap[pos]` passed
explicitly (Python reads it once before the loop and writes it back last). -/
def heapSiftdown {α : Type} (heap : List (ℚ × α)) (startpos pos : Nat)
    (newitem : ℚ × α) : Except Err Unit × List (ℚ × α) :=
  if _h : startpos < pos then
    let parentpos := (pos - 1) / 2
    match heap.get? parentpos with
    | none => (.ok (), heap.set pos newitem)
    | some parent =>
      match entryLt newitem parent with
      | .error e => (.error e, heap)
      | .ok true => heapSiftdown (heap.set pos parent) startpos parentpos newitem
      | .ok false => (.ok (), heap.set pos newitem)
  else (.ok (), heap.set pos newitem)
termination_by pos
decreasing_by exact Nat.lt_of_le_of_lt (Nat.div_le_self _ _) (by omega)

/-- `heapq.heappush`: append, then sift down from the new last slot. -/
def heappush {α : Type} (heap : List (ℚ × α)) (item : ℚ × α) :
    Except Err Unit × List (ℚ × α) :=
  heapSiftdown (heap ++ [item]) 0 heap.length item

/-- `heapq._siftup(heap, pos)`: move the smaller child up until reaching a
leaf, then `_siftdown` the saved item into place. -/
def heapSiftup {α : Type} (heap : List (ℚ × α)) (startpos pos : Nat)
    (newitem : ℚ × α) : Except Err Unit × List (ℚ × α) :=
  if _h : 2 * pos + 1 < heap.length then
    match heap.get? (2 * pos + 1) with
    | none => (.ok (), heap)
    | some c =>
      if _hr : 2 * pos + 2 < heap.length then
        match heap.get? (2 * pos + 2) with
        | none => (.ok (), heap)
        | some r =>
          match entryLt c r with
          | .error e => (.error e, heap)
          | .ok true => heapSiftup (heap.set pos c) startpos (2 * pos + 1) newitem
          | .ok false => heapSiftup (heap.set pos r) startpos (2 * pos + 2) newitem
      else heapSiftup (heap.set pos c) startpos (2 * pos + 1) newitem
  else heapSiftdown heap startpos pos newitem
termination_by heap.length - pos
decreasing_by
  all_goals simp only [List.length_set]; omega

/-- `heapq.heappop`: pop the last element; if the heap is still nonempty,
save the root as the return value, move the last element to the root and
sift up. An empty list raises `IndexError`. -/
def heappop {α : Type} (heap : List (ℚ × α)) :
    Except Err (ℚ × α) × List (ℚ × α) :=
  match heap.getLast? with
  | none => (.error .indexError, heap)
  | some lastelt =>
    let rest := heap.dropLast
    match rest.get? 0 with
    | none => (.ok lastelt, rest)
    | some returnitem =>
      match heapSiftup (rest.set 0 lastelt) 0 0 lastelt with
      | (.error e, h2) => (.error e, h2)
      | (.ok _, h2) => (.ok returnitem, h2)

/-! ## Frontier (`util/frontier.py`)

`Queue` (collections.deque), `Stack` (list), `PriorityQueue` (heapq with
`comparator = lambda x: -x.get("relevance_score", 0)`, the comparator used at
the single construction site in `explore_paper`). Node dicts always carry the
`relevance_score` key, so `x.get(...)` returns its value even when that value
is `None` — and `-None` raises `TypeError`. -/

/-- The three interchangeable frontier structures. -/
inductive Frontier where
  | queue (items : List NodeJson)
  | stack (items : List NodeJson)
  | prio (heap : List (ℚ × NodeJson))
deriving Repr, DecidableEq

/-- `lambda x: -x.get("relevance_score", 0)` applied to a node dict: the key
is always present, so a `None` score raises `TypeError` under negation. -/
def negScore (n : NodeJson) : Except Err ℚ :=
  match n.relevance_score with
  | some v => .ok (-v)
  | none => .error .typeError

/-- `Frontier.insert`: append for queue/stack, `heappush` of
`(comparator(element), element)` for the priority queue. -/
def Frontier.insert : Frontier → NodeJson → Except Err Unit × Frontier
  | .queue l, n => (.ok (), .queue (l ++ [n]))
  | .stack l, n => (.ok (), .stack (l ++ [n]))
  | .prio h, n =>
    match negScore n with
    | .error e => (.error e, .prio h)
    | .ok k =>
      match heappush h (k, n) with
      | (.error e, h2) => (.error e, .prio h2)
      | (.ok _, h2) => (.ok (), .prio h2)

/-- `Frontier.is_empty`. -/
def Frontier.is_empty : Frontier → Bool
  | .queue l => l.isEmpty
  | .stack l => l.isEmpty
  | .prio h => h.isEmpty

/-- `Frontier.pop`: each variant first checks emptiness and raises
`IndexError`; then popleft / list-pop / `heappop` (returning the element
component of the popped tuple). -/
def Frontier.pop : Frontier → Except Err NodeJson × Frontier
  | .queue [] => (.error .indexError, .queue [])
  | .queue (x :: xs) => (.ok x, .queue xs)
  | .stack l =>
    match l.getLast? with
    | none => (.error .indexError, .stack l)
    | some x => (.ok x, .stack l.dropLast)
  | .prio h =>
    if h.isEmpty then (.error .indexError, .prio h)
    else
      match heappop h with
      | (.error e, h2) => (.error e, .prio h2)
      | (.ok entry, h2) => (.ok entry.2, .prio h2)

/-- Frontier construction in `explore_paper` from `traversal_type`. -/
def mkFrontier : TraversalType → Frontier
  | .bfs => .queue []
  | .dfs => .stack []
  | .priority => .prio []

/-! ## Store state and repository operations

The static database content (papers, citation rows, and the external
GROBID + OpenAI extraction/embedding pipeline, a deterministic external
collaborator) is `DB`. Everything the engine mutates — generated chunk
embeddings, relation rows, the session's explored set and frontier, the
websocket trace, and a count of `compare_two_papers` invocations used to
state the memoization property — is `St`, threaded through every call.
A raised exception returns the mutated `St` (Python mutates in place). -/

/-- Association-list lookup (first matching key). -/
def alookup {α β : Type} [DecidableEq α] : List (α × β) → α → Option β
  | [], _ => none
  | (k, v) :: rest, key => if k = key then some v else alookup rest key

/-- Static database content and external collaborators. -/
structure DB where
  /-- `papers` table rows keyed by semantic id. -/
  papers : List (String × PaperRow)
  /-- `citations` table rows `(source_paper_id, cited_paper_id)`. -/
  citations : List (String × String)
  /-- The external extraction + embedding pipeline behind
  `generate_embedding_for_paper_chunks`: the chunk rows it would create for a
  paper (deterministic external collaborator). -/
  embedFn : String → List Chunk

/-- Mutable state threaded through the engine. -/
structure St where
  /-- Chunk rows by semantic id; an id that was never embedded is absent
  (`get_chunks_by_semantic_id` returns a falsy empty result). -/
  chunks : List (String × List Chunk)
  /-- `relations` rows keyed by `(source_paper_id, target_paper_id)`, holding
  the nullable `relevance_score`. -/
  relations : List ((String × String) × Option ℚ)
  /-- The `explored_papers` set owned by the running phase. -/
  explored : List String
  /-- The frontier owned by the running phase. -/
  frontier : Frontier
  /-- The websocket: every `send_json` appends here. -/
  messages : List Msg
  /-- Number of `compare_two_papers` invocations so far. -/
  computeCount : Nat
deriving DecidableEq

/-- `repository.get_paper_by_semantic_id`. -/
def getPaper (db : DB) (pid : String) : Option PaperRow :=
  alookup db.papers pid

/-- `repository.get_citations_by_source`: the cited ids, in table order. -/
def getCitationsBySource (db : DB) (pid : String) : List String :=
  (db.citations.filter (fun r => r.1 = pid)).map (fun r => r.2)

/-- `repository.get_citations_by_cited`: the citing ids, in table order. -/
def getCitationsByCited (db : DB) (pid : String) : List String :=
  (db.citations.filter (fun r => r.2 = pid)).map (fun r => r.1)

/-- `repository.get_chunks_by_semantic_id` (absent id gives the falsy `[]`). -/
def getChunks (s : St) (pid : String) : List Chunk :=
  (alookup s.chunks pid).getD []

/-- `repository.get_relation_by_source_and_target` (`none` = no row). -/
def getRelation (s : St) (src tgt : String) : Option (Option ℚ) :=
  alookup s.relations (src, tgt)

/-- `repository.create_relation` with NULL score. -/
def createRelation (s : St) (src tgt : String) : St :=
  { s with relations := s.relations ++ [((src, tgt), none)] }

/-- `repository.update_relation_by_source_and_target` setting the score. -/
def updateRelationScore (s : St) (src tgt : String) (v : ℚ) : St :=
  { s with relations :=
      s.relations.map (fun r => if r.1 = (src, tgt) then (r.1, some v) else r) }

/-- Store the chunk rows produced for `pid` (replacing an empty row set). -/
def setChunks (s : St) (pid : String) (cs : List Chunk) : St :=
  if (alookup s.chunks pid).isSome then
    { s with chunks := s.chunks.map (fun r => if r.1 = pid then (pid, cs) else r) }
  else
    { s with chunks := s.chunks ++ [(pid, cs)] }

/-- `websocket.send_json`. -/
def pushMsg (s : St) (m : Msg) : St :=
  { s with messages := s.messages ++ [m] }

/-- Record one `compare_two_papers` invocation. -/
def bumpCount (s : St) : St :=
  { s with computeCount := s.computeCount + 1 }

/-- `explored_papers.add`. -/
def addExplored (s : St) (pid : String) : St :=
  { s with explored := s.explored ++ [pid] }

/-- Python dict assignment `d[k] = v` (ordered, overwrite keeps position). -/
def dictUpsert (l : List (String × ℚ)) (k : String) (v : ℚ) : List (String × ℚ) :=
  if l.any (fun kv => kv.1 = k) then
    l.map (fun kv => if kv.1 = k then (k, v) else kv)
  else l ++ [(k, v)]

/-- Python `set.update` on an insertion-ordered deduplicated list. -/
def setUnion (a b : List String) : List String :=
  a ++ b.filter (fun x => !a.contains x)

/-- `frontier.insert` through the state. -/
def frontierInsert (s : St) (n : NodeJson) : Except Err Unit × St :=
  match s.frontier.insert n with
  | (.error e, f2) => (.error e, { s with frontier := f2 })
  | (.ok _, f2) => (.ok (), { s with frontier := f2 })

/-- `frontier.pop` through the state. -/
def frontierPop (s : St) : Except Err NodeJson × St :=
  match s.frontier.pop with
  | (.error e, f2) => (.error e, { s with frontier := f2 })
  | (.ok n, f2) => (.ok n, { s with frontier := f2 })

/-- `for node in nodes: frontier.insert(node)` — stops at the first raise. -/
def frontierInsertAll : List NodeJson → St → Except Err Unit × St
  | [], s => (.ok (), s)
  | n :: rest, s =>
    match frontierInsert s n with
    | (.error e, s1) => (.error e, s1)
    | (.ok _, s1) => frontierInsertAll rest s1

/-! ## `paper_comparison.py` / `paper_service.py` operations -/

/-- `generate_embedding_for_paper_chunks`: no-op when chunk rows exist;
otherwise reads `get_paper_by_semantic_id(pid)["local_filepath"]` — indexing
`None` raises `TypeError` when the paper row is missing — and stores the
chunk rows produced by the external extraction + embedding pipeline. -/
def generate_embedding_for_paper_chunks (db : DB) (pid : String) (s : St) :
    Except Err Unit × St :=
  if getChunks s pid ≠ [] then (.ok (), s)
  else
    match getPaper db pid with
    | none => (.error .typeError, s)
    | some _ => (.ok (), setChunks s pid (db.embedFn pid))

/-- `compare_two_papers`: collect the truthy chunk embeddings of both papers;
if either list is empty return `0.0`, else blend via
`compare_paper_embeddings` (called with `alpha = 0.5` by `process_citation`,
the function's default). Reads the store, mutates nothing. -/
def compare_two_papers (s : St) (main baseline : String) (alpha : ℚ) :
    Except Err ℚ :=
  let embA := (getChunks s main).filterMap (fun c => c.embedding)
  let embB := (getChunks s baseline).filterMap (fun c => c.embedding)
  if embA.isEmpty || embB.isEmpty then .ok 0
  else compare_paper_embeddings embA embB alpha

/-- `PaperService.fetch_or_insert_relation`: return the relation row, creating
a blank one (NULL score) and re-fetching if absent. -/
def fetch_or_insert_relation (src tgt : String) (s : St) :
    Except Err (Option (Option ℚ)) × St :=
  match getRelation s src tgt with
  | some r => (.ok (some r), s)
  | none =>
    let s1 := createRelation s src tgt
    (.ok (getRelation s1 src tgt), s1)

/-- `except Exception as e: raise HTTPException(500, str(e))`; the fuel
artifact is not a Python exception and passes through unchanged. -/
def wrapHttp (e : Err) : Err :=
  if e = .fuel then e else .http e

/-- `PaperService.process_citation`: return `0.0` if the target paper is
missing; fetch-or-create the relation row; return a stored score; otherwise
ensure both papers have chunk embeddings, compute the blended score and
persist it exactly as computed. Any raise is wrapped in `HTTPException`. -/
def process_citation (db : DB) (root tgt : String) (s : St) :
    Except Err ℚ × St :=
  match getPaper db tgt with
  | none => (.ok 0, s)
  | some _ =>
    match fetch_or_insert_relation root tgt s with
    | (.error e, s1) => (.error (wrapHttp e), s1)
    | (.ok none, s1) => (.ok 0, s1)
    | (.ok (some (some v)), s1) => (.ok v, s1)
    | (.ok (some none), s1) =>
      match
        (if getChunks s1 root = [] then
          generate_embedding_for_paper_chunks db root s1
        else (.ok (), s1)) with
      | (.error e, s2) => (.error (wrapHttp e), s2)
      | (.ok _, s2) =>
        match
          (if getChunks s2 tgt = [] then
            generate_embedding_for_paper_chunks db tgt s2
          else (.ok (), s2)) with
        | (.error e, s3) => (.error (wrapHttp e), s3)
        | (.ok _, s3) =>
          let s4 := bumpCount s3
          match compare_two_papers s4 root tgt (1 / 2) with
          | .error e => (.error (wrapHttp e), s4)
          | .ok v => (.ok v, updateRelationScore s4 root tgt v)

/-- The shared per-row loop of `process_citations` and `process_parents`:
skip explored ids, compute-or-fetch each score, drop below-threshold ids into
the explored set, record the rest in the ordered result dict. -/
def filter_by_relevance_go (db : DB) (root : String) (θ : ℚ) :
    List String → List (String × ℚ) → St → Except Err (List (String × ℚ)) × St
  | [], acc, s => (.ok acc, s)
  | t :: rest, acc, s =>
    if t ∈ s.explored then filter_by_relevance_go db root θ rest acc s
    else
      match process_citation db root t s with
      | (.error e, s1) => (.error (wrapHttp e), s1)
      | (.ok v, s1) =>
        if v < θ then
          filter_by_relevance_go db root θ rest acc (addExplored s1 t)
        else
          filter_by_relevance_go db root θ rest (dictUpsert acc t v) s1

/-- `PaperService.process_citations`: empty dict when the current paper is
missing from the DB or has no citation rows; otherwise filter its cited ids
by relevance to the root. -/
def process_citations (db : DB) (root cur : String) (θ : ℚ) (s : St) :
    Except Err (List (String × ℚ)) × St :=
  match getPaper db cur with
  | none => (.ok [], s)
  | some _ =>
    let rows := getCitationsBySource db cur
    if rows.isEmpty then (.ok [], s)
    else filter_by_relevance_go db root θ rows [] s

/-- `PaperService.process_parents`: same filtering loop over the papers that
cite `child` (no existence check on `child` itself). -/
def process_parents (db : DB) (root child : String) (θ : ℚ) (s : St) :
    Except Err (List (String × ℚ)) × St :=
  let rows := getCitationsByCited db child
  if rows.isEmpty then (.ok [], s)
  else filter_by_relevance_go db root θ rows [] s

/-! ## Downward exploration (`PaperService.explore_downward`)

The recursion and the `while not frontier.is_empty()` drain loop are mutually
recursive; explicit fuel bounds both (`Err.fuel` on exhaustion, which no
handler catches). Each call's body runs inside `try:`; the `except` block is
`except_block`, which reports any Python exception as a single error message
and turns it into an empty result, with all in-place mutations retained. The
part of the body before the drain loop (guards, reference filtering, node and
link construction, the unconditional batch send, frontier insertion) is
`explore_downward_step`; it returns `none` for the two early `return set()`
exits and `some discovered` otherwise. -/

/-- The `except Exception as e:` block shared by the exploration entry
points: report the exception once as an error message and return the
fallback value (empty set / empty dict). The fuel artifact passes through. -/
def except_block {α : Type} (fallback : α) (caught : Except Err α × St) :
    Except Err α × St :=
  match caught with
  | (.error e, s9) =>
    if e = Err.fuel then (.error e, s9) else (.ok fallback, pushMsg s9 (Msg.error e))
  | ok => ok

/-- `explore_downward` up to (not including) the frontier drain loop:
depth guard, cycle guard, `process_citations`, node list (each recorded
reference whose paper row exists, then the current paper), links, the
unconditional `"downward"` batch send, and frontier insertion of every node.
Returns `none` on the two early `return set()` exits, otherwise
`some (initial discovered set)`. -/
def explore_downward_step (db : DB) (root start : String)
    (maxDepth curDepth : Nat) (θ : ℚ) (s : St) :
    Except Err (Option (List String)) × St :=
  if curDepth > maxDepth then
    (.ok none, pushMsg s (.status "Max exploration depth reached"))
  else if start ∈ s.explored then (.ok none, s)
  else
    let sA := addExplored s start
    match process_citations db root start θ sA with
    | (.error e, s1) => (.error e, s1)
    | (.ok refs, s1) =>
      let nodesRef := refs.foldl
        (fun acc tv =>
          match getPaper db tv.1 with
          | none => acc
          | some p => acc ++ [NodeJson.mk tv.1 p.title p.year (some tv.2)]) []
      let nodes :=
        match getPaper db start with
        | none => nodesRef
        | some p => nodesRef ++ [NodeJson.mk start p.title p.year none]
      let links := refs.map (fun tv => (start, tv.1))
      let s2 := pushMsg s1 (Msg.batch "downward" nodes links)
      match frontierInsertAll nodes s2 with
      | (.error e, s3) => (.error e, s3)
      | (.ok _, s3) =>
        (.ok (some (setUnion [start] (refs.map (fun tv => tv.1)))), s3)

mutual

/-- One recursive `explore_downward` call: run the step, then drain the
frontier, all under the `except` block. -/
def explore_downward (db : DB) (fuel : Nat) (root start : String)
    (maxDepth curDepth : Nat) (θ : ℚ) (s : St) :
    Except Err (List String) × St :=
  match fuel with
  | 0 => (.error .fuel, s)
  | Nat.succ fuel =>
    except_block []
      (match explore_downward_step db root start maxDepth curDepth θ s with
       | (.error e, s1) => (.error e, s1)
       | (.ok none, s1) => (.ok [], s1)
       | (.ok (some discovered), s3) =>
         explore_downward_loop db fuel root maxDepth curDepth θ discovered s3)
termination_by structural fuel

/-- The `while not frontier.is_empty()` drain loop of `explore_downward`,
accumulating the discovered set. -/
def explore_downward_loop (db : DB) (fuel : Nat) (root : String)
    (maxDepth curDepth : Nat) (θ : ℚ) (discovered : List String) (s : St) :
    Except Err (List String) × St :=
  match fuel with
  | 0 => (.error .fuel, s)
  | Nat.succ fuel =>
    if s.frontier.is_empty then (.ok discovered, s)
    else
      match frontierPop s with
      | (.error e, s1) => (.error e, s1)
      | (.ok node, s1) =>
        if node.id ∈ s1.explored then
          explore_downward_loop db fuel root maxDepth curDepth θ discovered s1
        else
          match explore_downward db fuel root node.id maxDepth (curDepth + 1) θ s1 with
          | (.error e, s2) => (.error e, s2)
          | (.ok child, s2) =>
            explore_downward_loop db fuel root maxDepth curDepth θ
              (setUnion discovered child) s2
termination_by structural fuel

end

/-! ## Upward exploration (`PaperService.explore_upward`)

Mirror of the downward pass over incoming citations with reversed link
direction; the batch message is sent only when `nodes or links` is truthy. -/

/-- `explore_upward` up to the drain loop: depth guard, cycle guard,
`process_parents`, the node list (parents not yet explored whose paper row
exists, then the current paper), reversed links, the batch send guarded by
`if nodes or links:`, and frontier insertion. -/
def explore_upward_step (db : DB) (root start : String)
    (maxDepth curDepth : Nat) (θ : ℚ) (s : St) :
    Except Err (Option (List String)) × St :=
  if curDepth > maxDepth then
    (.ok none, pushMsg s (.status "Max upward depth reached"))
  else if start ∈ s.explored then (.ok none, s)
  else
    let sA := addExplored s start
    match process_parents db root start θ sA with
    | (.error e, s1) => (.error e, s1)
    | (.ok parents, s1) =>
      let nodesPar := parents.foldl
        (fun acc tv =>
          if tv.1 ∈ s1.explored then acc
          else
            match getPaper db tv.1 with
            | none => acc
            | some p => acc ++ [NodeJson.mk tv.1 p.title p.year (some tv.2)]) []
      let links := parents.map (fun tv => (tv.1, start))
      let nodes :=
        match getPaper db start with
        | none => nodesPar
        | some p => nodesPar ++ [NodeJson.mk start p.title p.year none]
      let s2 :=
        if nodes.isEmpty && links.isEmpty then s1
        else pushMsg s1 (Msg.batch "upward" nodes links)
      match frontierInsertAll nodes s2 with
      | (.error e, s3) => (.error e, s3)
      | (.ok _, s3) =>
        (.ok (some (setUnion [start] (parents.map (fun tv => tv.1)))), s3)

mutual

/-- One recursive `explore_upward` call. -/
def explore_upward (db : DB) (fuel : Nat) (root start : String)
    (maxDepth curDepth : Nat) (θ : ℚ) (s : St) :
    Except Err (List String) × St :=
  match fuel with
  | 0 => (.error .fuel, s)
  | Nat.succ fuel =>
    except_block []
      (match explore_upward_step db root start maxDepth curDepth θ s with
       | (.error e, s1) => (.error e, s1)
       | (.ok none, s1) => (.ok [], s1)
       | (.ok (some discovered), s3) =>
         explore_upward_loop db fuel root maxDepth curDepth θ discovered s3)
termination_by structural fuel

/-- The `while not frontier.is_empty()` drain loop of `explore_upward`. -/
def explore_upward_loop (db : DB) (fuel : Nat) (root : String)
    (maxDepth curDepth : Nat) (θ : ℚ) (discovered : List String) (s : St) :
    Except Err (List String) × St :=
  match fuel with
  | 0 => (.error .fuel, s)
  | Nat.succ fuel =>
    if s.frontier.is_empty then (.ok discovered, s)
    else
      match frontierPop s with
      | (.error e, s1) => (.error e, s1)
      | (.ok node, s1) =>
        if node.id ∈ s1.explored then
          explore_upward_loop db fuel root maxDepth curDepth θ discovered s1
        else
          match explore_upward db fuel root node.id maxDepth (curDepth + 1) θ s1 with
          | (.error e, s2) => (.error e, s2)
          | (.ok child, s2) =>
            explore_upward_loop db fuel root maxDepth curDepth θ
              (setUnion discovered child) s2
termination_by structural fuel

end

/-! ## Session orchestration (`PaperService.explore_paper`) -/

/-- The qualification filter after the downward phase: keep every discovered
non-root id whose relation row to the root exists and whose
`rel_data.get("relevance_score", 0)` meets the threshold; the key is present
in every row, so a NULL score makes `None >= threshold` raise `TypeError`. -/
def qualified_go (root : String) (θ : ℚ) :
    List String → List String → St → Except Err (List String) × St
  | [], acc, s => (.ok acc, s)
  | n :: rest, acc, s =>
    if n = root then qualified_go root θ rest acc s
    else
      match getRelation s root n with
      | none => qualified_go root θ rest acc s
      | some none => (.error .typeError, s)
      | some (some v) =>
        if v ≥ θ then qualified_go root θ rest (acc ++ [n]) s
        else qualified_go root θ rest acc s

/-- The upward phase: for each qualified node, remove it from the explored set
if present (so upward can process it again) and run `explore_upward` with
`max_depth = 1`, accumulating the union of the discovered sets. -/
def upward_phase (db : DB) (fuel : Nat) (root : String) (θ : ℚ) :
    List String → List String → St → Except Err (List String) × St
  | [], acc, s => (.ok acc, s)
  | q :: rest, acc, s =>
    let s1 :=
      if q ∈ s.explored then { s with explored := s.explored.filter (fun x => x ≠ q) }
      else s
    match explore_upward db fuel root q 1 0 θ s1 with
    | (.error e, s2) => (.error e, s2)
    | (.ok u, s2) => upward_phase db fuel root θ rest (setUnion acc u) s2

/-- `PaperService.explore_paper`: build the downward frontier and a fresh
explored set, run the downward phase, filter the qualified nodes, then run the
upward phase over them with a fresh frontier and the downward explored set.
Returns `some (downward_discovered, upward_discovered)`; the surrounding
`try/except` turns any raise into a single error message and the bare `{}`
return, modelled as `none`. -/
def explore_paper (db : DB) (fuel : Nat) (root start : String)
    (maxDepth : Nat) (θ : ℚ) (ttype : TraversalType) (s : St) :
    Except Err (Option (List String × List String)) × St :=
  let s0 := { s with frontier := mkFrontier ttype, explored := [] }
  except_block none
    (match explore_downward db fuel root start maxDepth 0 θ s0 with
     | (.error e, s1) => (.error e, s1)
     | (.ok d, s1) =>
       match qualified_go root θ d [] s1 with
       | (.error e, s2) => (.error e, s2)
       | (.ok qs, s2) =>
         let s3 := { s2 with frontier := mkFrontier ttype }
         match upward_phase db fuel root θ qs [] s3 with
         | (.error e, s4) => (.error e, s4)
         | (.ok u, s4) => (.ok (some (d, u)), s4))

/-! ## Shared concrete fixtures -/

/-- A fresh state: nothing embedded, no relations, empty session. -/
def initSt : St :=
  { chunks := [], relations := [], explored := [], frontier := .queue [],
    messages := [], computeCount := 0 }

/-! ## Claim C9 — pop on an empty frontier fails -/

/-- Claim C9: for each of the three frontier variants (FIFO queue, LIFO
stack, best-score-first priority queue), `pop()` on an empty frontier fails
with an empty-frontier `IndexError` rather than returning a value. -/
theorem C9_empty_pop_raises :
    (Frontier.queue []).pop = (.error .indexError, .queue [])
      ∧ (Frontier.stack []).pop = (.error .indexError, .stack [])
      ∧ (Frontier.prio []).pop = (.error .indexError, .prio []) :=
  ⟨rfl, rfl, rfl⟩

/-! ## Claim C7 — empty embedding lists score `0.0` without raising -/

/-- Claim C7: whenever either paper's list of (truthy) chunk embeddings is
empty, `compare_two_papers` returns exactly `0.0` and raises no exception. -/
theorem C7_empty_embeddings_score_zero (s : St) (a b : String) (alpha : ℚ)
    (h : (getChunks s a).filterMap (fun c => c.embedding) = []
      ∨ (getChunks s b).filterMap (fun c => c.embedding) = []) :
    compare_two_papers s a b alpha = .ok 0 := by
  rcases h with h | h <;> simp [compare_two_papers, h]

/-- Witness for C7 at a concrete input: the fresh store has no chunks for
`"A"`, and the score is `0.0`. -/
theorem C7_empty_embeddings_score_zero_witness :
    ((getChunks initSt "A").filterMap (fun c => c.embedding) = []
        ∨ (getChunks initSt "B").filterMap (fun c => c.embedding) = [])
      ∧ compare_two_papers initSt "A" "B" (1 / 2) = .ok 0 :=
  ⟨Or.inl rfl, C7_empty_embeddings_score_zero initSt "A" "B" (1 / 2) (Or.inl rfl)⟩

/-! ## Claim C8 — the blended relevance score is symmetric -/

theorem allEqNat_iff (l : List Nat) :
    allEqNat l = true ↔ ∀ x ∈ l, ∀ y ∈ l, x = y := by
  cases l with
  | nil => simp [allEqNat]
  | cons a t =>
    simp only [allEqNat, List.all_eq_true, List.headD_cons, decide_eq_true_eq]
    constructor
    · intro h x hx y hy
      rw [h x hx, h y hy]
    · intro h x hx
      exact h x hx a (List.mem_cons_self a t)

theorem allEqNat_append_comm (l₁ l₂ : List Nat) :
    allEqNat (l₁ ++ l₂) = allEqNat (l₂ ++ l₁) := by
  have key : ∀ a b : List Nat, allEqNat (a ++ b) = true → allEqNat (b ++ a) = true := by
    intro a b h
    rw [allEqNat_iff] at h ⊢
    intro x hx y hy
    rw [List.mem_append, or_comm, ← List.mem_append] at hx hy
    exact h x hx y hy
  cases h1 : allEqNat (l₁ ++ l₂) <;> cases h2 : allEqNat (l₂ ++ l₁)
  · rfl
  · exact absurd (key l₂ l₁ h2) (by simp [h1])
  · exact absurd (key l₁ l₂ h1) (by simp [h2])
  · rfl

theorem raggedOrEmpty_comm (A B : List (List ℚ)) :
    raggedOrEmpty A B = raggedOrEmpty B A := by
  simp only [raggedOrEmpty, List.map_append, allEqNat_append_comm]
  cases A.isEmpty <;> cases B.isEmpty <;> simp

theorem dotProd_comm (a b : List ℚ) : dotProd a b = dotProd b a := by
  unfold dotProd
  rw [List.zipWith_comm_of_comm (· * ·) mul_comm]

theorem cosineSim_comm (a b : List ℚ) : cosineSim a b = cosineSim b a := by
  simp only [cosineSim]
  rw [dotProd_comm a b, mul_comm]

theorem mean_embedding_similarity_comm (A B : List (List ℚ)) :
    mean_embedding_similarity A B = mean_embedding_similarity B A := by
  unfold mean_embedding_similarity
  rw [raggedOrEmpty_comm, cosineSim_comm]

theorem pairwise_core_comm (A B : List (List ℚ)) :
    (listMean (A.map (fun a => listMax (B.map (fun b => cosineSim a b))))
        + listMean (B.map (fun b => listMax (A.map (fun a => cosineSim a b))))) / 2
      = (listMean (B.map (fun a => listMax (A.map (fun b => cosineSim a b))))
        + listMean (A.map (fun b => listMax (B.map (fun a => cosineSim a b))))) / 2 := by
  have h1 : A.map (fun b => listMax (B.map (fun a => cosineSim a b)))
      = A.map (fun a => listMax (B.map (fun b => cosineSim a b))) :=
    List.map_congr_left fun x _ =>
      congrArg listMax (List.map_congr_left fun y _ => cosineSim_comm y x)
  have h2 : B.map (fun a => listMax (A.map (fun b => cosineSim a b)))
      = B.map (fun b => listMax (A.map (fun a => cosineSim a b))) :=
    List.map_congr_left fun x _ =>
      congrArg listMax (List.map_congr_left fun y _ => cosineSim_comm x y)
  rw [h1, h2, add_comm]

theorem pairwise_chunk_similarity_comm (A B : List (List ℚ)) :
    pairwise_chunk_similarity A B = pairwise_chunk_similarity B A := by
  simp only [pairwise_chunk_similarity, raggedOrEmpty_comm A B]
  by_cases hc : raggedOrEmpty B A = true
  · rw [if_pos hc, if_pos hc]
  · rw [if_neg hc, if_neg hc]
    exact congrArg Except.ok (pairwise_core_comm A B)

/-- Claim C8: for all non-empty lists `A`, `B` of equal-length embedding
vectors and every blend weight `alpha`, the blended relevance score is
symmetric: `score(A,B) = score(B,A)` (exactly, in the rational model). -/
theorem C8_blend_symmetric (A B : List (List ℚ)) (alpha : ℚ) (d : Nat)
    (_hA : A ≠ []) (_hB : B ≠ [])
    (_hdA : ∀ v ∈ A, v.length = d) (_hdB : ∀ v ∈ B, v.length = d) :
    compare_paper_embeddings A B alpha = compare_paper_embeddings B A alpha := by
  unfold compare_paper_embeddings
  rw [mean_embedding_similarity_comm, pairwise_chunk_similarity_comm]

/-- Witness for C8 at concrete two-chunk inputs of dimension 2. -/
theorem C8_blend_symmetric_witness :
    ([[(1 : ℚ), 0], [0, 1]] ≠ ([] : List (List ℚ)))
      ∧ ([[(1 : ℚ), 1]] ≠ ([] : List (List ℚ)))
      ∧ (∀ v ∈ [[(1 : ℚ), 0], [0, 1]], v.length = 2)
      ∧ (∀ v ∈ [[(1 : ℚ), 1]], v.length = 2)
      ∧ compare_paper_embeddings [[(1 : ℚ), 0], [0, 1]] [[(1 : ℚ), 1]] (3 / 5)
          = compare_paper_embeddings [[(1 : ℚ), 1]] [[(1 : ℚ), 0], [0, 1]] (3 / 5) := by
  refine ⟨by simp, by simp, by decide, by decide, ?_⟩
  exact C8_blend_symmetric _ _ (3 / 5) 2 (by simp) (by simp) (by decide) (by decide)

/-! ## Claim C4 — persisted scores are not clamped -/

theorem alookup_append_none {α β : Type} [DecidableEq α] (l : List (α × β))
    (k : α) (b : β) (h : alookup l k = none) :
    alookup (l ++ [(k, b)]) k = some b := by
  induction l with
  | nil => simp [alookup]
  | cons hd t ih =>
    rw [List.cons_append]
    unfold alookup at h ⊢
    by_cases hk : hd.1 = k
    · simp [hk] at h
    · simp only [hk, if_false] at h ⊢
      exact ih h

theorem alookup_map_update {α β : Type} [DecidableEq α] (l : List (α × β))
    (k : α) (v' : β) (x : β) (h : alookup l k = some x) :
    alookup (l.map (fun r => if r.1 = k then (r.1, v') else r)) k = some v' := by
  induction l with
  | nil => simp [alookup] at h
  | cons hd t ih =>
    simp only [List.map_cons]
    unfold alookup at h ⊢
    by_cases hk : hd.1 = k
    · rw [if_pos hk]
      simp [hk]
    · rw [if_neg hk] at h
      rw [if_neg hk, if_neg hk]
      exact ih h

theorem generate_preserves_relations (db : DB) (pid : String) (s : St) :
    ((generate_embedding_for_paper_chunks db pid s).2).relations = s.relations := by
  unfold generate_embedding_for_paper_chunks
  split
  · rfl
  · cases getPaper db pid
    · rfl
    · simp only [setChunks]
      split <;> rfl

theorem ensure_chunks_preserves_relations (db : DB) (pid : String) (s : St) :
    ((if getChunks s pid = [] then generate_embedding_for_paper_chunks db pid s
      else (.ok (), s)).2).relations = s.relations := by
  split
  · exact generate_preserves_relations db pid s
  · rfl

theorem fetch_or_insert_eq (root tgt : String) (s : St) :
    fetch_or_insert_relation root tgt s
      = match getRelation s root tgt with
        | some r => (.ok (some r), s)
        | none => (.ok (some none), createRelation s root tgt) := by
  unfold fetch_or_insert_relation
  cases h : getRelation s root tgt with
  | some r => rfl
  | none =>
    show (Except.ok (getRelation (createRelation s root tgt) root tgt),
        createRelation s root tgt)
      = (Except.ok (some none), createRelation s root tgt)
    rw [show getRelation (createRelation s root tgt) root tgt = some none from
      alookup_append_none _ _ _ h]

theorem getRelation_createRelation_self (s : St) (root tgt : String)
    (h : getRelation s root tgt = none) :
    getRelation (createRelation s root tgt) root tgt = some none :=
  alookup_append_none _ _ _ h

/-- Exhaustive description of the successful outcomes of `process_citation`:
missing target (score `0.0`, no write), cache hit (stored score returned,
no write), or a computed score persisted exactly as returned. -/
theorem process_citation_ok_cases (db : DB) (root tgt : String) (s : St)
    (v : ℚ) (s' : St)
    (h : process_citation db root tgt s = (.ok v, s')) :
    (getPaper db tgt = none ∧ v = 0 ∧ s' = s)
      ∨ (getRelation s root tgt = some (some v) ∧ s' = s)
      ∨ getRelation s' root tgt = some (some v) := by
  unfold process_citation at h
  cases hpp : getPaper db tgt with
  | none =>
    rw [hpp] at h
    dsimp only at h
    exact Or.inl ⟨rfl, by simpa using (congrArg Prod.fst h).symm,
      by simpa using (congrArg Prod.snd h).symm⟩
  | some prow =>
    rw [hpp, fetch_or_insert_eq] at h
    have blank : ∀ s1 : St, getRelation s1 root tgt = some none →
        (match
            (if getChunks s1 root = [] then
              generate_embedding_for_paper_chunks db root s1
            else (.ok (), s1)) with
          | (.error e, s2) => (.error (wrapHttp e), s2)
          | (.ok _, s2) =>
            match
              (if getChunks s2 tgt = [] then
                generate_embedding_for_paper_chunks db tgt s2
              else (.ok (), s2)) with
            | (.error e, s3) => (.error (wrapHttp e), s3)
            | (.ok _, s3) =>
              let s4 := bumpCount s3
              match compare_two_papers s4 root tgt (1 / 2) with
              | .error e => (.error (wrapHttp e), s4)
              | .ok v0 => (.ok v0, updateRelationScore s4 root tgt v0)
          : Except Err ℚ × St)
          = (.ok v, s') →
        getRelation s' root tgt = some (some v) := by
      intro s1 hrow hbody
      rcases hg1 : (if getChunks s1 root = [] then
          generate_embedding_for_paper_chunks db root s1
        else (.ok (), s1)) with ⟨r2, s2⟩
      rw [hg1] at hbody
      have hr2 : s2.relations = s1.relations := by
        have := ensure_chunks_preserves_relations db root s1
        rw [hg1] at this
        exact this
      cases r2 with
      | error e => simp at hbody
      | ok u =>
        dsimp only at hbody
        rcases hg2 : (if getChunks s2 tgt = [] then
            generate_embedding_for_paper_chunks db tgt s2
          else (.ok (), s2)) with ⟨r3, s3⟩
        rw [hg2] at hbody
        have hr3 : s3.relations = s2.relations := by
          have := ensure_chunks_preserves_relations db tgt s2
          rw [hg2] at this
          exact this
        cases r3 with
        | error e => simp at hbody
        | ok u3 =>
          dsimp only at hbody
          cases hcmp : compare_two_papers (bumpCount s3) root tgt (1 / 2) with
          | error e => rw [hcmp] at hbody; simp at hbody
          | ok v0 =>
            rw [hcmp] at hbody
            dsimp only at hbody
            have hv : v0 = v := by simpa using congrArg Prod.fst hbody
            have hst : s' = updateRelationScore (bumpCount s3) root tgt v0 := by
              simpa using (congrArg Prod.snd hbody).symm
            subst hv
            rw [hst]
            show alookup ((bumpCount s3).relations.map
              (fun r => if r.1 = (root, tgt) then (r.1, some v0) else r))
              (root, tgt) = some (some v0)
            apply alookup_map_update _ _ _ none
            show alookup s3.relations (root, tgt) = some none
            rw [hr3, hr2]
            exact hrow
    cases hrel : getRelation s root tgt with
    | none =>
      rw [hrel] at h
      dsimp only at h
      exact Or.inr (Or.inr (blank (createRelation s root tgt)
        (getRelation_createRelation_self s root tgt hrel) h))
    | some w =>
      rw [hrel] at h
      cases w with
      | none =>
        dsimp only at h
        exact Or.inr (Or.inr (blank s hrel h))
      | some w0 =>
        dsimp only at h
        have hv : w0 = v := by simpa using congrArg Prod.fst h
        have hst : s' = s := by simpa using (congrArg Prod.snd h).symm
        subst hv
        exact Or.inr (Or.inl ⟨rfl, hst⟩)

/-- Claim C4 (amended): on the compute path (target present, no score cached
beforehand) the score returned for persistence is stored exactly as
computed — no clamping into `[0.0, 1.0]` is applied between computation and
persistence, and out-of-range values raise no error. -/
theorem C4_score_persisted_unclamped (db : DB) (root tgt : String) (s : St)
    (v : ℚ) (s' : St)
    (hp : (getPaper db tgt).isSome = true)
    (hmiss : getRelation s root tgt = none ∨ getRelation s root tgt = some none)
    (hrun : process_citation db root tgt s = (.ok v, s')) :
    getRelation s' root tgt = some (some v) := by
  rcases process_citation_ok_cases db root tgt s v s' hrun with
    ⟨hnone, _, _⟩ | ⟨hhit, _⟩ | hpersist
  · rw [hnone] at hp
    simp at hp
  · rcases hmiss with hm | hm <;> rw [hm] at hhit <;> simp at hhit
  · exact hpersist

/-- The C4 store: root and target present, one chunk each, with embeddings
`[1]` and `[-1]`, so the blended cosine score is exactly `-1`. -/
def dbC4 : DB :=
  { papers := [("R", ⟨"Root", 2020⟩), ("T", ⟨"Target", 2019⟩)],
    citations := [], embedFn := fun _ => [] }

/-- Chunks for the C4 store. -/
def stC4 : St :=
  { initSt with chunks := [("R", [⟨some [1]⟩]), ("T", [⟨some [-1]⟩])] }

/-- Counterexample to claim C4 as stated: `process_citation` computes the
blended score `-1` (cosine similarity of opposite vectors) and persists `-1`
— an out-of-range value — into the relation store: no clamping into
`[0.0, 1.0]` happens before persistence. -/
theorem C4_counterexample :
    (process_citation dbC4 "R" "T" stC4).1 = .ok (-1)
      ∧ getRelation (process_citation dbC4 "R" "T" stC4).2 "R" "T"
          = some (some (-1))
      ∧ ¬ (0 : ℚ) ≤ -1 := by
  refine ⟨by with_unfolding_all rfl, by with_unfolding_all rfl, by norm_num⟩

/-- Witness for the amended C4 theorem at the concrete `-1` input. -/
theorem C4_score_persisted_unclamped_witness :
    (getPaper dbC4 "T").isSome = true
      ∧ getRelation stC4 "R" "T" = none
      ∧ process_citation dbC4 "R" "T" stC4
          = (.ok (-1), (process_citation dbC4 "R" "T" stC4).2)
      ∧ getRelation (process_citation dbC4 "R" "T" stC4).2 "R" "T"
          = some (some (-1)) := by
  refine ⟨rfl, rfl, by with_unfolding_all rfl, ?_⟩
  exact C4_score_persisted_unclamped dbC4 "R" "T" stC4 (-1)
    (process_citation dbC4 "R" "T" stC4).2 rfl (Or.inl rfl)
    (by with_unfolding_all rfl)

/-! ## Claim C1 — below-threshold references are dropped, not recorded -/

theorem generate_state (db : DB) (pid : String) (s : St) :
    ∃ ch, (generate_embedding_for_paper_chunks db pid s).2
      = { s with chunks := ch } := by
  unfold generate_embedding_for_paper_chunks
  split
  · exact ⟨s.chunks, rfl⟩
  · cases getPaper db pid
    · exact ⟨s.chunks, rfl⟩
    · dsimp only [setChunks]
      split
      · exact ⟨_, rfl⟩
      · exact ⟨_, rfl⟩

theorem ensure_chunks_state (db : DB) (pid : String) (s : St) :
    ∃ ch, ((if getChunks s pid = [] then
        generate_embedding_for_paper_chunks db pid s
      else (.ok (), s)).2) = { s with chunks := ch } := by
  split
  · exact generate_state db pid s
  · exact ⟨s.chunks, rfl⟩

/-- `process_citation` only writes relation rows, chunk rows and the
computation counter: the session's explored set, frontier and websocket
trace are untouched. -/
theorem process_citation_state (db : DB) (root tgt : String) (s : St) :
    ∃ rl ch cc, (process_citation db root tgt s).2
      = { s with relations := rl, chunks := ch, computeCount := cc } := by
  unfold process_citation
  cases hpp : getPaper db tgt with
  | none => exact ⟨s.relations, s.chunks, s.computeCount, rfl⟩
  | some prow =>
    rw [fetch_or_insert_eq]
    have blank : ∀ s1 : St, ∀ rl1, s1 = { s with relations := rl1 } →
        ∃ rl ch cc,
          (match
              (if getChunks s1 root = [] then
                generate_embedding_for_paper_chunks db root s1
              else (.ok (), s1)) with
            | (.error e, s2) => (.error (wrapHttp e), s2)
            | (.ok _, s2) =>
              match
                (if getChunks s2 tgt = [] then
                  generate_embedding_for_paper_chunks db tgt s2
                else (.ok (), s2)) with
              | (.error e, s3) => (.error (wrapHttp e), s3)
              | (.ok _, s3) =>
                let s4 := bumpCount s3
                match compare_two_papers s4 root tgt (1 / 2) with
                | .error e => (.error (wrapHttp e), s4)
                | .ok v0 => (.ok v0, updateRelationScore s4 root tgt v0)
            : Except Err ℚ × St).2
          = { s with relations := rl, chunks := ch, computeCount := cc } := by
      intro s1 rl1 hs1
      rcases hg1 : (if getChunks s1 root = [] then
          generate_embedding_for_paper_chunks db root s1
        else (.ok (), s1)) with ⟨r2, s2⟩
      obtain ⟨ch2, hch2⟩ := ensure_chunks_state db root s1
      rw [hg1] at hch2
      replace hch2 : s2 = { s with relations := rl1, chunks := ch2 } := by
        rw [show s2 = (r2, s2).2 from rfl, hch2, hs1]
      cases r2 with
      | error e => exact ⟨rl1, ch2, s.computeCount, hch2⟩
      | ok u =>
        dsimp only
        rcases hg2 : (if getChunks s2 tgt = [] then
            generate_embedding_for_paper_chunks db tgt s2
          else (.ok (), s2)) with ⟨r3, s3⟩
        obtain ⟨ch3, hch3⟩ := ensure_chunks_state db tgt s2
        rw [hg2] at hch3
        replace hch3 : s3 = { s with relations := rl1, chunks := ch3 } := by
          rw [show s3 = (r3, s3).2 from rfl, hch3, hch2]
        cases r3 with
        | error e => exact ⟨rl1, ch3, s.computeCount, hch3⟩
        | ok u3 =>
          dsimp only
          rw [hch3]
          cases compare_two_papers
              (bumpCount { s with relations := rl1, chunks := ch3 }) root tgt (1 / 2) with
          | error e => exact ⟨rl1, ch3, s.computeCount + 1, rfl⟩
          | ok v0 => exact ⟨_, ch3, s.computeCount + 1, rfl⟩
    cases hrel : getRelation s root tgt with
    | none =>
      dsimp only
      exact blank (createRelation s root tgt) (s.relations ++ [((root, tgt), none)]) rfl
    | some w =>
      cases w with
      | none => exact blank s s.relations rfl
      | some w0 => exact ⟨s.relations, s.chunks, s.computeCount, rfl⟩

theorem process_citation_explored (db : DB) (root tgt : String) (s : St) :
    ((process_citation db root tgt s).2).explored = s.explored := by
  obtain ⟨rl, ch, cc, h⟩ := process_citation_state db root tgt s
  rw [h]

theorem dictUpsert_mem (l : List (String × ℚ)) (k : String) (v : ℚ)
    (p : String × ℚ) (h : p ∈ dictUpsert l k v) : p ∈ l ∨ p = (k, v) := by
  unfold dictUpsert at h
  split at h
  · rcases List.mem_map.mp h with ⟨q, hq, hfq⟩
    by_cases hk : q.1 = k
    · right
      rw [if_pos hk] at hfq
      rw [← hfq]
    · left
      rw [if_neg hk] at hfq
      rw [← hfq]
      exact hq
  · rcases List.mem_append.mp h with hq | hq
    · exact Or.inl hq
    · exact Or.inr (List.mem_singleton.mp hq)

theorem dictUpsert_key_mem (l : List (String × ℚ)) (k : String) (v : ℚ)
    (k' : String) (h : ∃ w, (k', w) ∈ l) :
    ∃ w, (k', w) ∈ dictUpsert l k v := by
  obtain ⟨w, hw⟩ := h
  unfold dictUpsert
  split
  · by_cases hk : k' = k
    · subst hk
      exact ⟨v, List.mem_map.mpr ⟨(k', w), hw, by simp⟩⟩
    · exact ⟨w, List.mem_map.mpr ⟨(k', w), hw, by simp [hk]⟩⟩
  · exact ⟨w, List.mem_append.mpr (Or.inl hw)⟩

theorem dictUpsert_self_mem (l : List (String × ℚ)) (k : String) (v : ℚ) :
    (k, v) ∈ dictUpsert l k v := by
  unfold dictUpsert
  split
  · rename_i hany
    rcases List.any_eq_true.mp hany with ⟨q, hq, hqk⟩
    have hk : q.1 = k := by simpa using hqk
    exact List.mem_map.mpr ⟨q, hq, by simp [hk]⟩
  · exact List.mem_append.mpr (Or.inr (List.mem_singleton.mpr rfl))

/-- Invariant of the shared filtering loop: recorded pairs are from the
accumulator or meet the threshold; the explored set only grows; accumulator
keys survive; and every processed id ends either explored or recorded. -/
theorem filter_by_relevance_go_spec (db : DB) (root : String) (θ : ℚ) :
    ∀ (rows : List String) (acc : List (String × ℚ)) (s : St)
      (refs : List (String × ℚ)) (s' : St),
      filter_by_relevance_go db root θ rows acc s = (.ok refs, s') →
      (∀ p ∈ refs, p ∈ acc ∨ θ ≤ p.2)
        ∧ (∀ x ∈ s.explored, x ∈ s'.explored)
        ∧ (∀ k, (∃ w, (k, w) ∈ acc) → ∃ w, (k, w) ∈ refs)
        ∧ (∀ t ∈ rows, t ∈ s'.explored ∨ ∃ w, (t, w) ∈ refs) := by
  intro rows
  induction rows with
  | nil =>
    intro acc s refs s' h
    unfold filter_by_relevance_go at h
    have hrefs : refs = acc := by simpa using (congrArg Prod.fst h).symm
    have hs : s' = s := by simpa using (congrArg Prod.snd h).symm
    subst hrefs hs
    exact ⟨fun p hp => Or.inl hp, fun x hx => hx, fun k hk => hk,
      fun t ht => by cases ht⟩
  | cons t rest ih =>
    intro acc s refs s' h
    unfold filter_by_relevance_go at h
    by_cases hexp : t ∈ s.explored
    · rw [if_pos hexp] at h
      obtain ⟨ha, hb, hc, hd⟩ := ih acc s refs s' h
      refine ⟨ha, hb, hc, fun u hu => ?_⟩
      rcases List.mem_cons.mp hu with rfl | hu
      · exact Or.inl (hb u hexp)
      · exact hd u hu
    · rw [if_neg hexp] at h
      rcases hpc : process_citation db root t s with ⟨rpc, s1⟩
      rw [hpc] at h
      have hexpl1 : s1.explored = s.explored := by
        have := process_citation_explored db root t s
        rw [hpc] at this
        exact this
      cases rpc with
      | error e => simp at h
      | ok v =>
        dsimp only at h
        by_cases hlt : v < θ
        · rw [if_pos hlt] at h
          obtain ⟨ha, hb, hc, hd⟩ := ih acc (addExplored s1 t) refs s' h
          have hmono : ∀ x ∈ s.explored, x ∈ s'.explored := by
            intro x hx
            apply hb
            show x ∈ s1.explored ++ [t]
            rw [hexpl1]
            exact List.mem_append.mpr (Or.inl hx)
          refine ⟨ha, hmono, hc, fun u hu => ?_⟩
          rcases List.mem_cons.mp hu with rfl | hu
          · refine Or.inl (hb u ?_)
            show u ∈ s1.explored ++ [u]
            exact List.mem_append.mpr (Or.inr (List.mem_singleton.mpr rfl))
          · exact hd u hu
        · rw [if_neg hlt] at h
          obtain ⟨ha, hb, hc, hd⟩ := ih (dictUpsert acc t v) s1 refs s' h
          have hmono : ∀ x ∈ s.explored, x ∈ s'.explored := by
            intro x hx
            apply hb
            rw [hexpl1]
            exact hx
          refine ⟨?_, hmono, ?_, fun u hu => ?_⟩
          · intro p hp
            rcases ha p hp with hpa | hpθ
            · rcases dictUpsert_mem acc t v p hpa with hpa2 | rfl
              · exact Or.inl hpa2
              · exact Or.inr (le_of_not_lt hlt)
            · exact Or.inr hpθ
          · intro k hk
            exact hc k (dictUpsert_key_mem acc t v k hk)
          · rcases List.mem_cons.mp hu with rfl | hu
            · exact Or.inr (hc u ⟨v, dictUpsert_self_mem acc u v⟩)
            · exact hd u hu

/-- Claim C1 (amended): in `process_citations`, every reference recorded in
the returned dict meets the threshold, and every processed reference target
that is *not* recorded (in particular every below-threshold one) ends up in
the explored set — so it is neither emitted as an edge nor discovered, and is
never expanded further. -/
theorem C1_below_threshold_dropped (db : DB) (root cur : String) (θ : ℚ)
    (s : St) (refs : List (String × ℚ)) (s' : St)
    (hcur : (getPaper db cur).isSome = true)
    (h : process_citations db root cur θ s = (.ok refs, s')) :
    (∀ p ∈ refs, θ ≤ p.2)
      ∧ (∀ t ∈ getCitationsBySource db cur, (∀ w, (t, w) ∉ refs) →
          t ∈ s'.explored) := by
  unfold process_citations at h
  cases hpp : getPaper db cur with
  | none => rw [hpp] at hcur; simp at hcur
  | some prow =>
    rw [hpp] at h
    by_cases hrows : (getCitationsBySource db cur).isEmpty
    · rw [if_pos hrows] at h
      have hrefs : refs = [] := by simpa using (congrArg Prod.fst h).symm
      subst hrefs
      refine ⟨?_, ?_⟩
      · intro p hp
        cases hp
      · intro t ht _
        rw [List.isEmpty_iff] at hrows
        rw [hrows] at ht
        cases ht
    · rw [if_neg hrows] at h
      obtain ⟨ha, _, _, hd⟩ :=
        filter_by_relevance_go_spec db root θ (getCitationsBySource db cur)
          [] s refs s' h
      refine ⟨fun p hp => ?_, fun t ht hnot => ?_⟩
      · rcases ha p hp with hpa | hpθ
        · cases hpa
        · exact hpθ
      · rcases hd t ht with hin | ⟨w, hw⟩
        · exact hin
        · exact absurd hw (hnot w)

/-- The spec's C1 scenario store: seed `P0` with references `P1` and `P2`,
relation cache warmed with `score(P0,P1) = 0.95`, `score(P0,P2) = 0.40`,
`score(P0,P3) = 0.9`, and `P3` citing `P1`. -/
def dbC1 : DB :=
  { papers := [("P0", ⟨"Paper 0", 2020⟩), ("P1", ⟨"Paper 1", 2018⟩),
               ("P2", ⟨"Paper 2", 2017⟩), ("P3", ⟨"Paper 3", 2021⟩)],
    citations := [("P0", "P1"), ("P0", "P2"), ("P3", "P1")],
    embedFn := fun _ => [] }

/-- Warmed relation cache for the C1 scenario. -/
def stC1 : St :=
  { initSt with relations :=
      [(("P0", "P1"), some (mkRat 19 20)), (("P0", "P2"), some (mkRat 2 5)),
       (("P0", "P3"), some (mkRat 9 10))] }

/-- Counterexample to claim C1 as stated: in the spec's own scenario
(threshold 0.88, `P1` at 0.95, `P2` at 0.40) the downward discovered set is
`{P0, P1}` — `P2` is **not** discovered, and no edge `P0 → P2` appears in any
emitted batch (the only emitted links are `P0 → P1`). -/
theorem C1_scenario_counterexample :
    (explore_downward dbC1 6 "P0" "P0" 2 0 (mkRat 22 25) stC1).1
        = .ok ["P0", "P1"]
      ∧ (explore_downward dbC1 6 "P0" "P0" 2 0 (mkRat 22 25) stC1).2.messages
        = [Msg.batch "downward"
            [⟨"P1", "Paper 1", 2018, some (mkRat 19 20)⟩,
             ⟨"P0", "Paper 0", 2020, none⟩]
            [("P0", "P1")],
           Msg.batch "downward" [⟨"P1", "Paper 1", 2018, none⟩] []]
      ∧ (["P0", "P1"].contains "P2") = false := by
  refine ⟨by with_unfolding_all rfl, by with_unfolding_all rfl, rfl⟩

/-- The state in which the C1 scenario's seed calls `process_citations`
(the seed is already in the explored set). -/
def stC1w : St :=
  { stC1 with explored := ["P0"] }

/-- Witness for the amended C1 theorem on the scenario store: the recorded
reference `P1` meets the threshold, and the below-threshold `P2` ends in the
explored set. -/
theorem C1_below_threshold_dropped_witness :
    (getPaper dbC1 "P0").isSome = true
      ∧ process_citations dbC1 "P0" "P0" (mkRat 22 25) stC1w
          = (.ok [("P1", mkRat 19 20)],
             (process_citations dbC1 "P0" "P0" (mkRat 22 25) stC1w).2)
      ∧ mkRat 22 25 ≤ mkRat 19 20
      ∧ "P2" ∈ (process_citations dbC1 "P0" "P0" (mkRat 22 25) stC1w).2.explored := by
  have h : process_citations dbC1 "P0" "P0" (mkRat 22 25) stC1w
      = (.ok [("P1", mkRat 19 20)],
         (process_citations dbC1 "P0" "P0" (mkRat 22 25) stC1w).2) := by
    with_unfolding_all rfl
  refine ⟨rfl, h, ?_, ?_⟩
  · exact (C1_below_threshold_dropped dbC1 "P0" "P0" (mkRat 22 25) stC1w
      [("P1", mkRat 19 20)] _ rfl h).1 ("P1", mkRat 19 20)
      (List.mem_singleton.mpr rfl)
  · exact (C1_below_threshold_dropped dbC1 "P0" "P0" (mkRat 22 25) stC1w
      [("P1", mkRat 19 20)] _ rfl h).2 "P2" (by decide)
      (fun w hw => by simp at hw)

/-! ## Claim C5 — missing start paper: non-fatal, but not an empty set -/

/-- Claim C5 (amended): when the start paper of a downward exploration step is
missing from the store, the step is non-fatal (`.ok`, nothing raised): the
reference-processing returns an empty dict, an **empty** downward batch is
still emitted, the missing id is added to the explored set, and the call
returns the singleton `{start_id}` — not the empty set — after which
exploration of sibling branches continues (here: the frontier is empty at
entry, so the loop ends immediately). -/
theorem C5_missing_start_step (db : DB) (fuel : Nat) (root start : String)
    (maxDepth curDepth : Nat) (θ : ℚ) (s : St)
    (hmiss : getPaper db start = none)
    (hdepth : curDepth ≤ maxDepth)
    (hexp : start ∉ s.explored)
    (hfront : s.frontier.is_empty = true) :
    explore_downward db (fuel + 2) root start maxDepth curDepth θ s
      = (.ok [start], pushMsg (addExplored s start) (Msg.batch "downward" [] [])) := by
  have hpc : process_citations db root start θ (addExplored s start)
      = (.ok [], addExplored s start) := by
    simp [process_citations, hmiss]
  have hstep : explore_downward_step db root start maxDepth curDepth θ s
      = (.ok (some [start]),
         pushMsg (addExplored s start) (Msg.batch "downward" [] [])) := by
    unfold explore_downward_step
    rw [if_neg (show ¬ curDepth > maxDepth from by omega), if_neg hexp]
    dsimp only
    rw [hpc]
    simp only [List.foldl_nil, List.map_nil, hmiss, frontierInsertAll, setUnion,
      List.filter_nil, List.append_nil]
  show explore_downward db (Nat.succ (Nat.succ fuel)) root start maxDepth curDepth θ s = _
  rw [explore_downward, hstep]
  show except_block []
      (explore_downward_loop db (Nat.succ fuel) root maxDepth curDepth θ
        [start] (pushMsg (addExplored s start) (Msg.batch "downward" [] []))) = _
  rw [explore_downward_loop]
  have hfront2 : (pushMsg (addExplored s start)
      (Msg.batch "downward" [] [])).frontier.is_empty = true := hfront
  rw [if_pos hfront2]
  rfl

/-- Counterexample to claim C5 as stated: exploring from the missing id `"X"`
returns the singleton `{X}` (with an empty batch emitted), not the empty
set. -/
theorem C5_counterexample :
    explore_downward dbC4 4 "R" "X" 2 0 (mkRat 22 25) initSt
      = (.ok ["X"],
         { initSt with explored := ["X"], messages := [Msg.batch "downward" [] []] })
      ∧ (["X"] : List String) ≠ [] := by
  exact ⟨by with_unfolding_all rfl, by simp⟩

/-- Witness for the amended C5 theorem at the concrete missing id `"X"`. -/
theorem C5_missing_start_step_witness :
    getPaper dbC4 "X" = none
      ∧ (0 : Nat) ≤ 2
      ∧ "X" ∉ initSt.explored
      ∧ initSt.frontier.is_empty = true
      ∧ explore_downward dbC4 4 "R" "X" 2 0 (mkRat 22 25) initSt
        = (.ok ["X"],
           pushMsg (addExplored initSt "X") (Msg.batch "downward" [] [])) := by
  refine ⟨rfl, by omega, by simp [initSt], rfl, ?_⟩
  exact C5_missing_start_step dbC4 2 "R" "X" 2 0 (mkRat 22 25) initSt rfl
    (by omega) (by simp [initSt]) rfl

/-! ## Frame lemmas: which state fields each operation can touch -/

theorem process_citation_frame (db : DB) (root tgt : String) (s : St) :
    ((process_citation db root tgt s).2).explored = s.explored
      ∧ ((process_citation db root tgt s).2).frontier = s.frontier
      ∧ ((process_citation db root tgt s).2).messages = s.messages := by
  obtain ⟨rl, ch, cc, h⟩ := process_citation_state db root tgt s
  rw [h]
  exact ⟨rfl, rfl, rfl⟩

theorem filter_by_relevance_go_frame (db : DB) (root : String) (θ : ℚ) :
    ∀ (rows : List String) (acc : List (String × ℚ)) (s : St),
      ((filter_by_relevance_go db root θ rows acc s).2).frontier = s.frontier
        ∧ ((filter_by_relevance_go db root θ rows acc s).2).messages = s.messages := by
  intro rows
  induction rows with
  | nil => intro acc s; exact ⟨rfl, rfl⟩
  | cons t rest ih =>
    intro acc s
    unfold filter_by_relevance_go
    by_cases hexp : t ∈ s.explored
    · rw [if_pos hexp]
      exact ih acc s
    · rw [if_neg hexp]
      rcases hpc : process_citation db root t s with ⟨rpc, s1⟩
      obtain ⟨he1, hf1, hm1⟩ := process_citation_frame db root t s
      rw [hpc] at he1 hf1 hm1
      cases rpc with
      | error e => exact ⟨hf1, hm1⟩
      | ok v =>
        dsimp only
        by_cases hlt : v < θ
        · rw [if_pos hlt]
          obtain ⟨hf2, hm2⟩ := ih acc (addExplored s1 t)
          exact ⟨hf2.trans hf1, hm2.trans hm1⟩
        · rw [if_neg hlt]
          obtain ⟨hf2, hm2⟩ := ih (dictUpsert acc t v) s1
          exact ⟨hf2.trans hf1, hm2.trans hm1⟩

theorem process_citations_frame (db : DB) (root cur : String) (θ : ℚ) (s : St) :
    ((process_citations db root cur θ s).2).frontier = s.frontier
      ∧ ((process_citations db root cur θ s).2).messages = s.messages := by
  unfold process_citations
  cases getPaper db cur
  · exact ⟨rfl, rfl⟩
  · dsimp only
    split
    · exact ⟨rfl, rfl⟩
    · exact filter_by_relevance_go_frame db root θ _ [] s

theorem process_parents_frame (db : DB) (root child : String) (θ : ℚ) (s : St) :
    ((process_parents db root child θ s).2).frontier = s.frontier
      ∧ ((process_parents db root child θ s).2).messages = s.messages := by
  unfold process_parents
  dsimp only
  split
  · exact ⟨rfl, rfl⟩
  · exact filter_by_relevance_go_frame db root θ _ [] s

theorem frontierInsert_frame (s : St) (n : NodeJson) :
    ((frontierInsert s n).2).explored = s.explored
      ∧ ((frontierInsert s n).2).messages = s.messages
      ∧ ((frontierInsert s n).2).relations = s.relations
      ∧ ((frontierInsert s n).2).chunks = s.chunks
      ∧ ((frontierInsert s n).2).computeCount = s.computeCount := by
  unfold frontierInsert
  rcases s.frontier.insert n with ⟨r, f2⟩
  cases r
  · exact ⟨rfl, rfl, rfl, rfl, rfl⟩
  · exact ⟨rfl, rfl, rfl, rfl, rfl⟩

theorem frontierPop_frame (s : St) :
    ((frontierPop s).2).explored = s.explored
      ∧ ((frontierPop s).2).messages = s.messages
      ∧ ((frontierPop s).2).relations = s.relations
      ∧ ((frontierPop s).2).chunks = s.chunks
      ∧ ((frontierPop s).2).computeCount = s.computeCount := by
  unfold frontierPop
  rcases s.frontier.pop with ⟨r, f2⟩
  cases r
  · exact ⟨rfl, rfl, rfl, rfl, rfl⟩
  · exact ⟨rfl, rfl, rfl, rfl, rfl⟩

theorem frontierInsertAll_frame :
    ∀ (nodes : List NodeJson) (s : St),
      ((frontierInsertAll nodes s).2).explored = s.explored
        ∧ ((frontierInsertAll nodes s).2).messages = s.messages
        ∧ ((frontierInsertAll nodes s).2).relations = s.relations
        ∧ ((frontierInsertAll nodes s).2).chunks = s.chunks
        ∧ ((frontierInsertAll nodes s).2).computeCount = s.computeCount := by
  intro nodes
  induction nodes with
  | nil => intro s; exact ⟨rfl, rfl, rfl, rfl, rfl⟩
  | cons n rest ih =>
    intro s
    unfold frontierInsertAll
    rcases hins : frontierInsert s n with ⟨r, s1⟩
    obtain ⟨h1, h2, h3, h4, h5⟩ := frontierInsert_frame s n
    rw [hins] at h1 h2 h3 h4 h5
    cases r with
    | error e => exact ⟨h1, h2, h3, h4, h5⟩
    | ok u =>
      obtain ⟨g1, g2, g3, g4, g5⟩ := ih s1
      exact ⟨g1.trans h1, g2.trans h2, g3.trans h3, g4.trans h4, g5.trans h5⟩

/-! ## Message-trace monotonicity: the websocket trace only grows -/

theorem process_citations_msgs {db : DB} {root cur : String} {θ : ℚ} {s : St}
    {r : Except Err (List (String × ℚ))} {s' : St}
    (h : process_citations db root cur θ s = (r, s')) :
    s'.messages = s.messages := by
  have := (process_citations_frame db root cur θ s).2
  rw [h] at this
  exact this

theorem process_parents_msgs {db : DB} {root child : String} {θ : ℚ} {s : St}
    {r : Except Err (List (String × ℚ))} {s' : St}
    (h : process_parents db root child θ s = (r, s')) :
    s'.messages = s.messages := by
  have := (process_parents_frame db root child θ s).2
  rw [h] at this
  exact this

theorem frontierInsertAll_msgs {nodes : List NodeJson} {s : St}
    {r : Except Err Unit} {s' : St}
    (h : frontierInsertAll nodes s = (r, s')) :
    s'.messages = s.messages := by
  have := (frontierInsertAll_frame nodes s).2.1
  rw [h] at this
  exact this

theorem frontierPop_msgs {s : St} {r : Except Err NodeJson} {s' : St}
    (h : frontierPop s = (r, s')) :
    s'.messages = s.messages := by
  have := (frontierPop_frame s).2.1
  rw [h] at this
  exact this

/-- The two possible final states of the `except` block: the body's final
state, or that state with one error message appended. -/
theorem except_block_msgs {α : Type} {fb : α} {x : Except Err α × St}
    {r : Except Err α} {s' : St}
    (h : except_block fb x = (r, s')) :
    s' = x.2 ∨ ∃ e, s' = pushMsg x.2 (Msg.error e) := by
  rcases x with ⟨r0, s0⟩
  cases r0 with
  | ok a =>
    have h2 : ((.ok a : Except Err α), s0) = (r, s') := h
    cases h2
    exact Or.inl rfl
  | error e =>
    by_cases hf : e = Err.fuel
    · have heb : except_block fb ((.error e : Except Err α), s0)
          = ((.error e : Except Err α), s0) := by
        simp [except_block, hf]
      rw [heb] at h
      cases h
      exact Or.inl rfl
    · have heb : except_block fb ((.error e : Except Err α), s0)
          = (.ok fb, pushMsg s0 (Msg.error e)) := by
        simp [except_block, hf]
      rw [heb] at h
      cases h
      exact Or.inr ⟨e, rfl⟩

theorem pushMsg_msgs (s : St) (m : Msg) :
    (pushMsg s m).messages = s.messages ++ [m] := rfl

theorem explore_downward_step_msgs {db : DB} {root start : String}
    {maxD curD : Nat} {θ : ℚ} {s : St} {r : Except Err (Option (List String))}
    {s' : St}
    (h : explore_downward_step db root start maxD curD θ s = (r, s')) :
    ∃ Δ, s'.messages = s.messages ++ Δ := by
  unfold explore_downward_step at h
  split at h
  · cases h
    exact ⟨[Msg.status "Max exploration depth reached"], rfl⟩
  · split at h
    · cases h
      exact ⟨[], (List.append_nil _).symm⟩
    · dsimp only at h
      rcases hpc : process_citations db root start θ (addExplored s start)
        with ⟨rp, s1⟩
      rw [hpc] at h
      have hm1 : s1.messages = s.messages := by
        have t := process_citations_msgs hpc
        exact t
      cases rp with
      | error e =>
        cases h
        exact ⟨[], by rw [hm1, List.append_nil]⟩
      | ok refs =>
        dsimp only at h
        split at h
        · rename_i e3 s3 hins
          have hm3 := frontierInsertAll_msgs hins
          cases h
          rw [pushMsg_msgs, hm1] at hm3
          exact ⟨_, hm3⟩
        · rename_i u s3 hins
          have hm3 := frontierInsertAll_msgs hins
          cases h
          rw [pushMsg_msgs, hm1] at hm3
          exact ⟨_, hm3⟩

/-- Message monotonicity for the downward pass and its drain loop. -/
theorem explore_downward_msgs_mono (db : DB) (root : String) (maxD : Nat)
    (θ : ℚ) :
    ∀ fuel : Nat,
      (∀ (start : String) (curD : Nat) (s : St)
        (r : Except Err (List String)) (s' : St),
        explore_downward db fuel root start maxD curD θ s = (r, s') →
        ∃ Δ, s'.messages = s.messages ++ Δ)
        ∧ (∀ (curD : Nat) (disc : List String) (s : St)
            (r : Except Err (List String)) (s' : St),
          explore_downward_loop db fuel root maxD curD θ disc s = (r, s') →
          ∃ Δ, s'.messages = s.messages ++ Δ) := by
  intro fuel
  induction fuel with
  | zero =>
    constructor
    · intro start curD s r s' h
      have h0 : ((.error .fuel : Except Err (List String)), s) = (r, s') := h
      cases h0
      exact ⟨[], (List.append_nil _).symm⟩
    · intro curD disc s r s' h
      have h0 : ((.error .fuel : Except Err (List String)), s) = (r, s') := h
      cases h0
      exact ⟨[], (List.append_nil _).symm⟩
  | succ fuel ih =>
    constructor
    · intro start curD s r s' h
      rw [explore_downward] at h
      rcases hstep : explore_downward_step db root start maxD curD θ s with ⟨rs, s1⟩
      rw [hstep] at h
      obtain ⟨Δ0, hΔ0⟩ := explore_downward_step_msgs hstep
      cases rs with
      | error e =>
        dsimp only at h
        rcases except_block_msgs h with hs' | ⟨e2, hs'⟩
        · exact ⟨Δ0, by rw [hs']; exact hΔ0⟩
        · refine ⟨Δ0 ++ [Msg.error e2], ?_⟩
          rw [hs']
          show s1.messages ++ [Msg.error e2] = _
          rw [hΔ0, List.append_assoc]
      | ok o =>
        cases o with
        | none =>
          dsimp only [except_block] at h
          cases h
          exact ⟨Δ0, hΔ0⟩
        | some disc =>
          dsimp only at h
          rcases hloop : explore_downward_loop db fuel root maxD curD θ disc s1
            with ⟨rl, s4⟩
          rw [hloop] at h
          obtain ⟨Δ1, hΔ1⟩ := ih.2 _ _ _ _ _ hloop
          rcases except_block_msgs h with hs' | ⟨e2, hs'⟩
          · refine ⟨Δ0 ++ Δ1, ?_⟩
            rw [hs']
            show s4.messages = _
            rw [hΔ1, hΔ0, List.append_assoc]
          · refine ⟨Δ0 ++ Δ1 ++ [Msg.error e2], ?_⟩
            rw [hs']
            show s4.messages ++ [Msg.error e2] = _
            rw [hΔ1, hΔ0]
            simp [List.append_assoc]
    · intro curD disc s r s' h
      rw [explore_downward_loop] at h
      split at h
      · cases h
        exact ⟨[], (List.append_nil _).symm⟩
      · rcases hpop : frontierPop s with ⟨rp, s1⟩
        rw [hpop] at h
        have hm1 : s1.messages = s.messages := frontierPop_msgs hpop
        cases rp with
        | error e =>
          cases h
          exact ⟨[], by rw [hm1, List.append_nil]⟩
        | ok node =>
          dsimp only at h
          split at h
          · obtain ⟨Δ1, hΔ1⟩ := ih.2 _ _ _ _ _ h
            exact ⟨Δ1, by rw [hΔ1, hm1]⟩
          · rcases hch : explore_downward db fuel root node.id maxD (curD + 1) θ s1
              with ⟨rc, s2⟩
            rw [hch] at h
            obtain ⟨Δ1, hΔ1⟩ := ih.1 _ _ _ _ _ hch
            cases rc with
            | error e =>
              cases h
              exact ⟨Δ1, by rw [hΔ1, hm1]⟩
            | ok child =>
              dsimp only at h
              obtain ⟨Δ2, hΔ2⟩ := ih.2 _ _ _ _ _ h
              refine ⟨Δ1 ++ Δ2, ?_⟩
              rw [hΔ2, hΔ1, hm1, List.append_assoc]

/-! ## Claim C10 — empty upward batches suppressed; downward batch unconditional -/

/-- Claim C10: in the upward explorer, when both the constructed nodes list
and the links list are empty — equivalently, `process_parents` returned an
empty dict and the start paper row is missing — no `"upward"` batch message is
sent on the stream (the final state of the step carries exactly the incoming
message trace); whereas the downward explorer appends its `"downward"` phase
batch to the trace on every expansion whose reference processing succeeds,
even when the batch is empty. -/
theorem C10_upward_suppressed_downward_unconditional
    (db : DB) (root start : String) (maxD curD : Nat) (θ : ℚ) (s : St)
    (hd : ¬ curD > maxD) (hexp : start ∉ s.explored) :
    (∀ s1, process_parents db root start θ (addExplored s start) = (.ok [], s1) →
      getPaper db start = none →
      explore_upward_step db root start maxD curD θ s = (.ok (some [start]), s1)
        ∧ s1.messages = s.messages)
    ∧ (∀ refs s1 r s2,
        process_citations db root start θ (addExplored s start) = (.ok refs, s1) →
        explore_downward_step db root start maxD curD θ s = (r, s2) →
        ∃ nodes links,
          s2.messages = s.messages ++ [Msg.batch "downward" nodes links]) := by
  constructor
  · intro s1 hpp hmiss
    have hm1 : s1.messages = s.messages := by
      have t := process_parents_msgs hpp
      exact t
    refine ⟨?_, hm1⟩
    unfold explore_upward_step
    rw [if_neg hd, if_neg hexp]
    dsimp only
    rw [hpp]
    dsimp only
    rw [hmiss]
    with_unfolding_all rfl
  · intro refs s1 r s2 hpc h
    unfold explore_downward_step at h
    rw [if_neg hd, if_neg hexp] at h
    dsimp only at h
    rw [hpc] at h
    have hm1 : s1.messages = s.messages := by
      have t := process_citations_msgs hpc
      exact t
    dsimp only at h
    split at h
    · rename_i e3 s3 hins
      have hm3 := frontierInsertAll_msgs hins
      cases h
      rw [pushMsg_msgs, hm1] at hm3
      exact ⟨_, _, hm3⟩
    · rename_i u s3 hins
      have hm3 := frontierInsertAll_msgs hins
      cases h
      rw [pushMsg_msgs, hm1] at hm3
      exact ⟨_, _, hm3⟩

/-- Witness for the C10 theorem at the concrete missing id `"X"` in the C4
store: the upward step sends nothing, while the downward step still emits an
(empty) `"downward"` batch. -/
theorem C10_upward_suppressed_downward_unconditional_witness :
    (explore_upward_step dbC4 "R" "X" 2 0 (mkRat 22 25) initSt
        = (.ok (some ["X"]), addExplored initSt "X")
      ∧ (addExplored initSt "X").messages = initSt.messages)
    ∧ ∃ nodes links,
        (pushMsg (addExplored initSt "X") (Msg.batch "downward" [] [])).messages
          = initSt.messages ++ [Msg.batch "downward" nodes links] := by
  have t := C10_upward_suppressed_downward_unconditional dbC4 "R" "X" 2 0
    (mkRat 22 25) initSt (by omega) (by simp [initSt])
  refine ⟨t.1 (addExplored initSt "X") (by with_unfolding_all rfl) rfl, ?_⟩
  exact t.2 [] (addExplored initSt "X") (.ok (some ["X"]))
    (pushMsg (addExplored initSt "X") (Msg.batch "downward" [] []))
    (by with_unfolding_all rfl) (by with_unfolding_all rfl)

/-! ## Claim C2 — errors are caught per recursion level; the session continues -/

/-- Claim C2 (amended): when the expansion step of a popped frontier node
raises a (non-fuel) exception, the `try/except` of that node's own recursion
level catches it, reports it exactly once as a single error message, and
returns the empty set; the parent drain loop then simply continues on the
remaining frontier — sibling branches are still explored and further batches
can be emitted after the failure. -/
theorem C2_error_reported_once_loop_continues
    (db : DB) (fuel : Nat) (root : String) (maxD curD : Nat) (θ : ℚ)
    (disc : List String) (s : St) (node : NodeJson) (s1 : St) (e : Err) (s2 : St)
    (hfront : s.frontier.is_empty = false)
    (hpop : frontierPop s = (.ok node, s1))
    (hnx : node.id ∉ s1.explored)
    (hstep : explore_downward_step db root node.id maxD (curD + 1) θ s1
      = (.error e, s2))
    (hnf : e ≠ Err.fuel) :
    explore_downward_loop db (fuel + 2) root maxD curD θ disc s
      = explore_downward_loop db (fuel + 1) root maxD curD θ disc
          (pushMsg s2 (Msg.error e))
      ∧ (pushMsg s2 (Msg.error e)).messages = s2.messages ++ [Msg.error e] := by
  refine ⟨?_, rfl⟩
  have hinner : explore_downward db (fuel + 1) root node.id maxD (curD + 1) θ s1
      = (.ok [], pushMsg s2 (Msg.error e)) := by
    show explore_downward db (Nat.succ fuel) root node.id maxD (curD + 1) θ s1 = _
    rw [explore_downward, hstep]
    dsimp only
    simp [except_block, hnf]
  show explore_downward_loop db (Nat.succ (fuel + 1)) root maxD curD θ disc s = _
  rw [explore_downward_loop]
  rw [hfront, if_neg Bool.false_ne_true]
  rw [hpop]
  dsimp only
  rw [if_neg hnx]
  rw [hinner]
  dsimp only
  rw [show setUnion disc [] = disc from by simp [setUnion]]

/-- Store for the C2 counterexample: the root `R` cites `A` and `B`, with both
scores already cached above the threshold, and `A` cites `C`, whose score is
uncached; computing it compares the ragged embeddings `[[1]]` vs `[[1, 0]]`
and raises `ValueError`. -/
def dbC2 : DB :=
  { papers := [("R", ⟨"Root", 2020⟩), ("A", ⟨"Alpha", 2019⟩),
               ("B", ⟨"Beta", 2018⟩), ("C", ⟨"Gamma", 2017⟩)],
    citations := [("R", "A"), ("R", "B"), ("A", "C")],
    embedFn := fun _ => [] }

/-- Warmed state for the C2 counterexample. -/
def stC2 : St :=
  { initSt with
      chunks := [("R", [⟨some [1]⟩]), ("C", [⟨some [1, 0]⟩])],
      relations := [(("R", "A"), some (mkRat 19 20)),
                    (("R", "B"), some (mkRat 9 10))] }

/-- Counterexample to claim C2 as stated: the `ValueError` raised while
scoring `C` during `A`'s expansion is reported as one error message, but the
session does **not** stop — the sibling branch `B` is still explored, a
further `"downward"` batch is emitted after the error message, and the walk
returns `{R, A, B}` successfully. -/
theorem C2_counterexample :
    (explore_downward dbC2 8 "R" "R" 2 0 (mkRat 22 25) stC2).2.messages
      = [Msg.batch "downward"
           [⟨"A", "Alpha", 2019, some (mkRat 19 20)⟩,
            ⟨"B", "Beta", 2018, some (mkRat 9 10)⟩,
            ⟨"R", "Root", 2020, none⟩]
           [("R", "A"), ("R", "B")],
         Msg.error (Err.http (Err.http Err.valueError)),
         Msg.batch "downward" [⟨"B", "Beta", 2018, none⟩] []]
      ∧ (explore_downward dbC2 8 "R" "R" 2 0 (mkRat 22 25) stC2).1
        = .ok ["R", "A", "B"] := by
  exact ⟨by with_unfolding_all rfl, by with_unfolding_all rfl⟩

/-- Mid-session state for the C2 witness: `R` already expanded, `A`'s node
sitting in the frontier. -/
def stC2w : St :=
  { stC2 with
      frontier := .queue [⟨"A", "Alpha", 2019, some (mkRat 19 20)⟩],
      explored := ["R"] }

/-- Witness for the amended C2 theorem on the concrete mid-session state:
popping `A`, whose expansion raises, appends one error message and the loop
continues. -/
theorem C2_error_reported_once_loop_continues_witness :
    stC2w.frontier.is_empty = false
      ∧ explore_downward_loop dbC2 5 "R" 2 0 (mkRat 22 25) ["R", "A", "B"] stC2w
        = explore_downward_loop dbC2 4 "R" 2 0 (mkRat 22 25) ["R", "A", "B"]
            (pushMsg
              (explore_downward_step dbC2 "R" "A" 2 1 (mkRat 22 25)
                (frontierPop stC2w).2).2
              (Msg.error (Err.http (Err.http Err.valueError)))) := by
  refine ⟨rfl, ?_⟩
  exact (C2_error_reported_once_loop_continues dbC2 3 "R" 2 0 (mkRat 22 25)
    ["R", "A", "B"] stC2w ⟨"A", "Alpha", 2019, some (mkRat 19 20)⟩
    (frontierPop stC2w).2 (Err.http (Err.http Err.valueError))
    (explore_downward_step dbC2 "R" "A" 2 1 (mkRat 22 25) (frontierPop stC2w).2).2
    rfl (by with_unfolding_all rfl)
    (by rw [show ((frontierPop stC2w).2).explored = ["R"] from by
          with_unfolding_all rfl]
        simp)
    (by with_unfolding_all rfl) (by decide)).1

/-! ## Claim C6 — the best-score-first frontier

`heapq` is a min-heap over `(key, element)` tuples with `key = -score`;
`HeapInv` is its ordering invariant. Equal keys make the tuple comparison
fall through to the node dicts and raise `TypeError`, so stable tie-breaking
never happens; with pairwise-distinct scores the operations are verified
below to succeed and pop the highest-score entry. -/

/-- The `heapq` ordering invariant: every non-root slot is dominated by its
parent slot. -/
def HeapInv {α : Type} (heap : List (ℚ × α)) : Prop :=
  ∀ j e ep, 0 < j → heap[j]? = some e → heap[(j - 1) / 2]? = some ep →
    ep.1 ≤ e.1

/-- A sequence of `Frontier.insert` calls, stopping at the first raise (the
claim quantifies over insertion sequences). -/
def insertSeq : List NodeJson → Frontier → Except Err Unit × Frontier
  | [], f => (.ok (), f)
  | n :: rest, f =>
    match f.insert n with
    | (.error e, f2) => (.error e, f2)
    | (.ok _, f2) => insertSeq rest f2

theorem entryLt_cases {α : Type} (a b : ℚ × α) (h : a.1 ≠ b.1) :
    entryLt a b = .ok true ∧ a.1 < b.1
      ∨ entryLt a b = .ok false ∧ b.1 < a.1 := by
  rcases lt_or_gt_of_ne h with hlt | hgt
  · exact Or.inl ⟨by simp [entryLt, hlt], hlt⟩
  · exact Or.inr ⟨by rw [entryLt, if_neg (asymm hgt), if_pos hgt], hgt⟩

theorem cons_set_swap_perm {β : Type} (t : List β) (k : Nat) (u v : β)
    (hk : k < t.length) :
    (u :: t.set k v).Perm (v :: t.set k u) := by
  rw [List.set_eq_take_cons_drop u hk, List.set_eq_take_cons_drop v hk]
  exact (List.Perm.cons u List.perm_middle).trans
    ((List.Perm.swap v u _).trans (List.Perm.cons v List.perm_middle.symm))

theorem set_set_perm {β : Type} :
    ∀ (h : List β) (p q : Nat) (vq w : β), h[q]? = some vq → p < h.length →
      p ≠ q → ((h.set p vq).set q w).Perm (h.set p w)
  | [], p, q, vq, w, hq, hp, hne => by simp at hq
  | x :: t, 0, 0, vq, w, hq, hp, hne => absurd rfl hne
  | x :: t, 0, q + 1, vq, w, hq, hp, hne => by
    have hq' : t[q]? = some vq := by simpa using hq
    obtain ⟨hkq, hget⟩ := List.getElem?_eq_some_iff.mp hq'
    show (vq :: t.set q w).Perm (w :: t)
    have hperm := cons_set_swap_perm t q vq w hkq
    have hset : t.set q vq = t := by
      rw [List.set_eq_take_cons_drop vq hkq, ← hget, List.getElem_cons_drop,
        List.take_append_drop]
    rw [hset] at hperm
    exact hperm
  | x :: t, p + 1, 0, vq, w, hq, hp, hne => by
    have hx : x = vq := by simpa using hq
    have hp' : p < t.length := by
      simp at hp
      omega
    subst hx
    show (w :: t.set p x).Perm (x :: t.set p w)
    exact cons_set_swap_perm t p w x hp'
  | x :: t, p + 1, q + 1, vq, w, hq, hp, hne => by
    have hq' : t[q]? = some vq := by simpa using hq
    have hp' : p < t.length := by
      simp at hp
      omega
    show (x :: (t.set p vq).set q w).Perm (x :: t.set p w)
    exact List.Perm.cons x
      (set_set_perm t p q vq w hq' hp' (fun h => hne (by omega)))

theorem pairwise_keys_getElem {α : Type} {heap : List (ℚ × α)}
    (hnd : (heap.map Prod.fst).Pairwise (· ≠ ·)) :
    ∀ (i j : Nat) (e f : ℚ × α), i ≠ j → heap[i]? = some e →
      heap[j]? = some f → e.1 ≠ f.1 := by
  have hkey : ∀ i j, i < j → (hj : j < heap.length) → (hi : i < heap.length) →
      (heap[i]).1 ≠ (heap[j]).1 := by
    intro i j hij hj hi
    have := List.pairwise_iff_getElem.mp hnd i j
      (by simpa using hi) (by simpa using hj) hij
    simpa using this
  intro i j e f hij hi hj
  obtain ⟨hi', hie⟩ := List.getElem?_eq_some_iff.mp hi
  obtain ⟨hj', hjf⟩ := List.getElem?_eq_some_iff.mp hj
  rcases Nat.lt_or_ge i j with h | h
  · rw [← hie, ← hjf]; exact hkey i j h hj' hi'
  · have hji : j < i := by omega
    rw [← hie, ← hjf]; exact (hkey j i hji hi' hj').symm

theorem heapSiftdown_ok {α : Type} (pos : Nat) :
    ∀ (heap : List (ℚ × α)) (newitem : ℚ × α),
      (∀ (i : Nat) (e : ℚ × α), i < pos → heap[i]? = some e →
        e.1 ≠ newitem.1) →
      ∃ h2, heapSiftdown heap 0 pos newitem = (.ok (), h2) := by
  induction pos using Nat.strong_induction_on with
  | _ pos ih =>
    intro heap newitem hfresh
    by_cases hpos : 0 < pos
    · rw [heapSiftdown, dif_pos hpos]
      dsimp only
      rcases hpar : heap.get? ((pos - 1) / 2) with _ | parent
      · exact ⟨heap.set pos newitem, rfl⟩
      · dsimp only
        have hparE : heap[(pos - 1) / 2]? = some parent := by
          rw [← List.get?_eq_getElem?]; exact hpar
        have hne : newitem.1 ≠ parent.1 :=
          Ne.symm (hfresh _ _ (by omega) hparE)
        rcases entryLt_cases newitem parent hne with ⟨heq, _⟩ | ⟨heq, _⟩
        · rw [heq]
          dsimp only
          exact ih ((pos - 1) / 2) (by omega) (heap.set pos parent) newitem
            (fun i e hi hie => by
              rw [List.getElem?_set_ne (by omega)] at hie
              exact hfresh i e (by omega) hie)
        · rw [heq]
          exact ⟨heap.set pos newitem, rfl⟩
    · rw [heapSiftdown, dif_neg hpos]
      exact ⟨heap.set pos newitem, rfl⟩

theorem siftup_child_hyps {α : Type} {heap : List (ℚ × α)} {pos child : Nat}
    {newitem ch : ℚ × α}
    (hchild : heap[child]? = some ch) (hpc : pos < child)
    (h1 : ∀ (i : Nat) (e : ℚ × α), heap[i]? = some e →
      e.1 ≠ newitem.1 ∨ i = pos)
    (h2 : ∀ (i j : Nat) (e f : ℚ × α), pos < i → i < j → heap[i]? = some e →
      heap[j]? = some f → e.1 ≠ f.1) :
    (∀ (i : Nat) (e : ℚ × α), (heap.set pos ch)[i]? = some e →
        e.1 ≠ newitem.1 ∨ i = child)
      ∧ (∀ (i j : Nat) (e f : ℚ × α), child < i → i < j →
        (heap.set pos ch)[i]? = some e → (heap.set pos ch)[j]? = some f →
        e.1 ≠ f.1) := by
  obtain ⟨hcl, _⟩ := List.getElem?_eq_some_iff.mp hchild
  constructor
  · intro i e hie
    by_cases hip : i = pos
    · subst hip
      rw [List.getElem?_set_eq_of_lt ch (by omega)] at hie
      obtain rfl : ch = e := Option.some.inj hie
      exact Or.inl ((h1 child ch hchild).resolve_right (by omega))
    · rw [List.getElem?_set_ne (fun hh => hip hh.symm)] at hie
      exact (h1 i e hie).imp_right (fun hh => absurd hh hip)
  · intro i j e f hi hij hie hjf
    rw [List.getElem?_set_ne (by omega)] at hie
    rw [List.getElem?_set_ne (by omega)] at hjf
    exact h2 i j e f (by omega) hij hie hjf

theorem heapSiftup_ok {α : Type} :
    ∀ (fuel : Nat) (heap : List (ℚ × α)) (pos : Nat) (newitem : ℚ × α),
      heap.length - pos ≤ fuel →
      (∀ (i : Nat) (e : ℚ × α), heap[i]? = some e →
        e.1 ≠ newitem.1 ∨ i = pos) →
      (∀ (i j : Nat) (e f : ℚ × α), pos < i → i < j → heap[i]? = some e →
        heap[j]? = some f → e.1 ≠ f.1) →
      ∃ h2, heapSiftup heap 0 pos newitem = (.ok (), h2) := by
  intro fuel
  induction fuel with
  | zero =>
    intro heap pos newitem hfuel h1 h2
    rw [heapSiftup, dif_neg (by omega)]
    exact heapSiftdown_ok pos heap newitem (fun i e hi hie =>
      (h1 i e hie).resolve_right (by omega))
  | succ fuel ih =>
    intro heap pos newitem hfuel h1 h2
    by_cases hl : 2 * pos + 1 < heap.length
    · rw [heapSiftup, dif_pos hl]
      rcases hcget : heap.get? (2 * pos + 1) with _ | c
      · exact ⟨heap, rfl⟩
      · dsimp only
        have hcE : heap[2 * pos + 1]? = some c := by
          rw [← List.get?_eq_getElem?]; exact hcget
        obtain ⟨hs1, hs2⟩ := siftup_child_hyps hcE (by omega) h1 h2
        by_cases hr : 2 * pos + 2 < heap.length
        · rw [dif_pos hr]
          rcases hrget : heap.get? (2 * pos + 2) with _ | r
          · exact ⟨heap, rfl⟩
          · dsimp only
            have hrE : heap[2 * pos + 2]? = some r := by
              rw [← List.get?_eq_getElem?]; exact hrget
            have hcr : c.1 ≠ r.1 :=
              h2 (2 * pos + 1) (2 * pos + 2) c r (by omega) (by omega) hcE hrE
            obtain ⟨hr1, hr2⟩ := siftup_child_hyps hrE (by omega) h1 h2
            rcases entryLt_cases c r hcr with ⟨heq, _⟩ | ⟨heq, _⟩
            · rw [heq]
              dsimp only
              exact ih (heap.set pos c) (2 * pos + 1) newitem
                (by simp only [List.length_set]; omega) hs1 hs2
            · rw [heq]
              dsimp only
              exact ih (heap.set pos r) (2 * pos + 2) newitem
                (by simp only [List.length_set]; omega) hr1 hr2
        · rw [dif_neg hr]
          exact ih (heap.set pos c) (2 * pos + 1) newitem
            (by simp only [List.length_set]; omega) hs1 hs2
    · rw [heapSiftup, dif_neg hl]
      exact heapSiftdown_ok pos heap newitem (fun i e hi hie =>
        (h1 i e hie).resolve_right (by omega))

theorem heapSiftdown_spec {α : Type} (pos : Nat) :
    ∀ (heap : List (ℚ × α)) (newitem : ℚ × α),
      pos < heap.length →
      (∀ (i : Nat) (e : ℚ × α), i ≠ pos → heap[i]? = some e →
        e.1 ≠ newitem.1) →
      (∀ (j : Nat) (e ep : ℚ × α), 0 < j → j ≠ pos → (j - 1) / 2 ≠ pos →
        heap[j]? = some e → heap[(j - 1) / 2]? = some ep → ep.1 ≤ e.1) →
      (∀ (j : Nat) (e : ℚ × α), 0 < j → (j - 1) / 2 = pos →
        heap[j]? = some e → newitem.1 ≤ e.1) →
      (∀ (j : Nat) (e gp : ℚ × α), 0 < j → (j - 1) / 2 = pos → 0 < pos →
        heap[j]? = some e → heap[(pos - 1) / 2]? = some gp → gp.1 ≤ e.1) →
      ∃ h2, heapSiftdown heap 0 pos newitem = (.ok (), h2)
        ∧ HeapInv h2 ∧ h2.Perm (heap.set pos newitem) := by
  induction pos using Nat.strong_induction_on with
  | _ pos ih =>
    intro heap newitem hlen hfresh hC1 hC2 hC3
    by_cases hpos : 0 < pos
    case neg =>
      rw [heapSiftdown, dif_neg hpos]
      have hp0 : pos = 0 := by omega
      subst hp0
      refine ⟨heap.set 0 newitem, rfl, ?_, List.Perm.refl _⟩
      intro j e ep hj hje hjep
      by_cases hpj : (j - 1) / 2 = 0
      · rw [hpj, List.getElem?_set_eq_of_lt newitem hlen] at hjep
        obtain rfl : newitem = ep := Option.some.inj hjep
        rw [List.getElem?_set_ne (show (0:Nat) ≠ j by omega)] at hje
        exact hC2 j e hj hpj hje
      · rw [List.getElem?_set_ne (show (0:Nat) ≠ j by omega)] at hje
        rw [List.getElem?_set_ne (show (0:Nat) ≠ (j-1)/2 by omega)] at hjep
        exact hC1 j e ep hj (by omega) hpj hje hjep
    case pos =>
      rw [heapSiftdown, dif_pos hpos]
      dsimp only
      have hppl : (pos - 1) / 2 < heap.length := by omega
      rcases hpar : heap.get? ((pos - 1) / 2) with _ | parent
      · rw [List.get?_eq_getElem?, List.getElem?_eq_getElem hppl] at hpar
        cases hpar
      · dsimp only
        have hparE : heap[(pos - 1) / 2]? = some parent := by
          rw [← List.get?_eq_getElem?]; exact hpar
        have hne : newitem.1 ≠ parent.1 := Ne.symm (hfresh _ _ (by omega) hparE)
        rcases entryLt_cases newitem parent hne with ⟨heq, hlt⟩ | ⟨heq, hgt⟩
        · rw [heq]
          dsimp only
          obtain ⟨h2, hok, hinv2, hperm⟩ := ih ((pos - 1) / 2) (by omega)
            (heap.set pos parent) newitem
            (by simp only [List.length_set]; omega)
            (fun i e hi hie => by
              by_cases hip : i = pos
              · subst hip
                rw [List.getElem?_set_eq_of_lt parent hlen] at hie
                obtain rfl : parent = e := Option.some.inj hie
                exact hfresh _ _ (by omega) hparE
              · rw [List.getElem?_set_ne (fun hh => hip hh.symm)] at hie
                exact hfresh i e hip hie)
            (fun j e ep hj hjne hpjne hje hjep => by
              by_cases hjp : j = pos
              · subst hjp
                exact absurd rfl hpjne
              · by_cases hpjp : (j - 1) / 2 = pos
                · rw [List.getElem?_set_ne (show pos ≠ j by omega)] at hje
                  rw [hpjp, List.getElem?_set_eq_of_lt parent hlen] at hjep
                  obtain rfl : parent = ep := Option.some.inj hjep
                  exact hC3 j e parent hj hpjp hpos hje hparE
                · rw [List.getElem?_set_ne (show pos ≠ j by omega)] at hje
                  rw [List.getElem?_set_ne (show pos ≠ (j-1)/2 by omega)]
                    at hjep
                  exact hC1 j e ep hj hjp hpjp hje hjep)
            (fun j e hj hpj hje => by
              by_cases hjp : j = pos
              · rw [hjp, List.getElem?_set_eq_of_lt parent hlen] at hje
                obtain rfl : parent = e := Option.some.inj hje
                exact le_of_lt hlt
              · rw [List.getElem?_set_ne (show pos ≠ j by omega)] at hje
                have hpe : parent.1 ≤ e.1 :=
                  hC1 j e parent hj hjp (by omega) hje
                    (by rw [hpj]; exact hparE)
                exact le_trans (le_of_lt hlt) hpe)
            (fun j e gp hj hpj hpp hje hgp => by
              rw [List.getElem?_set_ne
                (show pos ≠ ((pos - 1) / 2 - 1) / 2 by omega)] at hgp
              by_cases hjp : j = pos
              · rw [hjp, List.getElem?_set_eq_of_lt parent hlen] at hje
                obtain rfl : parent = e := Option.some.inj hje
                exact hC1 ((pos - 1) / 2) parent gp hpp (by omega) (by omega)
                  hparE hgp
              · rw [List.getElem?_set_ne (show pos ≠ j by omega)] at hje
                have h1 : parent.1 ≤ e.1 :=
                  hC1 j e parent hj hjp (by omega) hje
                    (by rw [hpj]; exact hparE)
                have h2 : gp.1 ≤ parent.1 :=
                  hC1 ((pos - 1) / 2) parent gp hpp (by omega) (by omega)
                    hparE hgp
                exact le_trans h2 h1)
          refine ⟨h2, hok, hinv2, hperm.trans ?_⟩
          exact set_set_perm heap pos ((pos - 1) / 2) parent newitem hparE hlen
            (by omega)
        · rw [heq]
          refine ⟨heap.set pos newitem, rfl, ?_, List.Perm.refl _⟩
          intro j e ep hj hje hjep
          by_cases hjp : j = pos
          · rw [hjp, List.getElem?_set_eq_of_lt newitem hlen] at hje
            obtain rfl : newitem = e := Option.some.inj hje
            rw [hjp, List.getElem?_set_ne (show pos ≠ (pos-1)/2 by omega),
              hparE] at hjep
            obtain rfl : parent = ep := Option.some.inj hjep
            exact le_of_lt hgt
          · by_cases hpjp : (j - 1) / 2 = pos
            · rw [hpjp, List.getElem?_set_eq_of_lt newitem hlen] at hjep
              obtain rfl : newitem = ep := Option.some.inj hjep
              rw [List.getElem?_set_ne (show pos ≠ j by omega)] at hje
              exact hC2 j e hj hpjp hje
            · rw [List.getElem?_set_ne (show pos ≠ j by omega)] at hje
              rw [List.getElem?_set_ne (show pos ≠ (j-1)/2 by omega)] at hjep
              exact hC1 j e ep hj hjp hpjp hje hjep

theorem heappush_spec {α : Type} (h : List (ℚ × α)) (item : ℚ × α)
    (hinv : HeapInv h) (hfresh : ∀ e ∈ h, e.1 ≠ item.1) :
    ∃ h2, heappush h item = (.ok (), h2) ∧ HeapInv h2
      ∧ h2.Perm (h ++ [item]) := by
  have hlen : h.length < (h ++ [item]).length := by simp
  obtain ⟨h2, hok, hinv2, hperm⟩ := heapSiftdown_spec h.length (h ++ [item])
    item hlen
    (fun i e hi hie => by
      rcases Nat.lt_or_ge i h.length with hil | hig
      · rw [List.getElem?_append, if_pos hil] at hie
        exact hfresh e (List.getElem?_mem hie)
      · rw [List.getElem?_append, if_neg (by omega),
          List.getElem?_eq_none (by simp; omega)] at hie
        cases hie)
    (fun j e ep hj hjne hpjne hje hjep => by
      have hjl : j < h.length := by
        by_contra hc
        rw [List.getElem?_append, if_neg (by omega),
          List.getElem?_eq_none (by simp; omega)] at hje
        cases hje
      rw [List.getElem?_append, if_pos hjl] at hje
      rw [List.getElem?_append, if_pos (by omega)] at hjep
      exact hinv j e ep hj hje hjep)
    (fun j e hj hpj hje => by
      exfalso
      rw [List.getElem?_append, if_neg (by omega),
        List.getElem?_eq_none (by simp; omega)] at hje
      cases hje)
    (fun j e gp hj hpj hpp hje hgp => by
      exfalso
      rw [List.getElem?_append, if_neg (by omega),
        List.getElem?_eq_none (by simp; omega)] at hje
      cases hje)
  refine ⟨h2, by rw [heappush]; exact hok, hinv2, ?_⟩
  have hset : (h ++ [item]).set h.length item = h ++ [item] := by
    rw [List.set_append, if_neg (by omega)]
    simp
  rwa [hset] at hperm

theorem HeapInv_root_le {α : Type} {heap : List (ℚ × α)}
    (hinv : HeapInv heap) {r : ℚ × α} (h0 : heap[0]? = some r) :
    ∀ (j : Nat) (e : ℚ × α), heap[j]? = some e → r.1 ≤ e.1 := by
  intro j
  induction j using Nat.strong_induction_on with
  | _ j ihj =>
    intro e hje
    rcases Nat.eq_zero_or_pos j with hj0 | hjpos
    · subst hj0
      rw [h0] at hje
      obtain rfl : r = e := Option.some.inj hje
      exact le_refl _
    · obtain ⟨hjl, _⟩ := List.getElem?_eq_some_iff.mp hje
      rcases hp : heap[(j - 1) / 2]? with _ | ep
      · rw [List.getElem?_eq_getElem
          (show (j - 1) / 2 < heap.length by omega)] at hp
        cases hp
      · have h1 : ep.1 ≤ e.1 := hinv j e ep hjpos hje hp
        have h2 : r.1 ≤ ep.1 := ihj ((j - 1) / 2) (by omega) ep hp
        exact le_trans h2 h1

theorem dropLast_getElem_lift {α : Type} {heap : List (ℚ × α)}
    {i : Nat} {e : ℚ × α} (hie : heap.dropLast[i]? = some e) :
    heap[i]? = some e ∧ i < heap.length - 1 := by
  obtain ⟨hil, hieq⟩ := List.getElem?_eq_some_iff.mp hie
  have hil' : i < heap.length - 1 := by
    have := hil
    rw [List.length_dropLast] at this
    exact this
  refine ⟨?_, hil'⟩
  rw [List.getElem?_eq_getElem (by omega)]
  exact congrArg some ((List.getElem_dropLast heap i hil).symm.trans hieq)

theorem heappop_spec {α : Type} (heap : List (ℚ × α)) (hne : heap ≠ [])
    (hnd : (heap.map Prod.fst).Pairwise (· ≠ ·)) :
    ∃ h2 r, heappop heap = (.ok r, h2) ∧ heap[0]? = some r := by
  have hpos : 0 < heap.length := List.length_pos.mpr hne
  have hlast : heap[heap.length - 1]? = some (heap.getLast hne) := by
    rw [List.getLast_eq_getElem]
    exact List.getElem?_eq_getElem (by omega)
  have hkeys := pairwise_keys_getElem hnd
  rw [heappop, List.getLast?_eq_getLast_of_ne_nil hne]
  dsimp only
  rcases hr0 : (heap.dropLast).get? 0 with _ | r0
  · rw [List.get?_eq_getElem?] at hr0
    have hlen1 : heap.length = 1 := by
      have h1 := List.getElem?_eq_none_iff.mp hr0
      rw [List.length_dropLast] at h1
      omega
    obtain ⟨a, ha⟩ := List.length_eq_one.mp hlen1
    subst ha
    exact ⟨[], a, rfl, rfl⟩
  · rw [List.get?_eq_getElem?] at hr0
    obtain ⟨hroot, _⟩ := dropLast_getElem_lift hr0
    obtain ⟨hs2, hsok⟩ := heapSiftup_ok
      ((heap.dropLast.set 0 (heap.getLast hne)).length)
      (heap.dropLast.set 0 (heap.getLast hne)) 0 (heap.getLast hne)
      (by omega)
      (fun i e hie => by
        rcases Nat.eq_zero_or_pos i with hi0 | hipos
        · exact Or.inr hi0
        · rw [List.getElem?_set_ne (by omega)] at hie
          obtain ⟨hie', hil⟩ := dropLast_getElem_lift hie
          exact Or.inl (hkeys i (heap.length - 1) e (heap.getLast hne)
            (by omega) hie' hlast))
      (fun i j e f hi hij hie hjf => by
        rw [List.getElem?_set_ne (by omega)] at hie
        rw [List.getElem?_set_ne (by omega)] at hjf
        obtain ⟨hie', _⟩ := dropLast_getElem_lift hie
        obtain ⟨hjf', _⟩ := dropLast_getElem_lift hjf
        exact hkeys i j e f (by omega) hie' hjf')
    rw [hsok]
    exact ⟨hs2, r0, rfl, hroot⟩

theorem insertSeq_prio_spec :
    ∀ (ns : List NodeJson) (h : List (ℚ × NodeJson)),
      HeapInv h →
      (∀ n ∈ ns, n.relevance_score ≠ none) →
      (∀ n ∈ ns, ∀ e ∈ h, e.1 ≠ -(n.relevance_score.getD 0)) →
      ((ns.map NodeJson.relevance_score).Pairwise (· ≠ ·)) →
      ∃ h2, insertSeq ns (.prio h) = (.ok (), .prio h2) ∧ HeapInv h2
        ∧ h2.Perm (h ++ ns.map (fun m => (-(m.relevance_score.getD 0), m)))
  | [], h, hinv, _, _, _ => ⟨h, rfl, hinv, by simp⟩
  | n :: rest, h, hinv, hsome, hfresh, hpair => by
    rcases hscore : n.relevance_score with _ | v
    · exact absurd hscore (hsome n (by simp))
    · obtain ⟨h1, hpushok, hinv1, hperm1⟩ := heappush_spec h ((-v : ℚ), n) hinv
        (fun e he => by
          have t := hfresh n (by simp) e he
          rw [hscore] at t
          exact t)
      have hneg : negScore n = .ok (-v) := by rw [negScore, hscore]
      have hins : Frontier.insert (Frontier.prio h) n = (.ok (), .prio h1) := by
        rw [Frontier.insert, hneg]
        dsimp only
        rw [hpushok]
      rw [List.map_cons] at hpair
      obtain ⟨hhead, htail⟩ := List.pairwise_cons.mp hpair
      obtain ⟨h2, hrec, hinv2, hperm2⟩ := insertSeq_prio_spec rest h1 hinv1
        (fun m hm => hsome m (by simp [hm]))
        (fun m hm e he => by
          have hme : e ∈ h ++ [((-v : ℚ), n)] := (List.Perm.mem_iff hperm1).mp he
          rcases List.mem_append.mp hme with he' | he'
          · exact hfresh m (by simp [hm]) e he'
          · have heq : e = ((-v : ℚ), n) := by simpa using he'
            subst heq
            rcases hms : m.relevance_score with _ | w
            · exact absurd hms (hsome m (by simp [hm]))
            · have hnm : n.relevance_score ≠ m.relevance_score :=
                hhead m.relevance_score (List.mem_map_of_mem _ hm)
            -- the keys: -v vs -w
              have hvw : v ≠ w := by
                intro hc
                exact hnm (by rw [hscore, hms, hc])
              intro hc
              apply hvw
              have hc2 : -v = -w := hc
              exact neg_injective hc2)
        htail
      refine ⟨h2, ?_, hinv2, ?_⟩
      · rw [insertSeq, hins]
        exact hrec
      · have hfn : (h ++ [((-v : ℚ), n)])
            ++ rest.map (fun m => (-(m.relevance_score.getD 0), m))
            = h ++ (n :: rest).map (fun m => (-(m.relevance_score.getD 0), m)) := by
          rw [List.map_cons, List.append_assoc, hscore]
          rfl
        have hp4 := hperm1.append_right
          (rest.map (fun m => (-(m.relevance_score.getD 0), m)))
        rw [hfn] at hp4
        exact hperm2.trans hp4

/-- Claim C6 (amended): for every sequence of entries with pairwise-distinct
(present) scores inserted into a best-score-first frontier, every insert
succeeds and `pop()` on the non-empty frontier returns an inserted entry of
maximal score without failing; stable tie-breaking does not exist, because
inserting a second entry whose score is already present raises `TypeError`
from the heap's tuple comparison (see the counterexample). -/
theorem C6_distinct_scores_pop_max (ns : List NodeJson)
    (hsome : ∀ n ∈ ns, n.relevance_score ≠ none)
    (hdist : (ns.map NodeJson.relevance_score).Pairwise (· ≠ ·))
    (hne : ns ≠ []) :
    ∃ heap m f2,
      insertSeq ns (Frontier.prio []) = (.ok (), .prio heap)
        ∧ (Frontier.prio heap).pop = (.ok m, f2)
        ∧ m ∈ ns
        ∧ ∀ n ∈ ns, n.relevance_score.getD 0 ≤ m.relevance_score.getD 0 := by
  obtain ⟨heap, hseq, hinv, hperm⟩ := insertSeq_prio_spec ns []
    (fun j e ep hj hje hjep => by simp at hje)
    hsome
    (fun n hn e he => by simp at he)
    hdist
  have hperm' : heap.Perm
      (ns.map (fun m => (-(m.relevance_score.getD 0), m))) := by
    simpa using hperm
  have hheapne : heap ≠ [] := by
    intro hc
    rw [hc] at hperm'
    have hl := hperm'.length_eq
    simp at hl
    exact hne (List.eq_nil_of_length_eq_zero hl.symm)
  have hnd : (heap.map Prod.fst).Pairwise (· ≠ ·) := by
    have hmp : ((ns.map (fun m => (-(m.relevance_score.getD 0), m))).map
        Prod.fst).Pairwise (· ≠ ·) := by
      rw [List.map_map, List.pairwise_map]
      have hd2 : ns.Pairwise
          (fun a b => a.relevance_score ≠ b.relevance_score) := by
        rw [← List.pairwise_map]
        exact hdist
      refine List.Pairwise.imp_of_mem ?_ hd2
      intro a b ha hb hab
      rcases hsa : a.relevance_score with _ | va
      · exact absurd hsa (hsome a ha)
      · rcases hsb : b.relevance_score with _ | vb
        · exact absurd hsb (hsome b hb)
        · have hvab : va ≠ vb := by
            intro hc
            exact hab (by rw [hsa, hsb, hc])
          show -(a.relevance_score.getD 0) ≠ -(b.relevance_score.getD 0)
          rw [hsa, hsb]
          intro hc
          exact hvab (neg_injective hc)
    exact (List.Perm.pairwise_iff (fun hxy => Ne.symm hxy)
      (hperm'.map Prod.fst)).mpr hmp
  obtain ⟨h2, r, hpop, hroot⟩ := heappop_spec heap hheapne hnd
  obtain ⟨m, hmns, hfm⟩ := List.mem_map.mp
    ((List.Perm.mem_iff hperm').mp (List.getElem?_mem hroot))
  have hfpop : (Frontier.prio heap).pop = (.ok r.2, .prio h2) := by
    rw [Frontier.pop, if_neg (by rw [List.isEmpty_eq_false.mpr hheapne]; simp)]
    rw [hpop]
  refine ⟨heap, r.2, .prio h2, hseq, hfpop, ?_, ?_⟩
  · rw [← hfm]
    exact hmns
  · intro n hn
    have hmem : (-(n.relevance_score.getD 0), n) ∈ heap :=
      (List.Perm.mem_iff hperm').mpr (List.mem_map_of_mem _ hn)
    obtain ⟨j, hj⟩ := List.mem_iff_getElem?.mp hmem
    have hle := HeapInv_root_le hinv hroot j _ hj
    have hr1 : r.1 = -(m.relevance_score.getD 0) := by rw [← hfm]
    have hr2 : r.2 = m := by rw [← hfm]
    rw [hr2]
    rw [hr1] at hle
    exact le_of_neg_le_neg hle

/-- Counterexample to claim C6 as stated: inserting a second entry whose
score is already present makes the heap compare the two `(key, element)`
tuples on equal keys, falling through to the node dicts and raising
`TypeError`; the insert fails (the heap is left with the appended tail), so
equal-score entries are never tie-broken stably. -/
theorem C6_counterexample :
    insertSeq [⟨"a", "A", 2020, some 1⟩, ⟨"b", "B", 2021, some 1⟩]
        (Frontier.prio [])
      = (.error .typeError,
         .prio [((-1 : ℚ), ⟨"a", "A", 2020, some 1⟩),
                ((-1 : ℚ), ⟨"b", "B", 2021, some 1⟩)]) := by
  with_unfolding_all rfl

/-- Witness for the amended C6 theorem on two entries with distinct scores
1 and 2. -/
theorem C6_distinct_scores_pop_max_witness :
    ∃ heap m f2,
      insertSeq [⟨"a", "A", 2020, some 1⟩, ⟨"b", "B", 2021, some 2⟩]
          (Frontier.prio [])
        = (.ok (), .prio heap)
        ∧ (Frontier.prio heap).pop = (.ok m, f2)
        ∧ m ∈ ([⟨"a", "A", 2020, some 1⟩, ⟨"b", "B", 2021, some 2⟩] :
            List NodeJson)
        ∧ ∀ n ∈ ([⟨"a", "A", 2020, some 1⟩, ⟨"b", "B", 2021, some 2⟩] :
            List NodeJson),
          n.relevance_score.getD 0 ≤ m.relevance_score.getD 0 :=
  C6_distinct_scores_pop_max
    [⟨"a", "A", 2020, some 1⟩, ⟨"b", "B", 2021, some 2⟩]
    (by intro n hn
        simp only [List.mem_cons, List.not_mem_nil, or_false] at hn
        rcases hn with rfl | rfl <;> simp)
    (by with_unfolding_all decide)
    (by simp)

/-! ## Claim C3 — warm-cache idempotence of the exploration session

The replay argument: with an error-free first run, every relevance score the
first run computed was persisted, the relation store only ever grows (a
`NULL` score is filled at most once and never overwritten), so the second
run's lookups all hit the cache with the identical values, the traversal
makes identical decisions, and no `compare_two_papers` call happens. -/

theorem alookup_append_left {α β : Type} [DecidableEq α] (l l2 : List (α × β))
    (k : α) (x : β) (h : alookup l k = some x) :
    alookup (l ++ l2) k = some x := by
  induction l with
  | nil => simp [alookup] at h
  | cons hd t ih =>
    rw [List.cons_append]
    unfold alookup at h ⊢
    by_cases hk : hd.1 = k
    · rwa [if_pos hk] at h ⊢
    · rw [if_neg hk] at h ⊢
      exact ih h

theorem alookup_append_ne {α β : Type} [DecidableEq α] (l : List (α × β))
    (k k' : α) (b : β) (h : k' ≠ k) :
    alookup (l ++ [(k, b)]) k' = alookup l k' := by
  induction l with
  | nil => simp [alookup, Ne.symm h]
  | cons hd t ih =>
    rw [List.cons_append]
    unfold alookup
    by_cases hk : hd.1 = k'
    · rw [if_pos hk, if_pos hk]
    · rw [if_neg hk, if_neg hk]
      exact ih

theorem alookup_map_update_ne {α β : Type} [DecidableEq α]
    (l : List (α × β)) (k k' : α) (v' : β) (h : k' ≠ k) :
    alookup (l.map (fun r => if r.1 = k then (r.1, v') else r)) k'
      = alookup l k' := by
  induction l with
  | nil => rfl
  | cons hd t ih =>
    rw [List.map_cons]
    unfold alookup
    by_cases hdk : hd.1 = k
    · rw [if_pos hdk]
      have hne : hd.1 ≠ k' := by rw [hdk]; exact fun hh => h hh.symm
      show (if hd.1 = k' then some v' else _) = _
      rw [if_neg hne, if_neg hne]
      exact ih
    · rw [if_neg hdk]
      show (if hd.1 = k' then some hd.2 else _) = _
      by_cases hk : hd.1 = k'
      · rw [if_pos hk, if_pos hk]
      · rw [if_neg hk, if_neg hk]
        exact ih

/-- Filled relation rows survive from `r1` to `r2`: every stored (non-NULL)
score keeps its value. -/
def relLe (r1 r2 : List ((String × String) × Option ℚ)) : Prop :=
  ∀ (a b : String) (v : ℚ), alookup r1 (a, b) = some (some v) →
    alookup r2 (a, b) = some (some v)

theorem relLe_refl (r : List ((String × String) × Option ℚ)) : relLe r r :=
  fun _ _ _ h => h

theorem relLe_trans {r1 r2 r3 : List ((String × String) × Option ℚ)}
    (h1 : relLe r1 r2) (h2 : relLe r2 r3) : relLe r1 r3 :=
  fun a b v h => h2 a b v (h1 a b v h)

/-- The relation store after `process_citation`: either untouched, or the
entry suffered a blank `create` and/or had its NULL score filled — filled
scores always survive and keys other than `(root, tgt)` are untouched. -/
theorem process_citation_rel_evolution (db : DB) (root tgt : String) (s : St) :
    relLe s.relations ((process_citation db root tgt s).2).relations
      ∧ ∀ (a b : String), (a, b) ≠ (root, tgt) →
        getRelation (process_citation db root tgt s).2 a b
          = getRelation s a b := by
  unfold process_citation
  cases hpp : getPaper db tgt with
  | none => exact ⟨relLe_refl _, fun a b _ => rfl⟩
  | some prow =>
    rw [fetch_or_insert_eq]
    have blank : ∀ s1 : St,
        (relLe s.relations s1.relations
          ∧ (∀ (a b : String), (a, b) ≠ (root, tgt) →
              getRelation s1 a b = getRelation s a b)
          ∧ alookup s1.relations (root, tgt) = some none) →
        relLe s.relations
            ((match
                (if getChunks s1 root = [] then
                  generate_embedding_for_paper_chunks db root s1
                else (.ok (), s1)) with
              | (.error e, s2) => (.error (wrapHttp e), s2)
              | (.ok _, s2) =>
                match
                  (if getChunks s2 tgt = [] then
                    generate_embedding_for_paper_chunks db tgt s2
                  else (.ok (), s2)) with
                | (.error e, s3) => (.error (wrapHttp e), s3)
                | (.ok _, s3) =>
                  let s4 := bumpCount s3
                  match compare_two_papers s4 root tgt (1 / 2) with
                  | .error e => (.error (wrapHttp e), s4)
                  | .ok v0 => (.ok v0, updateRelationScore s4 root tgt v0)
              : Except Err ℚ × St).2).relations
          ∧ ∀ (a b : String), (a, b) ≠ (root, tgt) →
            getRelation
                (match
                    (if getChunks s1 root = [] then
                      generate_embedding_for_paper_chunks db root s1
                    else (.ok (), s1)) with
                  | (.error e, s2) => (.error (wrapHttp e), s2)
                  | (.ok _, s2) =>
                    match
                      (if getChunks s2 tgt = [] then
                        generate_embedding_for_paper_chunks db tgt s2
                      else (.ok (), s2)) with
                    | (.error e, s3) => (.error (wrapHttp e), s3)
                    | (.ok _, s3) =>
                      let s4 := bumpCount s3
                      match compare_two_papers s4 root tgt (1 / 2) with
                      | .error e => (.error (wrapHttp e), s4)
                      | .ok v0 => (.ok v0, updateRelationScore s4 root tgt v0)
                  : Except Err ℚ × St).2 a b
              = getRelation s a b := by
      intro s1 ⟨hle1, htouch1, hrow⟩
      rcases hg1 : (if getChunks s1 root = [] then
          generate_embedding_for_paper_chunks db root s1
        else (.ok (), s1)) with ⟨r2, s2⟩
      have hr2 : s2.relations = s1.relations := by
        have := ensure_chunks_preserves_relations db root s1
        rw [hg1] at this
        exact this
      cases r2 with
      | error e =>
        refine ⟨?_, ?_⟩
        · show relLe s.relations s2.relations
          rw [hr2]; exact hle1
        · intro a b hab
          show getRelation s2 a b = _
          show alookup s2.relations (a, b) = _
          rw [hr2]
          exact htouch1 a b hab
      | ok u =>
        dsimp only
        rcases hg2 : (if getChunks s2 tgt = [] then
            generate_embedding_for_paper_chunks db tgt s2
          else (.ok (), s2)) with ⟨r3, s3⟩
        have hr3 : s3.relations = s1.relations := by
          have := ensure_chunks_preserves_relations db tgt s2
          rw [hg2] at this
          rw [this, hr2]
        cases r3 with
        | error e =>
          refine ⟨?_, ?_⟩
          · show relLe s.relations s3.relations
            rw [hr3]; exact hle1
          · intro a b hab
            show alookup s3.relations (a, b) = _
            rw [hr3]
            exact htouch1 a b hab
        | ok u3 =>
          dsimp only
          cases hcmp : compare_two_papers (bumpCount s3) root tgt (1 / 2) with
          | error e =>
            refine ⟨?_, ?_⟩
            · show relLe s.relations (bumpCount s3).relations
              show relLe s.relations s3.relations
              rw [hr3]; exact hle1
            · intro a b hab
              show alookup s3.relations (a, b) = _
              rw [hr3]
              exact htouch1 a b hab
          | ok v0 =>
            refine ⟨?_, ?_⟩
            · intro a b v hv
              show alookup ((bumpCount s3).relations.map
                (fun r => if r.1 = (root, tgt) then (r.1, some v0) else r))
                (a, b) = some (some v)
              show alookup (s3.relations.map
                (fun r => if r.1 = (root, tgt) then (r.1, some v0) else r))
                (a, b) = some (some v)
              by_cases hab : (a, b) = (root, tgt)
              · exfalso
                rw [hab] at hv
                have h1 : alookup s1.relations (root, tgt) = some (some v) :=
                  hle1 root tgt v hv
                rw [hrow] at h1
                cases h1
              · rw [alookup_map_update_ne _ _ _ _ hab, hr3]
                exact hle1 a b v hv
            · intro a b hab
              show alookup ((bumpCount s3).relations.map
                (fun r => if r.1 = (root, tgt) then (r.1, some v0) else r))
                (a, b) = _
              show alookup (s3.relations.map
                (fun r => if r.1 = (root, tgt) then (r.1, some v0) else r))
                (a, b) = _
              rw [alookup_map_update_ne _ _ _ _ hab, hr3]
              exact htouch1 a b hab
    cases hrel : getRelation s root tgt with
    | none =>
      dsimp only
      refine blank (createRelation s root tgt) ⟨?_, ?_, ?_⟩
      · intro a b v hv
        exact alookup_append_left _ _ _ _ hv
      · intro a b hab
        exact alookup_append_ne _ _ _ _ hab
      · exact getRelation_createRelation_self s root tgt hrel
    | some w =>
      cases w with
      | none => exact blank s ⟨relLe_refl _, fun a b _ => rfl, hrel⟩
      | some w0 => exact ⟨relLe_refl _, fun a b _ => rfl⟩

/-- Replay: a warmed re-run of `process_citation` is a pure cache hit — it
returns the same score as the first run and leaves the state completely
unchanged (in particular it performs zero `compare_two_papers` calls). -/
theorem process_citation_replay (db : DB) (root tgt : String) {s : St}
    {v : ℚ} {s₁ : St} (s' : St)
    (h : process_citation db root tgt s = (.ok v, s₁))
    (hle : relLe s₁.relations s'.relations) :
    process_citation db root tgt s' = (.ok v, s') := by
  cases hpp : getPaper db tgt with
  | none =>
    have hv : v = 0 := by
      unfold process_citation at h
      rw [hpp] at h
      simpa using (congrArg Prod.fst h).symm
    subst hv
    unfold process_citation
    rw [hpp]
  | some p =>
    have hfill : getRelation s' root tgt = some (some v) := by
      rcases process_citation_ok_cases db root tgt s v s₁ h with
        ⟨hmiss, _, _⟩ | ⟨hhit, hs⟩ | hfill
      · rw [hpp] at hmiss; cases hmiss
      · apply hle
        show alookup s₁.relations (root, tgt) = some (some v)
        rw [hs]
        exact hhit
      · exact hle root tgt v hfill
    unfold process_citation
    rw [hpp, fetch_or_insert_eq, hfill]

theorem process_citation_missing (db : DB) (root tgt : String) (s : St)
    (hpp : getPaper db tgt = none) :
    process_citation db root tgt s = (.ok 0, s) := by
  unfold process_citation
  rw [hpp]

theorem process_citation_touch (db : DB) (root tgt : String) (s : St) :
    ∀ (a b : String),
      getRelation (process_citation db root tgt s).2 a b = getRelation s a b
        ∨ ((a, b) = (root, tgt) ∧ getPaper db tgt ≠ none) := by
  intro a b
  by_cases hab : (a, b) = (root, tgt)
  · cases hpp : getPaper db tgt with
    | none => exact Or.inl (by rw [process_citation_missing db root tgt s hpp])
    | some p => exact Or.inr ⟨hab, by simp [hpp]⟩
  · exact Or.inl ((process_citation_rel_evolution db root tgt s).2 a b hab)

/-- Run-one bookkeeping for the shared filtering loop: the relation store
only grows (filled scores survive), and every touched relation key is
`(root, t)` for a processed — hence previously unexplored — target whose
paper row exists. -/
theorem filter_by_relevance_go_rel (db : DB) (root : String) (θ : ℚ) :
    ∀ (rows : List String) (acc : List (String × ℚ)) (s : St),
      relLe s.relations
          ((filter_by_relevance_go db root θ rows acc s).2).relations
        ∧ ∀ (a b : String),
          getRelation (filter_by_relevance_go db root θ rows acc s).2 a b
              = getRelation s a b
            ∨ (a = root ∧ b ∉ s.explored ∧ getPaper db b ≠ none) := by
  intro rows
  induction rows with
  | nil =>
    intro acc s
    exact ⟨relLe_refl _, fun a b => Or.inl rfl⟩
  | cons t rest ih =>
    intro acc s
    show relLe s.relations
        ((filter_by_relevance_go db root θ (t :: rest) acc s).2).relations ∧ _
    unfold filter_by_relevance_go
    by_cases hexp : t ∈ s.explored
    · rw [if_pos hexp]
      exact ih acc s
    · rw [if_neg hexp]
      rcases hpc : process_citation db root t s with ⟨rpc, s1⟩
      obtain ⟨hle1, htouch1⟩ := process_citation_rel_evolution db root t s
      rw [hpc] at hle1 htouch1
      have hexpl1 : s1.explored = s.explored := by
        have := process_citation_explored db root t s
        rw [hpc] at this
        exact this
      have htouch1' : ∀ (a b : String),
          getRelation s1 a b = getRelation s a b
            ∨ (a = root ∧ b ∉ s.explored ∧ getPaper db b ≠ none) := by
        intro a b
        rcases process_citation_touch db root t s a b with hsame | ⟨hab, hp⟩
        · rw [hpc] at hsame
          exact Or.inl hsame
        · right
          obtain ⟨rfl, rfl⟩ := Prod.mk.injEq a b root t |>.mp hab
          exact ⟨rfl, hexp, hp⟩
      cases rpc with
      | error e =>
        dsimp only
        exact ⟨hle1, htouch1'⟩
      | ok v =>
        dsimp only
        by_cases hlt : v < θ
        · rw [if_pos hlt]
          obtain ⟨hle2, htouch2⟩ := ih acc (addExplored s1 t)
          refine ⟨relLe_trans hle1 hle2, ?_⟩
          intro a b
          rcases htouch2 a b with hsame | ⟨ha, hb, hp⟩
          · rcases htouch1' a b with hsame1 | hchg
            · exact Or.inl (hsame.trans hsame1)
            · exact Or.inr hchg
          · refine Or.inr ⟨ha, ?_, hp⟩
            intro hbs
            exact hb (by
              show b ∈ s1.explored ++ [t]
              rw [hexpl1]
              exact List.mem_append.mpr (Or.inl hbs))
        · rw [if_neg hlt]
          obtain ⟨hle2, htouch2⟩ := ih (dictUpsert acc t v) s1
          refine ⟨relLe_trans hle1 hle2, ?_⟩
          intro a b
          rcases htouch2 a b with hsame | ⟨ha, hb, hp⟩
          · rcases htouch1' a b with hsame1 | hchg
            · exact Or.inl (hsame.trans hsame1)
            · exact Or.inr hchg
          · refine Or.inr ⟨ha, ?_, hp⟩
            intro hbs
            exact hb (by rw [hexpl1]; exact hbs)

/-- Every pair recorded by the filtering loop either came in through the
accumulator, or has its (computed or cached) score stored in the output
relation store, or names a missing paper (scored `0.0` without caching). -/
theorem filter_recorded_filled (db : DB) (root : String) (θ : ℚ) :
    ∀ (rows : List String) (acc : List (String × ℚ)) (s : St)
      (refs : List (String × ℚ)) (s₁ : St),
      filter_by_relevance_go db root θ rows acc s = (.ok refs, s₁) →
      ∀ p ∈ refs, p ∈ acc
        ∨ (∃ w : ℚ, getRelation s₁ root p.1 = some (some w))
        ∨ getPaper db p.1 = none := by
  intro rows
  induction rows with
  | nil =>
    intro acc s refs s₁ h
    unfold filter_by_relevance_go at h
    have hrefs : refs = acc := by simpa using (congrArg Prod.fst h).symm
    subst hrefs
    exact fun p hp => Or.inl hp
  | cons t rest ih =>
    intro acc s refs s₁ h
    unfold filter_by_relevance_go at h
    by_cases hexp : t ∈ s.explored
    · rw [if_pos hexp] at h
      exact ih acc s refs s₁ h
    · rw [if_neg hexp] at h
      rcases hpc : process_citation db root t s with ⟨rpc, s1⟩
      rw [hpc] at h
      cases rpc with
      | error e => simp at h
      | ok v =>
        dsimp only at h
        by_cases hlt : v < θ
        · rw [if_pos hlt] at h
          exact ih acc (addExplored s1 t) refs s₁ h
        · rw [if_neg hlt] at h
          intro p hp
          rcases ih (dictUpsert acc t v) s1 refs s₁ h p hp with hacc | hrest
          · rcases dictUpsert_mem acc t v p hacc with hacc2 | rfl
            · exact Or.inl hacc2
            · rcases process_citation_ok_cases db root t s v s1 hpc with
                ⟨hmiss, _, _⟩ | ⟨hhit, hs⟩ | hfill
              · exact Or.inr (Or.inr hmiss)
              · refine Or.inr (Or.inl ⟨v, ?_⟩)
                have hfl : getRelation s1 root t = some (some v) := by
                  rw [hs]; exact hhit
                have hm := (filter_by_relevance_go_rel db root θ rest
                  (dictUpsert acc t v) s1).1
                rw [h] at hm
                exact hm root t v hfl
              · refine Or.inr (Or.inl ⟨v, ?_⟩)
                have hm := (filter_by_relevance_go_rel db root θ rest
                  (dictUpsert acc t v) s1).1
                rw [h] at hm
                exact hm root t v hfill
          · exact Or.inr hrest

/-- Replay of the filtering loop from a warmed state: every per-target call
is a cache hit with the first run's score, so the loop returns the same
dict, the same explored additions, and mutates nothing else. -/
theorem filter_by_relevance_go_replay (db : DB) (root : String) (θ : ℚ) :
    ∀ (rows : List String) (acc : List (String × ℚ)) (s : St)
      (refs : List (String × ℚ)) (s₁ : St) (s' : St),
      filter_by_relevance_go db root θ rows acc s = (.ok refs, s₁) →
      relLe s₁.relations s'.relations →
      s'.explored = s.explored →
      filter_by_relevance_go db root θ rows acc s'
        = (.ok refs, { s' with explored := s₁.explored }) := by
  intro rows
  induction rows with
  | nil =>
    intro acc s refs s₁ s' h hle hexp
    unfold filter_by_relevance_go at h
    have hrefs : refs = acc := by simpa using (congrArg Prod.fst h).symm
    have hs : s₁ = s := by simpa using (congrArg Prod.snd h).symm
    subst hrefs hs
    have hrec : { s' with explored := s₁.explored } = s' := by
      rw [← hexp]
    rw [hrec]
    rfl
  | cons t rest ih =>
    intro acc s refs s₁ s' h hle hexp
    unfold filter_by_relevance_go at h ⊢
    by_cases hexpt : t ∈ s.explored
    · rw [if_pos hexpt] at h
      rw [if_pos (by rw [hexp]; exact hexpt)]
      exact ih acc s refs s₁ s' h hle hexp
    · rw [if_neg hexpt] at h
      rw [if_neg (by rw [hexp]; exact hexpt)]
      rcases hpc : process_citation db root t s with ⟨rpc, s1⟩
      rw [hpc] at h
      have hexpl1 : s1.explored = s.explored := by
        have := process_citation_explored db root t s
        rw [hpc] at this
        exact this
      cases rpc with
      | error e => simp at h
      | ok v =>
        dsimp only at h
        have hle1 : relLe s1.relations s'.relations := by
          refine relLe_trans ?_ hle
          by_cases hlt : v < θ
          · rw [if_pos hlt] at h
            have := (filter_by_relevance_go_rel db root θ rest acc
              (addExplored s1 t)).1
            rw [h] at this
            exact this
          · rw [if_neg hlt] at h
            have := (filter_by_relevance_go_rel db root θ rest
              (dictUpsert acc t v) s1).1
            rw [h] at this
            exact this
        rw [process_citation_replay db root t s' hpc hle1]
        dsimp only
        by_cases hlt : v < θ
        · rw [if_pos hlt] at h ⊢
          have hrec := ih acc (addExplored s1 t) refs s₁ (addExplored s' t) h
            hle (by
              show s'.explored ++ [t] = s1.explored ++ [t]
              rw [hexp, hexpl1])
          exact hrec
        · rw [if_neg hlt] at h ⊢
          exact ih (dictUpsert acc t v) s1 refs s₁ s' h hle
            (by rw [hexp, hexpl1])

theorem filter_by_relevance_go_exp (db : DB) (root : String) (θ : ℚ) :
    ∀ (rows : List String) (acc : List (String × ℚ)) (s : St),
      ∀ x ∈ s.explored,
        x ∈ ((filter_by_relevance_go db root θ rows acc s).2).explored := by
  intro rows
  induction rows with
  | nil => intro acc s x hx; exact hx
  | cons t rest ih =>
    intro acc s x hx
    unfold filter_by_relevance_go
    by_cases hexp : t ∈ s.explored
    · rw [if_pos hexp]
      exact ih acc s x hx
    · rw [if_neg hexp]
      rcases hpc : process_citation db root t s with ⟨rpc, s1⟩
      have hexpl1 : s1.explored = s.explored := by
        have := process_citation_explored db root t s
        rw [hpc] at this
        exact this
      cases rpc with
      | error e =>
        dsimp only
        rw [hexpl1]
        exact hx
      | ok v =>
        dsimp only
        by_cases hlt : v < θ
        · rw [if_pos hlt]
          refine ih acc (addExplored s1 t) x ?_
          show x ∈ s1.explored ++ [t]
          rw [hexpl1]
          exact List.mem_append.mpr (Or.inl hx)
        · rw [if_neg hlt]
          refine ih (dictUpsert acc t v) s1 x ?_
          rw [hexpl1]
          exact hx

theorem process_citations_rel (db : DB) (root cur : String) (θ : ℚ) (s : St) :
    relLe s.relations ((process_citations db root cur θ s).2).relations
      ∧ (∀ (a b : String),
          getRelation (process_citations db root cur θ s).2 a b
              = getRelation s a b
            ∨ (a = root ∧ b ∉ s.explored ∧ getPaper db b ≠ none))
      ∧ ∀ x ∈ s.explored,
          x ∈ ((process_citations db root cur θ s).2).explored := by
  unfold process_citations
  cases getPaper db cur with
  | none => exact ⟨relLe_refl _, fun a b => Or.inl rfl, fun x hx => hx⟩
  | some p =>
    dsimp only
    split
    · exact ⟨relLe_refl _, fun a b => Or.inl rfl, fun x hx => hx⟩
    · obtain ⟨h1, h2⟩ := filter_by_relevance_go_rel db root θ
        (getCitationsBySource db cur) [] s
      exact ⟨h1, h2, filter_by_relevance_go_exp db root θ _ [] s⟩

theorem process_parents_rel (db : DB) (root child : String) (θ : ℚ) (s : St) :
    relLe s.relations ((process_parents db root child θ s).2).relations
      ∧ (∀ (a b : String),
          getRelation (process_parents db root child θ s).2 a b
              = getRelation s a b
            ∨ (a = root ∧ b ∉ s.explored ∧ getPaper db b ≠ none))
      ∧ ∀ x ∈ s.explored,
          x ∈ ((process_parents db root child θ s).2).explored := by
  unfold process_parents
  dsimp only
  split
  · exact ⟨relLe_refl _, fun a b => Or.inl rfl, fun x hx => hx⟩
  · obtain ⟨h1, h2⟩ := filter_by_relevance_go_rel db root θ
      (getCitationsByCited db child) [] s
    exact ⟨h1, h2, filter_by_relevance_go_exp db root θ _ [] s⟩

theorem process_citations_replay (db : DB) (root cur : String) (θ : ℚ)
    {s : St} {refs : List (String × ℚ)} {s₁ : St} (s' : St)
    (h : process_citations db root cur θ s = (.ok refs, s₁))
    (hle : relLe s₁.relations s'.relations)
    (hexp : s'.explored = s.explored) :
    process_citations db root cur θ s'
      = (.ok refs, { s' with explored := s₁.explored }) := by
  unfold process_citations at h ⊢
  cases hpp : getPaper db cur with
  | none =>
    rw [hpp] at h
    dsimp only at h ⊢
    cases h
    have hrec : ({ s' with explored := s.explored } : St) = s' := by
      rw [← hexp]
    rw [hrec]
  | some p =>
    rw [hpp] at h
    dsimp only at h ⊢
    by_cases hrows : (getCitationsBySource db cur).isEmpty
    · rw [if_pos hrows] at h ⊢
      cases h
      have hrec : ({ s' with explored := s.explored } : St) = s' := by
        rw [← hexp]
      rw [hrec]
    · rw [if_neg hrows] at h ⊢
      exact filter_by_relevance_go_replay db root θ _ [] s refs s₁ s' h hle hexp

theorem process_parents_replay (db : DB) (root child : String) (θ : ℚ)
    {s : St} {refs : List (String × ℚ)} {s₁ : St} (s' : St)
    (h : process_parents db root child θ s = (.ok refs, s₁))
    (hle : relLe s₁.relations s'.relations)
    (hexp : s'.explored = s.explored) :
    process_parents db root child θ s'
      = (.ok refs, { s' with explored := s₁.explored }) := by
  unfold process_parents at h ⊢
  dsimp only at h ⊢
  by_cases hrows : (getCitationsByCited db child).isEmpty
  · rw [if_pos hrows] at h ⊢
    cases h
    have hrec : ({ s' with explored := s.explored } : St) = s' := by
      rw [← hexp]
    rw [hrec]
  · rw [if_neg hrows] at h ⊢
    exact filter_by_relevance_go_replay db root θ _ [] s refs s₁ s' h hle hexp

theorem process_citations_recorded (db : DB) (root cur : String) (θ : ℚ)
    {s : St} {refs : List (String × ℚ)} {s₁ : St}
    (h : process_citations db root cur θ s = (.ok refs, s₁)) :
    ∀ p ∈ refs, (∃ w : ℚ, getRelation s₁ root p.1 = some (some w))
      ∨ getPaper db p.1 = none := by
  unfold process_citations at h
  cases hpp : getPaper db cur with
  | none =>
    rw [hpp] at h
    dsimp only at h
    cases h
    intro p hp
    cases hp
  | some prow =>
    rw [hpp] at h
    dsimp only at h
    by_cases hrows : (getCitationsBySource db cur).isEmpty
    · rw [if_pos hrows] at h
      cases h
      intro p hp
      cases hp
    · rw [if_neg hrows] at h
      intro p hp
      rcases filter_recorded_filled db root θ _ [] s refs s₁ h p hp with
        hacc | hrest
      · cases hacc
      · exact hrest

theorem frontierInsert_congr (sA sB : St) (n : NodeJson)
    (h : sB.frontier = sA.frontier) :
    (frontierInsert sB n).1 = (frontierInsert sA n).1
      ∧ ((frontierInsert sB n).2).frontier
        = ((frontierInsert sA n).2).frontier := by
  unfold frontierInsert
  rw [h]
  rcases sA.frontier.insert n with ⟨r, f2⟩
  cases r <;> exact ⟨rfl, rfl⟩

theorem frontierInsertAll_congr :
    ∀ (nodes : List NodeJson) (sA sB : St), sB.frontier = sA.frontier →
      (frontierInsertAll nodes sB).1 = (frontierInsertAll nodes sA).1
        ∧ ((frontierInsertAll nodes sB).2).frontier
          = ((frontierInsertAll nodes sA).2).frontier
  | [], sA, sB, h => ⟨rfl, h⟩
  | n :: rest, sA, sB, h => by
    unfold frontierInsertAll
    obtain ⟨h1, h2⟩ := frontierInsert_congr sA sB n h
    rcases hA : frontierInsert sA n with ⟨rA, sA1⟩
    rcases hB : frontierInsert sB n with ⟨rB, sB1⟩
    rw [hA, hB] at h1 h2
    dsimp only at h1 h2
    subst h1
    cases rB with
    | error e => exact ⟨rfl, h2⟩
    | ok u => exact frontierInsertAll_congr rest sA1 sB1 h2

theorem frontierPop_congr (sA sB : St) (h : sB.frontier = sA.frontier) :
    (frontierPop sB).1 = (frontierPop sA).1
      ∧ ((frontierPop sB).2).frontier = ((frontierPop sA).2).frontier := by
  unfold frontierPop
  rw [h]
  rcases sA.frontier.pop with ⟨r, f2⟩
  cases r <;> exact ⟨rfl, rfl⟩

/-- The replay state relation: the re-run's state `t` tracks the first run's
explored set and frontier at the corresponding execution point, while its
store (relations, chunks) and computation counter stay exactly those of the
re-run's warm session start `base`. -/
@[reducible] def Sim (s₁ base t : St) : Prop :=
  t.explored = s₁.explored ∧ t.frontier = s₁.frontier
    ∧ t.relations = base.relations ∧ t.chunks = base.chunks
    ∧ t.computeCount = base.computeCount

/-- Run-one bookkeeping for one downward expansion step: relation rows only
grow, touched keys are `(root, fresh unexplored target with a paper row)`,
and the explored set only grows. -/
theorem explore_downward_step_rel (db : DB) (root start : String)
    (maxD curD : Nat) (θ : ℚ) (s : St) :
    relLe s.relations
        ((explore_downward_step db root start maxD curD θ s).2).relations
      ∧ (∀ (a b : String),
          getRelation (explore_downward_step db root start maxD curD θ s).2 a b
              = getRelation s a b
            ∨ (a = root ∧ b ∉ s.explored ∧ getPaper db b ≠ none))
      ∧ ∀ x ∈ s.explored,
          x ∈ ((explore_downward_step db root start maxD curD θ s).2).explored := by
  unfold explore_downward_step
  by_cases hd : curD > maxD
  · rw [if_pos hd]
    exact ⟨relLe_refl _, fun a b => Or.inl rfl, fun x hx => hx⟩
  · rw [if_neg hd]
    by_cases hexps : start ∈ s.explored
    · rw [if_pos hexps]
      exact ⟨relLe_refl _, fun a b => Or.inl rfl, fun x hx => hx⟩
    · rw [if_neg hexps]
      dsimp only
      obtain ⟨hle1, htouch1, hexp1⟩ :=
        process_citations_rel db root start θ (addExplored s start)
      rcases hpc : process_citations db root start θ (addExplored s start)
        with ⟨rpc, sA⟩
      rw [hpc] at hle1 htouch1 hexp1
      have htouch1' : ∀ (a b : String),
          getRelation sA a b = getRelation s a b
            ∨ (a = root ∧ b ∉ s.explored ∧ getPaper db b ≠ none) := by
        intro a b
        rcases htouch1 a b with hsame | ⟨ha, hb, hp⟩
        · exact Or.inl hsame
        · exact Or.inr ⟨ha, fun hbs => hb (List.mem_append.mpr (Or.inl hbs)), hp⟩
      have hexp1' : ∀ x ∈ s.explored, x ∈ sA.explored := by
        intro x hx
        exact hexp1 x (List.mem_append.mpr (Or.inl hx))
      cases rpc with
      | error e => exact ⟨hle1, htouch1', hexp1'⟩
      | ok refs =>
        dsimp only
        split
        · rename_i e3 s3 hins
          obtain ⟨hex, _, hrel, _, _⟩ := frontierInsertAll_frame _ _
          rw [hins] at hex hrel
          refine ⟨?_, ?_, ?_⟩
          · show relLe _ s3.relations
            rw [hrel]
            exact hle1
          · intro a b
            rcases htouch1' a b with hsame | hchg
            · refine Or.inl ?_
              show alookup s3.relations (a, b) = _
              rw [hrel]
              exact hsame
            · exact Or.inr hchg
          · intro x hx
            rw [hex]
            exact hexp1' x hx
        · rename_i u s3 hins
          obtain ⟨hex, _, hrel, _, _⟩ := frontierInsertAll_frame _ _
          rw [hins] at hex hrel
          refine ⟨?_, ?_, ?_⟩
          · show relLe _ s3.relations
            rw [hrel]
            exact hle1
          · intro a b
            rcases htouch1' a b with hsame | hchg
            · refine Or.inl ?_
              show alookup s3.relations (a, b) = _
              rw [hrel]
              exact hsame
            · exact Or.inr hchg
          · intro x hx
            rw [hex]
            exact hexp1' x hx

/-- Every id in the step's discovered set has its score to the root stored,
or names a missing paper, or is the (now explored) start id. -/
theorem explore_downward_step_dchar (db : DB) (root start : String)
    (maxD curD : Nat) (θ : ℚ) {s s₁ : St} {d : List String}
    (h : explore_downward_step db root start maxD curD θ s
      = (.ok (some d), s₁)) :
    ∀ n ∈ d, (∃ w : ℚ, getRelation s₁ root n = some (some w))
      ∨ getPaper db n = none ∨ n ∈ s₁.explored := by
  unfold explore_downward_step at h
  by_cases hd : curD > maxD
  · rw [if_pos hd] at h
    cases h
  · rw [if_neg hd] at h
    by_cases hexps : start ∈ s.explored
    · rw [if_pos hexps] at h
      cases h
    · rw [if_neg hexps] at h
      dsimp only at h
      rcases hpc : process_citations db root start θ (addExplored s start)
        with ⟨rpc, sA⟩
      rw [hpc] at h
      cases rpc with
      | error e => cases h
      | ok refs =>
        dsimp only at h
        split at h
        · cases h
        · rename_i u s3 hins
          obtain ⟨hex, _, hrel, _, _⟩ := frontierInsertAll_frame _ _
          rw [hins] at hex hrel
          cases h
          intro n hn
          have hstart_exp : start ∈ s₁.explored := by
            rw [hex]
            show start ∈ sA.explored
            have hmono := (process_citations_rel db root start θ
              (addExplored s start)).2.2
            rw [hpc] at hmono
            exact hmono start (List.mem_append.mpr (Or.inr (by simp)))
          rcases List.mem_append.mp hn with hn1 | hn2
          · have : n = start := List.mem_singleton.mp hn1
            subst this
            exact Or.inr (Or.inr hstart_exp)
          · have hnref : n ∈ refs.map (fun tv => tv.1) :=
              List.mem_of_mem_filter hn2
            obtain ⟨p, hp, hpn⟩ := List.mem_map.mp hnref
            rcases process_citations_recorded db root start θ hpc p hp with
              ⟨w, hw⟩ | hmiss
            · refine Or.inl ⟨w, ?_⟩
              show alookup s₁.relations (root, n) = _
              rw [hrel]
              rw [hpn] at hw
              exact hw
            · rw [hpn] at hmiss
              exact Or.inr (Or.inl hmiss)

theorem frontierInsertAll_replay :
    ∀ {nodes : List NodeJson} {sA : St} {r : Except Err Unit} {s3 : St},
      frontierInsertAll nodes sA = (r, s3) → ∀ (sB : St),
      sB.frontier = sA.frontier →
      frontierInsertAll nodes sB = (r, { sB with frontier := s3.frontier })
  | [], sA, r, s3, hins, sB, hf => by
    cases hins
    show ((.ok () : Except Err Unit), sB) = (.ok (), { sB with frontier := sA.frontier })
    rw [← hf]
  | n :: rest, sA, r, s3, hins, sB, hf => by
    unfold frontierInsertAll at hins ⊢
    unfold frontierInsert at hins ⊢
    rw [hf]
    rcases hx : sA.frontier.insert n with ⟨r1, f2⟩
    rw [hx] at hins
    cases r1 with
    | error e =>
      dsimp only at hins ⊢
      cases hins
      rfl
    | ok u1 =>
      dsimp only at hins ⊢
      exact frontierInsertAll_replay hins { sB with frontier := f2 } rfl

theorem frontierPop_replay {sA : St} {r : Except Err NodeJson} {s3 : St}
    (h : frontierPop sA = (r, s3)) (sB : St) (hf : sB.frontier = sA.frontier) :
    frontierPop sB = (r, { sB with frontier := s3.frontier }) := by
  unfold frontierPop at h ⊢
  rw [hf]
  rcases hx : sA.frontier.pop with ⟨r1, f2⟩
  rw [hx] at h
  cases r1 with
  | error e =>
    dsimp only at h ⊢
    cases h
    rfl
  | ok n =>
    dsimp only at h ⊢
    cases h
    rfl

/-- Replay of one downward expansion step from a warmed state: the reference
dict, node list and discovered set are identical, and the warmed store is
read but never written. -/
theorem explore_downward_step_replay (db : DB) (root start : String)
    (maxD curD : Nat) (θ : ℚ) {s s₁ : St} {res : Option (List String)}
    {base t0 : St}
    (h : explore_downward_step db root start maxD curD θ s = (.ok res, s₁))
    (hsim : Sim s base t0)
    (hle : relLe s₁.relations base.relations) :
    ∃ t, explore_downward_step db root start maxD curD θ t0 = (.ok res, t)
      ∧ Sim s₁ base t := by
  obtain ⟨hexp, hfr, hrel, hch, hcc⟩ := hsim
  unfold explore_downward_step at h ⊢
  by_cases hdep : curD > maxD
  · rw [if_pos hdep] at h ⊢
    cases h
    exact ⟨_, rfl, hexp, hfr, hrel, hch, hcc⟩
  · rw [if_neg hdep] at h ⊢
    by_cases hexps : start ∈ s.explored
    · rw [if_pos hexps] at h
      rw [if_pos (by rw [hexp]; exact hexps)]
      cases h
      exact ⟨t0, rfl, hexp, hfr, hrel, hch, hcc⟩
    · rw [if_neg hexps] at h
      rw [if_neg (by rw [hexp]; exact hexps)]
      dsimp only at h ⊢
      rcases hpc : process_citations db root start θ (addExplored s start)
        with ⟨rpc, sA⟩
      rw [hpc] at h
      cases rpc with
      | error e => cases h
      | ok refs =>
        dsimp only at h
        split at h
        · cases h
        · rename_i u s3 hins
          obtain ⟨hexf, _, hrelf, hchf, hccf⟩ := frontierInsertAll_frame _ _
          rw [hins] at hexf hrelf hchf hccf
          obtain ⟨hfrc, _⟩ :=
            process_citations_frame db root start θ (addExplored s start)
          rw [hpc] at hfrc
          cases h
          have hrelA : sA.relations = s₁.relations := by
            rw [hrelf]
            rfl
          have hleA : relLe sA.relations base.relations := by
            rw [hrelA]
            exact hle
          have hrep := process_citations_replay db root start θ
            (addExplored t0 start) hpc
            (by show relLe sA.relations t0.relations
                rw [hrel]
                exact hleA)
            (by show t0.explored ++ [start] = s.explored ++ [start]
                rw [hexp])
          rw [hrep]
          dsimp only
          rw [frontierInsertAll_replay hins]
          · dsimp only
            refine ⟨_, rfl, ?_, rfl, ?_, ?_, ?_⟩
            · show sA.explored = s₁.explored
              rw [hexf]
              rfl
            · show t0.relations = base.relations
              exact hrel
            · show t0.chunks = base.chunks
              exact hch
            · show t0.computeCount = base.computeCount
              exact hcc
          · show t0.frontier = sA.frontier
            rw [hfr, hfrc]
            rfl

/-- Run-one bookkeeping for one upward expansion step (mirror of the
downward lemma). -/
theorem explore_upward_step_rel (db : DB) (root start : String)
    (maxD curD : Nat) (θ : ℚ) (s : St) :
    relLe s.relations
        ((explore_upward_step db root start maxD curD θ s).2).relations
      ∧ (∀ (a b : String),
          getRelation (explore_upward_step db root start maxD curD θ s).2 a b
              = getRelation s a b
            ∨ (a = root ∧ b ∉ s.explored ∧ getPaper db b ≠ none))
      ∧ ∀ x ∈ s.explored,
          x ∈ ((explore_upward_step db root start maxD curD θ s).2).explored := by
  unfold explore_upward_step
  by_cases hd : curD > maxD
  · rw [if_pos hd]
    exact ⟨relLe_refl _, fun a b => Or.inl rfl, fun x hx => hx⟩
  · rw [if_neg hd]
    by_cases hexps : start ∈ s.explored
    · rw [if_pos hexps]
      exact ⟨relLe_refl _, fun a b => Or.inl rfl, fun x hx => hx⟩
    · rw [if_neg hexps]
      dsimp only
      obtain ⟨hle1, htouch1, hexp1⟩ :=
        process_parents_rel db root start θ (addExplored s start)
      rcases hpp : process_parents db root start θ (addExplored s start)
        with ⟨rpc, sA⟩
      rw [hpp] at hle1 htouch1 hexp1
      have htouch1' : ∀ (a b : String),
          getRelation sA a b = getRelation s a b
            ∨ (a = root ∧ b ∉ s.explored ∧ getPaper db b ≠ none) := by
        intro a b
        rcases htouch1 a b with hsame | ⟨ha, hb, hp⟩
        · exact Or.inl hsame
        · exact Or.inr ⟨ha, fun hbs => hb (List.mem_append.mpr (Or.inl hbs)), hp⟩
      have hexp1' : ∀ x ∈ s.explored, x ∈ sA.explored := by
        intro x hx
        exact hexp1 x (List.mem_append.mpr (Or.inl hx))
      cases rpc with
      | error e => exact ⟨hle1, htouch1', hexp1'⟩
      | ok parents =>
        dsimp only
        split
        · rename_i e3 s3 hins
          obtain ⟨hex, _, hrel, _, _⟩ := frontierInsertAll_frame _ _
          rw [hins] at hex hrel
          have hex2 : s3.explored = sA.explored := by
            rw [hex]
            split <;> rfl
          have hrel2 : s3.relations = sA.relations := by
            rw [hrel]
            split <;> rfl
          refine ⟨?_, ?_, ?_⟩
          · show relLe _ s3.relations
            rw [hrel2]
            exact hle1
          · intro a b
            rcases htouch1' a b with hsame | hchg
            · refine Or.inl ?_
              show alookup s3.relations (a, b) = _
              rw [hrel2]
              exact hsame
            · exact Or.inr hchg
          · intro x hx
            rw [hex2]
            exact hexp1' x hx
        · rename_i u s3 hins
          obtain ⟨hex, _, hrel, _, _⟩ := frontierInsertAll_frame _ _
          rw [hins] at hex hrel
          have hex2 : s3.explored = sA.explored := by
            rw [hex]
            split <;> rfl
          have hrel2 : s3.relations = sA.relations := by
            rw [hrel]
            split <;> rfl
          refine ⟨?_, ?_, ?_⟩
          · show relLe _ s3.relations
            rw [hrel2]
            exact hle1
          · intro a b
            rcases htouch1' a b with hsame | hchg
            · refine Or.inl ?_
              show alookup s3.relations (a, b) = _
              rw [hrel2]
              exact hsame
            · exact Or.inr hchg
          · intro x hx
            rw [hex2]
            exact hexp1' x hx

/-- Replay of one upward expansion step from a warmed state. -/
theorem explore_upward_step_replay (db : DB) (root start : String)
    (maxD curD : Nat) (θ : ℚ) {s s₁ : St} {res : Option (List String)}
    {base t0 : St}
    (h : explore_upward_step db root start maxD curD θ s = (.ok res, s₁))
    (hsim : Sim s base t0)
    (hle : relLe s₁.relations base.relations) :
    ∃ t, explore_upward_step db root start maxD curD θ t0 = (.ok res, t)
      ∧ Sim s₁ base t := by
  obtain ⟨hexp, hfr, hrel, hch, hcc⟩ := hsim
  unfold explore_upward_step at h ⊢
  by_cases hdep : curD > maxD
  · rw [if_pos hdep] at h ⊢
    cases h
    exact ⟨_, rfl, hexp, hfr, hrel, hch, hcc⟩
  · rw [if_neg hdep] at h ⊢
    by_cases hexps : start ∈ s.explored
    · rw [if_pos hexps] at h
      rw [if_pos (by rw [hexp]; exact hexps)]
      cases h
      exact ⟨t0, rfl, hexp, hfr, hrel, hch, hcc⟩
    · rw [if_neg hexps] at h
      rw [if_neg (by rw [hexp]; exact hexps)]
      dsimp only at h ⊢
      rcases hpp : process_parents db root start θ (addExplored s start)
        with ⟨rpc, sA⟩
      rw [hpp] at h
      cases rpc with
      | error e => cases h
      | ok parents =>
        dsimp only at h
        split at h
        · cases h
        · rename_i u s3 hins
          obtain ⟨hexf, _, hrelf, hchf, hccf⟩ := frontierInsertAll_frame _ _
          rw [hins] at hexf hrelf hchf hccf
          obtain ⟨hfrp, _⟩ :=
            process_parents_frame db root start θ (addExplored s start)
          rw [hpp] at hfrp
          cases h
          have hrelA : sA.relations = s₁.relations := by
            rw [hrelf]
            split <;> rfl
          have hleA : relLe sA.relations base.relations := by
            rw [hrelA]
            exact hle
          have hrep := process_parents_replay db root start θ
            (addExplored t0 start) hpp
            (by show relLe sA.relations t0.relations
                rw [hrel]
                exact hleA)
            (by show t0.explored ++ [start] = s.explored ++ [start]
                rw [hexp])
          rw [hrep]
          dsimp only
          rw [frontierInsertAll_replay hins]
          · dsimp only
            refine ⟨_, rfl, ?_, rfl, ?_, ?_, ?_⟩
            · rw [hexf]
              split <;> rfl
            · split <;> exact hrel
            · split <;> exact hch
            · split <;> exact hcc
          · show (if _ then ({ t0 with explored := sA.explored } : St)
                else pushMsg { t0 with explored := sA.explored } _).frontier
              = (if _ then sA else pushMsg sA _).frontier
            split
            · show t0.frontier = sA.frontier
              rw [hfr, hfrp]
              rfl
            · show t0.frontier = sA.frontier
              rw [hfr, hfrp]
              rfl

theorem explore_upward_step_msgs {db : DB} {root start : String}
    {maxD curD : Nat} {θ : ℚ} {s : St} {r : Except Err (Option (List String))}
    {s' : St}
    (h : explore_upward_step db root start maxD curD θ s = (r, s')) :
    ∃ Δ, s'.messages = s.messages ++ Δ := by
  unfold explore_upward_step at h
  split at h
  · cases h
    exact ⟨[Msg.status "Max upward depth reached"], rfl⟩
  · split at h
    · cases h
      exact ⟨[], (List.append_nil _).symm⟩
    · dsimp only at h
      rcases hpp : process_parents db root start θ (addExplored s start)
        with ⟨rp, s1⟩
      rw [hpp] at h
      have hm1 : s1.messages = s.messages := by
        have t := process_parents_msgs hpp
        exact t
      cases rp with
      | error e =>
        cases h
        exact ⟨[], by rw [hm1, List.append_nil]⟩
      | ok parents =>
        dsimp only at h
        split at h
        · rename_i e3 s3 hins
          have hm3 := frontierInsertAll_msgs hins
          cases h
          split at hm3
          · rw [hm1] at hm3
            exact ⟨[], by rw [hm3, List.append_nil]⟩
          · rw [pushMsg_msgs, hm1] at hm3
            exact ⟨_, hm3⟩
        · rename_i u s3 hins
          have hm3 := frontierInsertAll_msgs hins
          cases h
          split at hm3
          · rw [hm1] at hm3
            exact ⟨[], by rw [hm3, List.append_nil]⟩
          · rw [pushMsg_msgs, hm1] at hm3
            exact ⟨_, hm3⟩

/-- Message monotonicity for the upward pass and its drain loop. -/
theorem explore_upward_msgs_mono (db : DB) (root : String) (maxD : Nat)
    (θ : ℚ) :
    ∀ fuel : Nat,
      (∀ (start : String) (curD : Nat) (s : St)
        (r : Except Err (List String)) (s' : St),
        explore_upward db fuel root start maxD curD θ s = (r, s') →
        ∃ Δ, s'.messages = s.messages ++ Δ)
        ∧ (∀ (curD : Nat) (disc : List String) (s : St)
            (r : Except Err (List String)) (s' : St),
          explore_upward_loop db fuel root maxD curD θ disc s = (r, s') →
          ∃ Δ, s'.messages = s.messages ++ Δ) := by
  intro fuel
  induction fuel with
  | zero =>
    constructor
    · intro start curD s r s' h
      have h0 : ((.error .fuel : Except Err (List String)), s) = (r, s') := h
      cases h0
      exact ⟨[], (List.append_nil _).symm⟩
    · intro curD disc s r s' h
      have h0 : ((.error .fuel : Except Err (List String)), s) = (r, s') := h
      cases h0
      exact ⟨[], (List.append_nil _).symm⟩
  | succ fuel ih =>
    constructor
    · intro start curD s r s' h
      rw [explore_upward] at h
      rcases hstep : explore_upward_step db root start maxD curD θ s
        with ⟨rs, s1⟩
      rw [hstep] at h
      obtain ⟨Δ0, hΔ0⟩ := explore_upward_step_msgs hstep
      cases rs with
      | error e =>
        dsimp only at h
        rcases except_block_msgs h with hs' | ⟨e2, hs'⟩
        · exact ⟨Δ0, by rw [hs']; exact hΔ0⟩
        · refine ⟨Δ0 ++ [Msg.error e2], ?_⟩
          rw [hs']
          show s1.messages ++ [Msg.error e2] = _
          rw [hΔ0, List.append_assoc]
      | ok o =>
        cases o with
        | none =>
          dsimp only [except_block] at h
          cases h
          exact ⟨Δ0, hΔ0⟩
        | some disc =>
          dsimp only at h
          rcases hloop : explore_upward_loop db fuel root maxD curD θ disc s1
            with ⟨rl, s4⟩
          rw [hloop] at h
          obtain ⟨Δ1, hΔ1⟩ := ih.2 _ _ _ _ _ hloop
          rcases except_block_msgs h with hs' | ⟨e2, hs'⟩
          · refine ⟨Δ0 ++ Δ1, ?_⟩
            rw [hs']
            show s4.messages = _
            rw [hΔ1, hΔ0, List.append_assoc]
          · refine ⟨Δ0 ++ Δ1 ++ [Msg.error e2], ?_⟩
            rw [hs']
            show s4.messages ++ [Msg.error e2] = _
            rw [hΔ1, hΔ0]
            simp [List.append_assoc]
    · intro curD disc s r s' h
      rw [explore_upward_loop] at h
      split at h
      · cases h
        exact ⟨[], (List.append_nil _).symm⟩
      · rcases hpop : frontierPop s with ⟨rp, s1⟩
        rw [hpop] at h
        have hm1 : s1.messages = s.messages := frontierPop_msgs hpop
        cases rp with
        | error e =>
          cases h
          exact ⟨[], by rw [hm1, List.append_nil]⟩
        | ok node =>
          dsimp only at h
          split at h
          · obtain ⟨Δ1, hΔ1⟩ := ih.2 _ _ _ _ _ h
            exact ⟨Δ1, by rw [hΔ1, hm1]⟩
          · rcases hch : explore_upward db fuel root node.id maxD (curD + 1) θ s1
              with ⟨rc, s2⟩
            rw [hch] at h
            obtain ⟨Δ1, hΔ1⟩ := ih.1 _ _ _ _ _ hch
            cases rc with
            | error e =>
              cases h
              exact ⟨Δ1, by rw [hΔ1, hm1]⟩
            | ok child =>
              dsimp only at h
              obtain ⟨Δ2, hΔ2⟩ := ih.2 _ _ _ _ _ h
              refine ⟨Δ1 ++ Δ2, ?_⟩
              rw [hΔ2, hΔ1, hm1, List.append_assoc]

/-- Run-one bookkeeping bundle between an entry state and a later state:
relation rows only grow, every touched relation key is a fresh
`(root, unexplored paper)` pair, and the explored set only grows. -/
@[reducible] def RelTriple (db : DB) (root : String) (s s' : St) : Prop :=
  relLe s.relations s'.relations
    ∧ (∀ (a b : String), getRelation s' a b = getRelation s a b
        ∨ (a = root ∧ b ∉ s.explored ∧ getPaper db b ≠ none))
    ∧ ∀ x ∈ s.explored, x ∈ s'.explored

theorem RelTriple_refl (db : DB) (root : String) (s : St) :
    RelTriple db root s s :=
  ⟨relLe_refl _, fun a b => Or.inl rfl, fun x hx => hx⟩

theorem RelTriple_trans {db : DB} {root : String} {s1 s2 s3 : St}
    (h12 : RelTriple db root s1 s2) (h23 : RelTriple db root s2 s3) :
    RelTriple db root s1 s3 := by
  obtain ⟨l12, t12, e12⟩ := h12
  obtain ⟨l23, t23, e23⟩ := h23
  refine ⟨relLe_trans l12 l23, ?_, fun x hx => e23 x (e12 x hx)⟩
  intro a b
  rcases t23 a b with h23' | ⟨ha, hb, hp⟩
  · rcases t12 a b with h12' | hchg
    · exact Or.inl (h23'.trans h12')
    · exact Or.inr hchg
  · exact Or.inr ⟨ha, fun hbs => hb (e12 b hbs), hp⟩

theorem RelTriple_post {db : DB} {root : String} {s x t : St}
    (h : RelTriple db root s x) (hrel : t.relations = x.relations)
    (hexp : t.explored = x.explored) : RelTriple db root s t := by
  obtain ⟨l, tt, e⟩ := h
  refine ⟨?_, ?_, ?_⟩
  · intro a b v hv
    show alookup t.relations (a, b) = _
    rw [hrel]
    exact l a b v hv
  · intro a b
    rcases tt a b with hsame | hchg
    · refine Or.inl ?_
      show alookup t.relations (a, b) = _
      rw [hrel]
      exact hsame
    · exact Or.inr hchg
  · intro y hy
    rw [hexp]
    exact e y hy

theorem RelTriple_pre {db : DB} {root : String} {s s1 x : St}
    (h : RelTriple db root s1 x) (hrel : s1.relations = s.relations)
    (hexp : s1.explored = s.explored) : RelTriple db root s x := by
  obtain ⟨l, tt, e⟩ := h
  refine ⟨?_, ?_, ?_⟩
  · intro a b v hv
    refine l a b v ?_
    show alookup s1.relations (a, b) = _
    rw [hrel]
    exact hv
  · intro a b
    rcases tt a b with hsame | ⟨ha, hb, hp⟩
    · refine Or.inl (hsame.trans ?_)
      show alookup s1.relations (a, b) = _
      rw [hrel]
      rfl
    · exact Or.inr ⟨ha, by rw [← hexp]; exact hb, hp⟩
  · intro y hy
    refine e y ?_
    rw [hexp]
    exact hy

/-- Run-one bookkeeping for the downward explorer and its drain loop. -/
theorem explore_downward_relT (db : DB) (root : String) (maxD : Nat) (θ : ℚ) :
    ∀ fuel : Nat,
      (∀ (start : String) (curD : Nat) (s : St),
        RelTriple db root s
          ((explore_downward db fuel root start maxD curD θ s).2))
        ∧ (∀ (curD : Nat) (disc : List String) (s : St),
          RelTriple db root s
            ((explore_downward_loop db fuel root maxD curD θ disc s).2)) := by
  intro fuel
  induction fuel with
  | zero => exact ⟨fun start curD s => RelTriple_refl db root s,
      fun curD disc s => RelTriple_refl db root s⟩
  | succ fuel ih =>
    constructor
    · intro start curD s
      rw [explore_downward]
      rcases hstep : explore_downward_step db root start maxD curD θ s
        with ⟨rs, s1⟩
      have hstepT : RelTriple db root s s1 := by
        have t := explore_downward_step_rel db root start maxD curD θ s
        rw [hstep] at t
        exact t
      have hblock : ∀ (x : Except Err (List String) × St),
          RelTriple db root s x.2 →
          RelTriple db root s ((except_block [] x).2) := by
        intro x hx
        rcases hxe : except_block [] x with ⟨re, se⟩
        rcases except_block_msgs hxe with hs' | ⟨e2, hs'⟩
        · show RelTriple db root s (re, se).2
          rw [show (re, se).2 = se from rfl, hs']
          exact hx
        · show RelTriple db root s se
          rw [hs']
          exact RelTriple_post hx rfl rfl
      cases rs with
      | error e => exact hblock _ hstepT
      | ok o =>
        cases o with
        | none => exact hblock _ hstepT
        | some disc =>
          dsimp only
          exact hblock _ (RelTriple_trans hstepT (ih.2 curD disc s1))
    · intro curD disc s
      rw [explore_downward_loop]
      split
      · exact RelTriple_refl db root s
      · rcases hpop : frontierPop s with ⟨rp, s1⟩
        obtain ⟨hexp1, _, hrel1, _, _⟩ := frontierPop_frame s
        rw [hpop] at hexp1 hrel1
        cases rp with
        | error e =>
          dsimp only
          exact RelTriple_post (RelTriple_refl db root s) hrel1 hexp1
        | ok node =>
          dsimp only
          split
          · exact RelTriple_pre (ih.2 curD disc s1) hrel1 hexp1
          · rcases hch : explore_downward db fuel root node.id maxD
              (curD + 1) θ s1 with ⟨rc, s2⟩
            have hchT : RelTriple db root s1 s2 := by
              have t := (ih.1 node.id (curD + 1) s1)
              rw [hch] at t
              exact t
            cases rc with
            | error e => exact RelTriple_pre hchT hrel1 hexp1
            | ok child =>
              dsimp only
              exact RelTriple_pre
                (RelTriple_trans hchT (ih.2 curD (setUnion disc child) s2))
                hrel1 hexp1

/-- Run-one bookkeeping for the upward explorer and its drain loop. -/
theorem explore_upward_relT (db : DB) (root : String) (maxD : Nat) (θ : ℚ) :
    ∀ fuel : Nat,
      (∀ (start : String) (curD : Nat) (s : St),
        RelTriple db root s
          ((explore_upward db fuel root start maxD curD θ s).2))
        ∧ (∀ (curD : Nat) (disc : List String) (s : St),
          RelTriple db root s
            ((explore_upward_loop db fuel root maxD curD θ disc s).2)) := by
  intro fuel
  induction fuel with
  | zero => exact ⟨fun start curD s => RelTriple_refl db root s,
      fun curD disc s => RelTriple_refl db root s⟩
  | succ fuel ih =>
    constructor
    · intro start curD s
      rw [explore_upward]
      rcases hstep : explore_upward_step db root start maxD curD θ s
        with ⟨rs, s1⟩
      have hstepT : RelTriple db root s s1 := by
        have t := explore_upward_step_rel db root start maxD curD θ s
        rw [hstep] at t
        exact t
      have hblock : ∀ (x : Except Err (List String) × St),
          RelTriple db root s x.2 →
          RelTriple db root s ((except_block [] x).2) := by
        intro x hx
        rcases hxe : except_block [] x with ⟨re, se⟩
        rcases except_block_msgs hxe with hs' | ⟨e2, hs'⟩
        · show RelTriple db root s (re, se).2
          rw [show (re, se).2 = se from rfl, hs']
          exact hx
        · show RelTriple db root s se
          rw [hs']
          exact RelTriple_post hx rfl rfl
      cases rs with
      | error e => exact hblock _ hstepT
      | ok o =>
        cases o with
        | none => exact hblock _ hstepT
        | some disc =>
          dsimp only
          exact hblock _ (RelTriple_trans hstepT (ih.2 curD disc s1))
    · intro curD disc s
      rw [explore_upward_loop]
      split
      · exact RelTriple_refl db root s
      · rcases hpop : frontierPop s with ⟨rp, s1⟩
        obtain ⟨hexp1, _, hrel1, _, _⟩ := frontierPop_frame s
        rw [hpop] at hexp1 hrel1
        cases rp with
        | error e =>
          dsimp only
          exact RelTriple_post (RelTriple_refl db root s) hrel1 hexp1
        | ok node =>
          dsimp only
          split
          · exact RelTriple_pre (ih.2 curD disc s1) hrel1 hexp1
          · rcases hch : explore_upward db fuel root node.id maxD
              (curD + 1) θ s1 with ⟨rc, s2⟩
            have hchT : RelTriple db root s1 s2 := by
              have t := (ih.1 node.id (curD + 1) s1)
              rw [hch] at t
              exact t
            cases rc with
            | error e => exact RelTriple_pre hchT hrel1 hexp1
            | ok child =>
              dsimp only
              exact RelTriple_pre
                (RelTriple_trans hchT (ih.2 curD (setUnion disc child) s2))
                hrel1 hexp1

/-- Replay of the downward explorer and its drain loop from a warmed state:
with the first run successful and error-free, the second run returns the
identical discovered set, mirrors the explored set and frontier, and never
writes the store or computes a score. -/
theorem explore_downward_replay (db : DB) (root : String) (maxD : Nat)
    (θ : ℚ) (base : St) :
    ∀ fuel : Nat,
      (∀ (start : String) (curD : Nat) (s : St) (r : List String) (s₁ : St)
        (t0 : St),
        explore_downward db fuel root start maxD curD θ s = (.ok r, s₁) →
        Sim s base t0 →
        relLe s₁.relations base.relations →
        (∀ (e : Err), Msg.error e ∉ s₁.messages) →
        ∃ t, explore_downward db fuel root start maxD curD θ t0 = (.ok r, t)
          ∧ Sim s₁ base t)
      ∧ (∀ (curD : Nat) (disc : List String) (s : St) (r : List String)
          (s₁ : St) (t0 : St),
        explore_downward_loop db fuel root maxD curD θ disc s = (.ok r, s₁) →
        Sim s base t0 →
        relLe s₁.relations base.relations →
        (∀ (e : Err), Msg.error e ∉ s₁.messages) →
        ∃ t, explore_downward_loop db fuel root maxD curD θ disc t0
            = (.ok r, t)
          ∧ Sim s₁ base t) := by
  intro fuel
  induction fuel with
  | zero =>
    constructor
    · intro start curD s r s₁ t0 h hsim hle hne
      cases h
    · intro curD disc s r s₁ t0 h hsim hle hne
      cases h
  | succ fuel ih =>
    constructor
    · intro start curD s r s₁ t0 h hsim hle hne
      rw [explore_downward] at h ⊢
      rcases hstep : explore_downward_step db root start maxD curD θ s
        with ⟨rs, s1⟩
      rw [hstep] at h
      cases rs with
      | error e =>
        dsimp only at h
        by_cases hef : e = Err.fuel
        · rw [show except_block [] ((.error e : Except Err (List String)), s1)
              = (.error e, s1) from by simp [except_block, hef]] at h
          cases h
        · rw [show except_block [] ((.error e : Except Err (List String)), s1)
              = (.ok [], pushMsg s1 (Msg.error e)) from by
              simp [except_block, hef]] at h
          cases h
          exact absurd (show Msg.error e ∈ s1.messages ++ [Msg.error e] from
            List.mem_append.mpr (Or.inr (by simp))) (hne e)
      | ok o =>
        cases o with
        | none =>
          dsimp only [except_block] at h
          cases h
          obtain ⟨t, hstept, hsimt⟩ := explore_downward_step_replay db root
            start maxD curD θ hstep hsim hle
          rw [hstept]
          exact ⟨t, by dsimp only [except_block], hsimt⟩
        | some disc =>
          dsimp only at h
          rcases hloop : explore_downward_loop db fuel root maxD curD θ disc s1
            with ⟨rl, s4⟩
          rw [hloop] at h
          cases rl with
          | error e2 =>
            by_cases hef : e2 = Err.fuel
            · rw [show except_block []
                  ((.error e2 : Except Err (List String)), s4)
                  = (.error e2, s4) from by simp [except_block, hef]] at h
              cases h
            · rw [show except_block []
                  ((.error e2 : Except Err (List String)), s4)
                  = (.ok [], pushMsg s4 (Msg.error e2)) from by
                  simp [except_block, hef]] at h
              cases h
              exact absurd (show Msg.error e2 ∈ s4.messages ++ [Msg.error e2]
                from List.mem_append.mpr (Or.inr (by simp))) (hne e2)
          | ok rr =>
            dsimp only [except_block] at h
            cases h
            obtain ⟨Δ1, hΔ1⟩ := (explore_downward_msgs_mono db root maxD θ
              fuel).2 _ _ _ _ _ hloop
            have hne1 : ∀ (e : Err), Msg.error e ∉ s1.messages := fun e hm =>
              hne e (by rw [hΔ1]; exact List.mem_append.mpr (Or.inl hm))
            have hle1 : relLe s1.relations base.relations := by
              refine relLe_trans ?_ hle
              have t := (explore_downward_relT db root maxD θ fuel).2 curD
                disc s1
              rw [hloop] at t
              exact t.1
            obtain ⟨t1, hstept, hsimt1⟩ := explore_downward_step_replay db
              root start maxD curD θ hstep hsim hle1
            obtain ⟨t4, hloopt, hsimt4⟩ := ih.2 curD disc s1 r s₁ t1 hloop
              hsimt1 hle hne
            rw [hstept]
            dsimp only
            rw [hloopt]
            exact ⟨t4, by dsimp only [except_block], hsimt4⟩
    · intro curD disc s r s₁ t0 h hsim hle hne
      rw [explore_downward_loop] at h ⊢
      split at h
      · rename_i hemp
        cases h
        obtain ⟨hexp, hfr, hrel, hch, hcc⟩ := hsim
        rw [if_pos (show t0.frontier.is_empty = true from by
          rw [hfr]; exact hemp)]
        exact ⟨t0, rfl, hexp, hfr, hrel, hch, hcc⟩
      · rename_i hemp
        obtain ⟨hexp, hfr, hrel, hch, hcc⟩ := hsim
        rw [if_neg (show ¬ t0.frontier.is_empty = true from by
          rw [hfr]; exact hemp)]
        rcases hpop : frontierPop s with ⟨rp, s1⟩
        rw [hpop] at h
        obtain ⟨hexp1, _, hrel1, hch1, hcc1⟩ := frontierPop_frame s
        rw [hpop] at hexp1 hrel1 hch1 hcc1
        rw [frontierPop_replay hpop t0 hfr]
        cases rp with
        | error e => cases h
        | ok node =>
          dsimp only at h ⊢
          have hsim1 : Sim s1 base ({ t0 with frontier := s1.frontier } : St) :=
            ⟨by show t0.explored = s1.explored; rw [hexp, hexp1],
             rfl,
             by show t0.relations = base.relations; exact hrel,
             by show t0.chunks = base.chunks; exact hch,
             by show t0.computeCount = base.computeCount; exact hcc⟩
          by_cases hnx : node.id ∈ s1.explored
          · rw [if_pos hnx] at h
            rw [if_pos (show node.id ∈
                ({ t0 with frontier := s1.frontier } : St).explored from by
              show node.id ∈ t0.explored
              rw [hexp, ← hexp1]
              exact hnx)]
            exact ih.2 curD disc s1 r s₁ _ h hsim1 hle hne
          · rw [if_neg hnx] at h
            rw [if_neg (show ¬ node.id ∈
                ({ t0 with frontier := s1.frontier } : St).explored from by
              show ¬ node.id ∈ t0.explored
              rw [hexp, ← hexp1]
              exact hnx)]
            rcases hch2 : explore_downward db fuel root node.id maxD
              (curD + 1) θ s1 with ⟨rc, s2⟩
            rw [hch2] at h
            cases rc with
            | error e => cases h
            | ok child =>
              dsimp only at h
              obtain ⟨Δ2, hΔ2⟩ := (explore_downward_msgs_mono db root maxD θ
                fuel).2 _ _ _ _ _ h
              have hne2 : ∀ (e : Err), Msg.error e ∉ s2.messages := fun e hm =>
                hne e (by rw [hΔ2]; exact List.mem_append.mpr (Or.inl hm))
              have hle2 : relLe s2.relations base.relations := by
                refine relLe_trans ?_ hle
                have t := (explore_downward_relT db root maxD θ fuel).2 curD
                  (setUnion disc child) s2
                rw [h] at t
                exact t.1
              obtain ⟨t2, hcht, hsimt2⟩ := ih.1 node.id (curD + 1) s1 child
                s2 _ hch2 hsim1 hle2 hne2
              rw [hcht]
              dsimp only
              exact ih.2 curD (setUnion disc child) s2 r s₁ t2 h hsimt2 hle hne

/-- Replay of the upward explorer and its drain loop from a warmed state:
with the first run successful and error-free, the second run returns the
identical discovered set, mirrors the explored set and frontier, and never
writes the store or computes a score. -/
theorem explore_upward_replay (db : DB) (root : String) (maxD : Nat)
    (θ : ℚ) (base : St) :
    ∀ fuel : Nat,
      (∀ (start : String) (curD : Nat) (s : St) (r : List String) (s₁ : St)
        (t0 : St),
        explore_upward db fuel root start maxD curD θ s = (.ok r, s₁) →
        Sim s base t0 →
        relLe s₁.relations base.relations →
        (∀ (e : Err), Msg.error e ∉ s₁.messages) →
        ∃ t, explore_upward db fuel root start maxD curD θ t0 = (.ok r, t)
          ∧ Sim s₁ base t)
      ∧ (∀ (curD : Nat) (disc : List String) (s : St) (r : List String)
          (s₁ : St) (t0 : St),
        explore_upward_loop db fuel root maxD curD θ disc s = (.ok r, s₁) →
        Sim s base t0 →
        relLe s₁.relations base.relations →
        (∀ (e : Err), Msg.error e ∉ s₁.messages) →
        ∃ t, explore_upward_loop db fuel root maxD curD θ disc t0
            = (.ok r, t)
          ∧ Sim s₁ base t) := by
  intro fuel
  induction fuel with
  | zero =>
    constructor
    · intro start curD s r s₁ t0 h hsim hle hne
      cases h
    · intro curD disc s r s₁ t0 h hsim hle hne
      cases h
  | succ fuel ih =>
    constructor
    · intro start curD s r s₁ t0 h hsim hle hne
      rw [explore_upward] at h ⊢
      rcases hstep : explore_upward_step db root start maxD curD θ s
        with ⟨rs, s1⟩
      rw [hstep] at h
      cases rs with
      | error e =>
        dsimp only at h
        by_cases hef : e = Err.fuel
        · rw [show except_block [] ((.error e : Except Err (List String)), s1)
              = (.error e, s1) from by simp [except_block, hef]] at h
          cases h
        · rw [show except_block [] ((.error e : Except Err (List String)), s1)
              = (.ok [], pushMsg s1 (Msg.error e)) from by
              simp [except_block, hef]] at h
          cases h
          exact absurd (show Msg.error e ∈ s1.messages ++ [Msg.error e] from
            List.mem_append.mpr (Or.inr (by simp))) (hne e)
      | ok o =>
        cases o with
        | none =>
          dsimp only [except_block] at h
          cases h
          obtain ⟨t, hstept, hsimt⟩ := explore_upward_step_replay db root
            start maxD curD θ hstep hsim hle
          rw [hstept]
          exact ⟨t, by dsimp only [except_block], hsimt⟩
        | some disc =>
          dsimp only at h
          rcases hloop : explore_upward_loop db fuel root maxD curD θ disc s1
            with ⟨rl, s4⟩
          rw [hloop] at h
          cases rl with
          | error e2 =>
            by_cases hef : e2 = Err.fuel
            · rw [show except_block []
                  ((.error e2 : Except Err (List String)), s4)
                  = (.error e2, s4) from by simp [except_block, hef]] at h
              cases h
            · rw [show except_block []
                  ((.error e2 : Except Err (List String)), s4)
                  = (.ok [], pushMsg s4 (Msg.error e2)) from by
                  simp [except_block, hef]] at h
              cases h
              exact absurd (show Msg.error e2 ∈ s4.messages ++ [Msg.error e2]
                from List.mem_append.mpr (Or.inr (by simp))) (hne e2)
          | ok rr =>
            dsimp only [except_block] at h
            cases h
            obtain ⟨Δ1, hΔ1⟩ := (explore_upward_msgs_mono db root maxD θ
              fuel).2 _ _ _ _ _ hloop
            have hne1 : ∀ (e : Err), Msg.error e ∉ s1.messages := fun e hm =>
              hne e (by rw [hΔ1]; exact List.mem_append.mpr (Or.inl hm))
            have hle1 : relLe s1.relations base.relations := by
              refine relLe_trans ?_ hle
              have t := (explore_upward_relT db root maxD θ fuel).2 curD
                disc s1
              rw [hloop] at t
              exact t.1
            obtain ⟨t1, hstept, hsimt1⟩ := explore_upward_step_replay db
              root start maxD curD θ hstep hsim hle1
            obtain ⟨t4, hloopt, hsimt4⟩ := ih.2 curD disc s1 r s₁ t1 hloop
              hsimt1 hle hne
            rw [hstept]
            dsimp only
            rw [hloopt]
            exact ⟨t4, by dsimp only [except_block], hsimt4⟩
    · intro curD disc s r s₁ t0 h hsim hle hne
      rw [explore_upward_loop] at h ⊢
      split at h
      · rename_i hemp
        cases h
        obtain ⟨hexp, hfr, hrel, hch, hcc⟩ := hsim
        rw [if_pos (show t0.frontier.is_empty = true from by
          rw [hfr]; exact hemp)]
        exact ⟨t0, rfl, hexp, hfr, hrel, hch, hcc⟩
      · rename_i hemp
        obtain ⟨hexp, hfr, hrel, hch, hcc⟩ := hsim
        rw [if_neg (show ¬ t0.frontier.is_empty = true from by
          rw [hfr]; exact hemp)]
        rcases hpop : frontierPop s with ⟨rp, s1⟩
        rw [hpop] at h
        obtain ⟨hexp1, _, hrel1, hch1, hcc1⟩ := frontierPop_frame s
        rw [hpop] at hexp1 hrel1 hch1 hcc1
        rw [frontierPop_replay hpop t0 hfr]
        cases rp with
        | error e => cases h
        | ok node =>
          dsimp only at h ⊢
          have hsim1 : Sim s1 base ({ t0 with frontier := s1.frontier } : St) :=
            ⟨by show t0.explored = s1.explored; rw [hexp, hexp1],
             rfl,
             by show t0.relations = base.relations; exact hrel,
             by show t0.chunks = base.chunks; exact hch,
             by show t0.computeCount = base.computeCount; exact hcc⟩
          by_cases hnx : node.id ∈ s1.explored
          · rw [if_pos hnx] at h
            rw [if_pos (show node.id ∈
                ({ t0 with frontier := s1.frontier } : St).explored from by
              show node.id ∈ t0.explored
              rw [hexp, ← hexp1]
              exact hnx)]
            exact ih.2 curD disc s1 r s₁ _ h hsim1 hle hne
          · rw [if_neg hnx] at h
            rw [if_neg (show ¬ node.id ∈
                ({ t0 with frontier := s1.frontier } : St).explored from by
              show ¬ node.id ∈ t0.explored
              rw [hexp, ← hexp1]
              exact hnx)]
            rcases hch2 : explore_upward db fuel root node.id maxD
              (curD + 1) θ s1 with ⟨rc, s2⟩
            rw [hch2] at h
            cases rc with
            | error e => cases h
            | ok child =>
              dsimp only at h
              obtain ⟨Δ2, hΔ2⟩ := (explore_upward_msgs_mono db root maxD θ
                fuel).2 _ _ _ _ _ h
              have hne2 : ∀ (e : Err), Msg.error e ∉ s2.messages := fun e hm =>
                hne e (by rw [hΔ2]; exact List.mem_append.mpr (Or.inl hm))
              have hle2 : relLe s2.relations base.relations := by
                refine relLe_trans ?_ hle
                have t := (explore_upward_relT db root maxD θ fuel).2 curD
                  (setUnion disc child) s2
                rw [h] at t
                exact t.1
              obtain ⟨t2, hcht, hsimt2⟩ := ih.1 node.id (curD + 1) s1 child
                s2 _ hch2 hsim1 hle2 hne2
              rw [hcht]
              dsimp only
              exact ih.2 curD (setUnion disc child) s2 r s₁ t2 h hsimt2 hle hne


theorem setUnion_mem {a b : List String} {x : String}
    (h : x ∈ setUnion a b) : x ∈ a ∨ x ∈ b := by
  rcases List.mem_append.mp h with h1 | h1
  · exact Or.inl h1
  · exact Or.inr (List.mem_of_mem_filter h1)

theorem qualified_go_state (root : String) (θ : ℚ) :
    ∀ (l acc : List String) (s : St),
      (qualified_go root θ l acc s).2 = s
  | [], acc, s => rfl
  | n :: rest, acc, s => by
    unfold qualified_go
    by_cases hr : n = root
    · rw [if_pos hr]
      exact qualified_go_state root θ rest acc s
    · rw [if_neg hr]
      cases getRelation s root n with
      | none => exact qualified_go_state root θ rest acc s
      | some w =>
        cases w with
        | none => rfl
        | some v =>
          dsimp only
          split
          · exact qualified_go_state root θ rest _ s
          · exact qualified_go_state root θ rest acc s

/-- Every id the qualification filter keeps has a stored score meeting the
threshold. -/
theorem qualified_go_spec (root : String) (θ : ℚ) :
    ∀ (l acc : List String) (s : St) (qs : List String) (s' : St),
      qualified_go root θ l acc s = (.ok qs, s') →
      ∀ q ∈ qs, q ∈ acc
        ∨ ∃ v : ℚ, getRelation s root q = some (some v) ∧ θ ≤ v
  | [], acc, s, qs, s', h => by
    cases h
    exact fun q hq => Or.inl hq
  | n :: rest, acc, s, qs, s', h => by
    unfold qualified_go at h
    by_cases hr : n = root
    · rw [if_pos hr] at h
      exact qualified_go_spec root θ rest acc s qs s' h
    · rw [if_neg hr] at h
      cases hrel : getRelation s root n with
      | none =>
        rw [hrel] at h
        exact qualified_go_spec root θ rest acc s qs s' h
      | some w =>
        rw [hrel] at h
        cases w with
        | none => cases h
        | some v =>
          dsimp only at h
          by_cases hv : v ≥ θ
          · rw [if_pos hv] at h
            intro q hq
            rcases qualified_go_spec root θ rest (acc ++ [n]) s qs s' h q hq
              with hacc | hfound
            · rcases List.mem_append.mp hacc with h1 | h1
              · exact Or.inl h1
              · have : q = n := List.mem_singleton.mp h1
                subst this
                exact Or.inr ⟨v, hrel, hv⟩
            · exact Or.inr hfound
          · rw [if_neg hv] at h
            exact qualified_go_spec root θ rest acc s qs s' h

/-- The qualification filter depends only on the per-id relation lookups:
two states that agree on them produce the same qualified list. -/
theorem qualified_go_replay (root : String) (θ : ℚ) :
    ∀ (l acc : List String) (s : St) (qs : List String) (s' : St) (t : St),
      qualified_go root θ l acc s = (.ok qs, s') →
      (∀ n ∈ l, n ≠ root → getRelation t root n = getRelation s root n) →
      qualified_go root θ l acc t = (.ok qs, t)
  | [], acc, s, qs, s', t, h, hag => by
    cases h
    rfl
  | n :: rest, acc, s, qs, s', t, h, hag => by
    unfold qualified_go at h ⊢
    by_cases hr : n = root
    · rw [if_pos hr] at h ⊢
      exact qualified_go_replay root θ rest acc s qs s' t h
        (fun m hm => hag m (by simp [hm]))
    · rw [if_neg hr] at h ⊢
      rw [hag n (by simp) hr]
      cases hrel : getRelation s root n with
      | none =>
        rw [hrel] at h
        exact qualified_go_replay root θ rest acc s qs s' t h
          (fun m hm => hag m (by simp [hm]))
      | some w =>
        rw [hrel] at h
        cases w with
        | none => cases h
        | some v =>
          dsimp only at h ⊢
          by_cases hv : v ≥ θ
          · rw [if_pos hv] at h ⊢
            exact qualified_go_replay root θ rest (acc ++ [n]) s qs s' t h
              (fun m hm => hag m (by simp [hm]))
          · rw [if_neg hv] at h ⊢
            exact qualified_go_replay root θ rest acc s qs s' t h
              (fun m hm => hag m (by simp [hm]))

/-- The discovered-set characterization property: the id's score to the root
is stored, or its paper row is missing, or it sits in the explored set. -/
@[reducible] def DProp (db : DB) (root : String) (s : St) (n : String) : Prop :=
  (∃ w : ℚ, getRelation s root n = some (some w))
    ∨ getPaper db n = none ∨ n ∈ s.explored

theorem DProp_mono {db : DB} {root : String} {s s' : St} {n : String}
    (ht : RelTriple db root s s') (h : DProp db root s n) :
    DProp db root s' n := by
  obtain ⟨l, _, e⟩ := ht
  rcases h with ⟨w, hw⟩ | hmiss | hexp
  · exact Or.inl ⟨w, l root n w hw⟩
  · exact Or.inr (Or.inl hmiss)
  · exact Or.inr (Or.inr (e n hexp))

/-- Every id discovered by the downward pass satisfies `DProp` at the pass's
final state. -/
theorem explore_downward_dcharT (db : DB) (root : String) (maxD : Nat)
    (θ : ℚ) :
    ∀ fuel : Nat,
      (∀ (start : String) (curD : Nat) (s : St) (d : List String) (s₁ : St),
        explore_downward db fuel root start maxD curD θ s = (.ok d, s₁) →
        ∀ n ∈ d, DProp db root s₁ n)
        ∧ (∀ (curD : Nat) (disc : List String) (s : St) (r : List String)
            (s₁ : St),
          explore_downward_loop db fuel root maxD curD θ disc s = (.ok r, s₁) →
          (∀ n ∈ disc, DProp db root s n) →
          ∀ n ∈ r, DProp db root s₁ n) := by
  intro fuel
  induction fuel with
  | zero =>
    constructor
    · intro start curD s d s₁ h
      cases h
    · intro curD disc s r s₁ h
      cases h
  | succ fuel ih =>
    constructor
    · intro start curD s d s₁ h
      rw [explore_downward] at h
      rcases hstep : explore_downward_step db root start maxD curD θ s
        with ⟨rs, s1⟩
      rw [hstep] at h
      cases rs with
      | error e =>
        dsimp only at h
        by_cases hef : e = Err.fuel
        · rw [show except_block [] ((.error e : Except Err (List String)), s1)
              = (.error e, s1) from by simp [except_block, hef]] at h
          cases h
        · rw [show except_block [] ((.error e : Except Err (List String)), s1)
              = (.ok [], pushMsg s1 (Msg.error e)) from by
              simp [except_block, hef]] at h
          cases h
          intro n hn
          cases hn
      | ok o =>
        cases o with
        | none =>
          dsimp only [except_block] at h
          cases h
          intro n hn
          cases hn
        | some disc =>
          dsimp only at h
          rcases hloop : explore_downward_loop db fuel root maxD curD θ disc s1
            with ⟨rl, s4⟩
          rw [hloop] at h
          have hd0 : ∀ n ∈ disc, DProp db root s1 n :=
            explore_downward_step_dchar db root start maxD curD θ hstep
          cases rl with
          | error e2 =>
            by_cases hef : e2 = Err.fuel
            · rw [show except_block []
                  ((.error e2 : Except Err (List String)), s4)
                  = (.error e2, s4) from by simp [except_block, hef]] at h
              cases h
            · rw [show except_block []
                  ((.error e2 : Except Err (List String)), s4)
                  = (.ok [], pushMsg s4 (Msg.error e2)) from by
                  simp [except_block, hef]] at h
              cases h
              intro n hn
              cases hn
          | ok rr =>
            dsimp only [except_block] at h
            cases h
            exact ih.2 curD disc s1 d s₁ hloop hd0
    · intro curD disc s r s₁ h hdisc
      rw [explore_downward_loop] at h
      split at h
      · cases h
        exact hdisc
      · rcases hpop : frontierPop s with ⟨rp, s1⟩
        rw [hpop] at h
        obtain ⟨hexp1, _, hrel1, _, _⟩ := frontierPop_frame s
        rw [hpop] at hexp1 hrel1
        have hdisc1 : ∀ n ∈ disc, DProp db root s1 n := by
          intro n hn
          refine DProp_mono ?_ (hdisc n hn)
          exact RelTriple_post (RelTriple_refl db root s) hrel1 hexp1
        cases rp with
        | error e => cases h
        | ok node =>
          dsimp only at h
          split at h
          · exact ih.2 curD disc s1 r s₁ h hdisc1
          · rcases hch2 : explore_downward db fuel root node.id maxD
              (curD + 1) θ s1 with ⟨rc, s2⟩
            rw [hch2] at h
            cases rc with
            | error e => cases h
            | ok child =>
              dsimp only at h
              have hchT : RelTriple db root s1 s2 := by
                have t := (explore_downward_relT db root maxD θ fuel).1
                  node.id (curD + 1) s1
                rw [hch2] at t
                exact t
              have hun : ∀ n ∈ setUnion disc child, DProp db root s2 n := by
                intro n hn
                rcases setUnion_mem hn with h1 | h1
                · exact DProp_mono hchT (hdisc1 n h1)
                · exact (ih.1 node.id (curD + 1) s1 child s2 hch2) n h1
              exact ih.2 curD (setUnion disc child) s2 r s₁ h hun

/-- The explored-set surgery `explored_papers.discard(q)` performed before
each upward launch. -/
def qEntrySt (s : St) (q : String) : St :=
  if q ∈ s.explored then
    { s with explored := s.explored.filter (fun x => x ≠ q) }
  else s

theorem qEntrySt_frame (s : St) (q : String) :
    (qEntrySt s q).relations = s.relations
      ∧ (qEntrySt s q).messages = s.messages
      ∧ (qEntrySt s q).chunks = s.chunks
      ∧ (qEntrySt s q).computeCount = s.computeCount
      ∧ (qEntrySt s q).frontier = s.frontier := by
  unfold qEntrySt
  split <;> exact ⟨rfl, rfl, rfl, rfl, rfl⟩

theorem qEntrySt_not_mem {s : St} {q b : String}
    (hb : b ∉ (qEntrySt s q).explored) : b ∉ s.explored ∨ b = q := by
  by_cases hbq : b = q
  · exact Or.inr hbq
  · refine Or.inl fun hbs => hb ?_
    unfold qEntrySt
    split
    · exact List.mem_filter.mpr ⟨hbs, by simp [hbq]⟩
    · exact hbs

theorem qEntrySt_explored_congr {s t : St} (q : String)
    (h : t.explored = s.explored) :
    (qEntrySt t q).explored = (qEntrySt s q).explored := by
  unfold qEntrySt
  rw [h]
  by_cases hq : q ∈ s.explored
  · rw [if_pos hq, if_pos hq]
  · rw [if_neg hq, if_neg hq]
    exact h

theorem qEntrySt_getRelation (s : St) (q : String) (a b : String) :
    getRelation (qEntrySt s q) a b = getRelation s a b := by
  show alookup (qEntrySt s q).relations (a, b) = alookup s.relations (a, b)
  rw [(qEntrySt_frame s q).1]

/-- Messages only grow across the upward phase. -/
theorem upward_phase_msgs (db : DB) (fuel : Nat) (root : String) (θ : ℚ) :
    ∀ (qs acc : List String) (s : St) (r : Except Err (List String))
      (s' : St),
      upward_phase db fuel root θ qs acc s = (r, s') →
      ∃ Δ, s'.messages = s.messages ++ Δ
  | [], acc, s, r, s', h => by
    cases h
    exact ⟨[], (List.append_nil _).symm⟩
  | q :: rest, acc, s, r, s', h => by
    unfold upward_phase at h
    dsimp only at h
    rw [show (if q ∈ s.explored
          then { s with explored := s.explored.filter (fun x => x ≠ q) }
          else s) = qEntrySt s q from rfl] at h
    rcases hu : explore_upward db fuel root q 1 0 θ (qEntrySt s q)
      with ⟨ru, s2⟩
    rw [hu] at h
    obtain ⟨Δ1, hΔ1⟩ := (explore_upward_msgs_mono db root 1 θ fuel).1
      _ _ _ _ _ hu
    rw [(qEntrySt_frame s q).2.1] at hΔ1
    cases ru with
    | error e =>
      cases h
      exact ⟨Δ1, hΔ1⟩
    | ok uu =>
      dsimp only at h
      obtain ⟨Δ2, hΔ2⟩ :=
        upward_phase_msgs db fuel root θ rest (setUnion acc uu) s2 r s' h
      exact ⟨Δ1 ++ Δ2, by rw [hΔ2, hΔ1, List.append_assoc]⟩

/-- Relation bookkeeping across the upward phase: filled rows survive, and
every touched relation key is a `(root, b)` pair where `b` has a paper row
and was unexplored on entry or is one of the qualified ids. -/
theorem upward_phase_rel (db : DB) (fuel : Nat) (root : String) (θ : ℚ) :
    ∀ (qs acc : List String) (s : St) (r : Except Err (List String))
      (s' : St),
      upward_phase db fuel root θ qs acc s = (r, s') →
      relLe s.relations s'.relations
        ∧ ∀ (a b : String), getRelation s' a b = getRelation s a b
            ∨ (a = root ∧ getPaper db b ≠ none
                ∧ (b ∉ s.explored ∨ b ∈ qs))
  | [], acc, s, r, s', h => by
    cases h
    exact ⟨relLe_refl _, fun a b => Or.inl rfl⟩
  | q :: rest, acc, s, r, s', h => by
    unfold upward_phase at h
    dsimp only at h
    rw [show (if q ∈ s.explored
          then { s with explored := s.explored.filter (fun x => x ≠ q) }
          else s) = qEntrySt s q from rfl] at h
    rcases hu : explore_upward db fuel root q 1 0 θ (qEntrySt s q)
      with ⟨ru, s2⟩
    rw [hu] at h
    have hT : RelTriple db root (qEntrySt s q) s2 := by
      have t := (explore_upward_relT db root 1 θ fuel).1 q 0 (qEntrySt s q)
      rw [hu] at t
      exact t
    obtain ⟨hle1, htouch1, hexp1⟩ := hT
    have hle1' : relLe s.relations s2.relations := by
      intro a b v hv
      refine hle1 a b v ?_
      show alookup (qEntrySt s q).relations (a, b) = _
      rw [(qEntrySt_frame s q).1]
      exact hv
    have hcase1 : ∀ b : String, b ∉ (qEntrySt s q).explored →
        b ∉ s.explored ∨ b ∈ q :: rest := by
      intro b hb
      rcases qEntrySt_not_mem hb with h1 | h1
      · exact Or.inl h1
      · exact Or.inr (by rw [h1]; exact List.mem_cons_self q rest)
    cases ru with
    | error e =>
      cases h
      refine ⟨hle1', ?_⟩
      intro a b
      rcases htouch1 a b with hsame | ⟨ha, hb1, hp⟩
      · exact Or.inl (hsame.trans (qEntrySt_getRelation s q a b))
      · exact Or.inr ⟨ha, hp, hcase1 b hb1⟩
    | ok uu =>
      dsimp only at h
      obtain ⟨hleR, htouchR⟩ :=
        upward_phase_rel db fuel root θ rest (setUnion acc uu) s2 r s' h
      refine ⟨relLe_trans hle1' hleR, ?_⟩
      intro a b
      rcases htouchR a b with hsame2 | ⟨ha, hp, hc2⟩
      · rcases htouch1 a b with hsame1 | ⟨ha, hb1, hp⟩
        · exact Or.inl
            (hsame2.trans (hsame1.trans (qEntrySt_getRelation s q a b)))
        · exact Or.inr ⟨ha, hp, hcase1 b hb1⟩
      · refine Or.inr ⟨ha, hp, ?_⟩
        rcases hc2 with hns2 | hrest
        · exact hcase1 b (fun hbin => hns2 (hexp1 b hbin))
        · exact Or.inr (List.mem_cons_of_mem q hrest)

/-- Replay of the whole upward phase against a warmed store: if the first
run's phase succeeded without any error message in the final trace, the
second run from a state with the first run's final relation rows and the
matching explored set returns the same upward result with no new
computations. -/
theorem upward_phase_replay (db : DB) (fuel : Nat) (root : String) (θ : ℚ)
    (base : St) :
    ∀ (qs acc : List String) (s : St) (u : List String) (s₁ : St) (t0 : St),
      upward_phase db fuel root θ qs acc s = (.ok u, s₁) →
      Sim s base t0 →
      relLe s₁.relations base.relations →
      (∀ (e : Err), Msg.error e ∉ s₁.messages) →
      ∃ t, upward_phase db fuel root θ qs acc t0 = (.ok u, t)
        ∧ Sim s₁ base t
  | [], acc, s, u, s₁, t0, h, hsim, hle, hne => by
    cases h
    exact ⟨t0, rfl, hsim⟩
  | q :: rest, acc, s, u, s₁, t0, h, hsim, hle, hne => by
    unfold upward_phase at h ⊢
    dsimp only at h ⊢
    rw [show (if q ∈ s.explored
          then { s with explored := s.explored.filter (fun x => x ≠ q) }
          else s) = qEntrySt s q from rfl] at h
    rw [show (if q ∈ t0.explored
          then { t0 with explored := t0.explored.filter (fun x => x ≠ q) }
          else t0) = qEntrySt t0 q from rfl]
    rcases hu : explore_upward db fuel root q 1 0 θ (qEntrySt s q)
      with ⟨ru, s2⟩
    rw [hu] at h
    cases ru with
    | error e => cases h
    | ok uu =>
      dsimp only at h
      obtain ⟨hexp0, hfr0, hrel0, hch0, hcc0⟩ := hsim
      have hsim1 : Sim (qEntrySt s q) base (qEntrySt t0 q) := by
        refine ⟨qEntrySt_explored_congr q hexp0, ?_, ?_, ?_, ?_⟩
        · rw [(qEntrySt_frame t0 q).2.2.2.2, (qEntrySt_frame s q).2.2.2.2,
            hfr0]
        · rw [(qEntrySt_frame t0 q).1, hrel0]
        · rw [(qEntrySt_frame t0 q).2.2.1, hch0]
        · rw [(qEntrySt_frame t0 q).2.2.2.1, hcc0]
      obtain ⟨hleR, _⟩ := upward_phase_rel db fuel root θ rest
        (setUnion acc uu) s2 (.ok u) s₁ h
      have hle2 : relLe s2.relations base.relations := fun a b v hv =>
        hle a b v (hleR a b v hv)
      obtain ⟨Δ2, hΔ2⟩ := upward_phase_msgs db fuel root θ rest
        (setUnion acc uu) s2 (.ok u) s₁ h
      have hne2 : ∀ (e : Err), Msg.error e ∉ s2.messages := by
        intro e hm
        exact hne e (by rw [hΔ2]; exact List.mem_append.mpr (Or.inl hm))
      obtain ⟨t2, ht2, hsim2⟩ := (explore_upward_replay db root 1 θ base
        fuel).1 q 0 (qEntrySt s q) uu s2 (qEntrySt t0 q) hu hsim1 hle2 hne2
      rw [ht2]
      dsimp only
      exact upward_phase_replay db fuel root θ base rest (setUnion acc uu) s2
        u s₁ t2 h hsim2 hle hne

/-! ## Claim C3 — warm rerun idempotence -/

/-- Claim C3 (amended): if a full exploration session succeeds and its final
message trace carries no error message, rerunning `explore_paper` with the
same root, start, threshold and traversal order from the session's final
(warmed) state performs zero new relevance-score computations and returns
identical downward and upward discovered sets. -/
theorem C3_warm_rerun_idempotent (db : DB) (fuel : Nat) (root start : String)
    (maxD : Nat) (θ : ℚ) (ttype : TraversalType) (s : St)
    (d u : List String) (sFin : St)
    (h : explore_paper db fuel root start maxD θ ttype s
        = (.ok (some (d, u)), sFin))
    (hne : ∀ (e : Err), Msg.error e ∉ sFin.messages) :
    ∃ t, explore_paper db fuel root start maxD θ ttype sFin
        = (.ok (some (d, u)), t)
      ∧ t.computeCount = sFin.computeCount := by
  unfold explore_paper at h
  dsimp only at h
  rcases hdown : explore_downward db fuel root start maxD 0 θ
      { s with frontier := mkFrontier ttype, explored := [] } with ⟨rd, sD⟩
  rw [hdown] at h
  cases rd with
  | error e =>
    dsimp only at h
    by_cases hef : e = Err.fuel
    · rw [show except_block (none : Option (List String × List String))
          ((.error e, sD)) = (.error e, sD) from by
          simp [except_block, hef]] at h
      cases h
    · rw [show except_block (none : Option (List String × List String))
          ((.error e, sD)) = (.ok none, pushMsg sD (Msg.error e)) from by
          simp [except_block, hef]] at h
      cases h
  | ok d0 =>
    dsimp only at h
    rcases hq : qualified_go root θ d0 [] sD with ⟨rq, sQ⟩
    have hqst := qualified_go_state root θ d0 [] sD
    rw [hq] at hqst
    dsimp only at hqst
    subst sQ
    rw [hq] at h
    cases rq with
    | error e =>
      dsimp only at h
      by_cases hef : e = Err.fuel
      · rw [show except_block (none : Option (List String × List String))
            ((.error e, sD)) = (.error e, sD) from by
            simp [except_block, hef]] at h
        cases h
      · rw [show except_block (none : Option (List String × List String))
            ((.error e, sD)) = (.ok none, pushMsg sD (Msg.error e)) from by
            simp [except_block, hef]] at h
        cases h
    | ok qs =>
      dsimp only at h
      rcases hup : upward_phase db fuel root θ qs []
          { sD with frontier := mkFrontier ttype } with ⟨ru, sU⟩
      rw [hup] at h
      cases ru with
      | error e =>
        dsimp only at h
        by_cases hef : e = Err.fuel
        · rw [show except_block (none : Option (List String × List String))
              ((.error e, sU)) = (.error e, sU) from by
              simp [except_block, hef]] at h
          cases h
        · rw [show except_block (none : Option (List String × List String))
              ((.error e, sU)) = (.ok none, pushMsg sU (Msg.error e))
              from by simp [except_block, hef]] at h
          cases h
      | ok u0 =>
        dsimp only [except_block] at h
        cases h
        obtain ⟨Δup, hΔup⟩ := upward_phase_msgs db fuel root θ qs []
          { sD with frontier := mkFrontier ttype } (.ok u) sFin hup
        have hneD : ∀ (e : Err), Msg.error e ∉ sD.messages := by
          intro e hm
          refine hne e ?_
          rw [hΔup]
          exact List.mem_append.mpr (Or.inl hm)
        have hleD : relLe sD.relations sFin.relations :=
          (upward_phase_rel db fuel root θ qs []
            { sD with frontier := mkFrontier ttype } (.ok u) sFin hup).1
        obtain ⟨tD, htD, hsimD⟩ := (explore_downward_replay db root maxD θ
            { sFin with frontier := mkFrontier ttype, explored := [] }
            fuel).1 start 0
            { s with frontier := mkFrontier ttype, explored := [] } d sD
            { sFin with frontier := mkFrontier ttype, explored := [] }
            hdown ⟨rfl, rfl, rfl, rfl, rfl⟩ hleD hneD
        have hrelT : tD.relations = sFin.relations := hsimD.2.2.1
        have hag : ∀ n ∈ d, n ≠ root →
            getRelation tD root n = getRelation sD root n := by
          intro n hn _
          have hgt : getRelation tD root n = getRelation sFin root n := by
            show alookup tD.relations (root, n) = alookup sFin.relations
              (root, n)
            rw [hrelT]
          rw [hgt]
          have htouch := (upward_phase_rel db fuel root θ qs []
            { sD with frontier := mkFrontier ttype } (.ok u) sFin hup).2
            root n
          have hfillcase : ∀ v : ℚ, getRelation sD root n = some (some v) →
              getRelation sFin root n = getRelation sD root n := by
            intro v hv
            rw [hv]
            exact hleD root n v hv
          rcases (explore_downward_dcharT db root maxD θ fuel).1 start 0
              { s with frontier := mkFrontier ttype, explored := [] } d sD
              hdown n hn with ⟨w, hw⟩ | hmiss | hexp
          · exact hfillcase w hw
          · rcases htouch with hsame | ⟨hr2, hp, hc⟩
            · exact hsame
            · exact absurd hmiss hp
          · rcases htouch with hsame | ⟨hr2, hp, hc⟩
            · exact hsame
            · rcases hc with hnex | hnq
              · exact absurd hexp hnex
              · rcases qualified_go_spec root θ d [] sD qs sD hq n hnq
                  with hnil | ⟨v, hv, hvt⟩
                · cases hnil
                · exact hfillcase v hv
        have hqrep := qualified_go_replay root θ d [] sD qs sD tD hq hag
        have hsimUp : Sim { sD with frontier := mkFrontier ttype }
            { sFin with frontier := mkFrontier ttype, explored := [] }
            { tD with frontier := mkFrontier ttype } := by
          refine ⟨?_, rfl, hsimD.2.2.1, hsimD.2.2.2.1, hsimD.2.2.2.2⟩
          show tD.explored = sD.explored
          exact hsimD.1
        obtain ⟨tF, htF, hsimF⟩ := upward_phase_replay db fuel root θ
          { sFin with frontier := mkFrontier ttype, explored := [] } qs []
          { sD with frontier := mkFrontier ttype } u sFin
          { tD with frontier := mkFrontier ttype } hup hsimUp
          (relLe_refl sFin.relations) hne
        refine ⟨tF, ?_, hsimF.2.2.2.2⟩
        unfold explore_paper
        dsimp only
        rw [htD]
        dsimp only
        rw [hqrep]
        dsimp only
        rw [htF]
        dsimp only [except_block]

/-- Store for the C3 counterexample: `R` cites `C`, and the embedding
pipeline returns ragged chunk vectors (`[1]` for `R`, `[1, 0]` for `C`), so
every comparison of the pair raises `ValueError`. -/
def dbC3 : DB :=
  { papers := [("R", ⟨"Root", 2020⟩), ("C", ⟨"Gamma", 2017⟩)],
    citations := [("R", "C")],
    embedFn := fun p => if p = "R" then [⟨some [1]⟩] else [⟨some [1, 0]⟩] }

/-- Counterexample to claim C3 as stated: the first session completes
(returning `some` with empty discovered sets after its caught error) and
warms the Relation store with a row for `(R, C)` — but that row's score is
NULL because the comparison raised, so the second identical session is *not*
computation-free: it performs one new relevance-score computation (the
counter moves from 1 to 2). -/
theorem C3_counterexample :
    (explore_paper dbC3 8 "R" "R" 2 (mkRat 1 2) .bfs initSt).1
        = .ok (some ([], []))
      ∧ ((explore_paper dbC3 8 "R" "R" 2 (mkRat 1 2) .bfs initSt).2
          ).computeCount = 1
      ∧ (explore_paper dbC3 8 "R" "R" 2 (mkRat 1 2) .bfs
            (explore_paper dbC3 8 "R" "R" 2 (mkRat 1 2) .bfs initSt).2
          ).2.computeCount = 2 :=
  ⟨by with_unfolding_all rfl, by with_unfolding_all rfl,
    by with_unfolding_all rfl⟩

/-- Error-free store for the C3 witness: a lone root paper with no
citations, so the session completes without any error message. -/
def dbW : DB :=
  { papers := [("R", ⟨"Root", 2020⟩)], citations := [], embedFn := fun _ => [] }

/-- The literal final state of the first (error-free) session on `dbW`. -/
def stC3w : St :=
  { chunks := [], relations := [], explored := ["R"], frontier := .queue [],
    messages := [Msg.batch "downward" [⟨"R", "Root", 2020, none⟩] []],
    computeCount := 0 }

set_option maxHeartbeats 1000000 in
theorem C3_warm_rerun_idempotent_witness :
    ∃ t, explore_paper dbW 3 "R" "R" 2 (mkRat 1 2) .bfs stC3w
        = (.ok (some (["R"], [])), t)
      ∧ t.computeCount = stC3w.computeCount :=
  C3_warm_rerun_idempotent dbW 3 "R" "R" 2 (mkRat 1 2) .bfs initSt
    ["R"] [] stC3w
    (by with_unfolding_all rfl)
    (by intro e he; simp [stC3w] at he)

end PaperGraph
